import Mathlib

/-!
Verification of the buffer-pool core of a BusTub-style storage engine:
the LRU-K replacer (`src/buffer/lru_k_replacer.cpp`), the extendible hash
table (`src/container/hash/extendible_hash_table.cpp`) and the buffer pool
manager (`src/buffer/buffer_pool_manager_instance.cpp`), shallowly embedded
as executable Lean definitions, together with theorems settling the spec's
claims about them.
-/

/-! ## LRU-K replacer: state

`LRUKReplacer` holds `k_`, `replacer_size_`, the monotone
`current_timestamp_`, the evictable counter `curr_size_`, the per-frame
records `frame_map_` (an `unordered_map`; `operator[]` default-constructs,
so we model it as a total function whose initial value is the
default-constructed record), the per-frame timestamp vectors `frame_time_`,
and the two ordering lists `hist_list_` / `cache_list_` of
(timestamp, frame-id) pairs, front first. -/

/-- One record of `frame_map_`: access count `count_`, flag `evictable_`
and the cached K-th timestamp `kth_`.  The header declaring the record is
not in the sources; the numeric fields must default to zero for
`RecordAccess`'s `++count_` logic to work, and the default of `evictable_`
is kept as a parameter `d` of the initial state. -/
structure FrameInfo where
  count : Nat
  evictable : Bool
  kth : Nat
  deriving Repr, DecidableEq

/-- The state of `LRUKReplacer`.  `curr_size_` is a C++ `size_t`; we model
it as an unbounded `Int` so that the increments and decrements are exact. -/
structure LRUK where
  k : Nat
  replacerSize : Nat
  currentTimestamp : Nat
  currSize : Int
  frameMap : Nat → FrameInfo
  frameTime : Nat → List Nat
  histList : List (Nat × Nat)
  cacheList : List (Nat × Nat)

/-- Pointwise update of a total map. -/
def updF {α : Type} (m : Nat → α) (x : Nat) (v : α) : Nat → α :=
  fun y => if y = x then v else m y

/-- Constructor `LRUKReplacer(num_frames, k)`; `d` is the default value of
the `evictable_` field of a freshly default-constructed frame record (its
declaration lives in the missing header). -/
def LRUK.init (n k : Nat) (d : Bool) : LRUK :=
  ⟨k, n, 0, 0, fun _ => ⟨0, d, 0⟩, fun _ => [], [], []⟩

/-- `std::pair` lexicographic `<` on (timestamp, frame-id) pairs. -/
def pairLt (a b : Nat × Nat) : Prop :=
  a.1 < b.1 ∨ (a.1 = b.1 ∧ a.2 < b.2)

instance : DecidablePred fun p : (Nat × Nat) × (Nat × Nat) => pairLt p.1 p.2 :=
  fun _ => by unfold pairLt; infer_instance

instance (a b : Nat × Nat) : Decidable (pairLt a b) := by
  unfold pairLt; infer_instance

/-- `std::upper_bound` followed by `insert`: place `e` before the first
element strictly greater than it. -/
def insertUB (e : Nat × Nat) : List (Nat × Nat) → List (Nat × Nat)
  | [] => [e]
  | x :: xs => if pairLt e x then e :: x :: xs else x :: insertUB e xs

/-- Erase the first list entry whose frame-id component is `f`
(`std::list::erase` through the stored iterator `it_`). -/
def eraseFrame (f : Nat) : List (Nat × Nat) → List (Nat × Nat)
  | [] => []
  | x :: xs => if x.2 = f then xs else x :: eraseFrame f xs

/-- Erase the first occurrence of the exact entry `e`. -/
def eraseEntry (e : Nat × Nat) : List (Nat × Nat) → List (Nat × Nat)
  | [] => []
  | x :: xs => if x = e then xs else x :: eraseEntry e xs

/-- First entry, scanning from the front, whose frame is evictable. -/
def findEvictable (m : Nat → FrameInfo) : List (Nat × Nat) → Option (Nat × Nat)
  | [] => none
  | x :: xs => if (m x.2).evictable then some x else findEvictable m xs

/-! ## LRU-K replacer: operations

Each throwing operation returns `Option LRUK`; `none` models the C++
exception (every throw in the source happens before any mutation, so the
state is unchanged when an exception propagates). -/

/-- `LRUKReplacer::RecordAccess`. -/
def LRUK.RecordAccess (s : LRUK) (f : Nat) : Option LRUK :=
  if s.replacerSize < f then none
  else
    let fi := s.frameMap f
    let newCount := fi.count + 1
    let ts := s.currentTimestamp + 1
    let time1 := s.frameTime f ++ [ts]
    if newCount = 1 then
      some { s with
             currentTimestamp := ts
             currSize := s.currSize + 1
             frameMap := updF s.frameMap f { fi with count := newCount }
             frameTime := updF s.frameTime f time1
             histList := (ts, f) :: s.histList }
    else if newCount = s.k ∨ newCount > s.k then
      let hist1 := if newCount = s.k then eraseFrame f s.histList else s.histList
      let cache0 := if newCount = s.k then s.cacheList else eraseFrame f s.cacheList
      let kth1 := time1.headD 0
      let time2 := time1.tail
      some { s with
             currentTimestamp := ts
             frameMap := updF s.frameMap f ⟨newCount, fi.evictable, kth1⟩
             frameTime := updF s.frameTime f time2
             histList := hist1
             cacheList := insertUB (kth1, f) cache0 }
    else
      some { s with
             currentTimestamp := ts
             frameMap := updF s.frameMap f { fi with count := newCount }
             frameTime := updF s.frameTime f time1 }

/-- `LRUKReplacer::SetEvictable`. -/
def LRUK.SetEvictable (s : LRUK) (f : Nat) (b : Bool) : Option LRUK :=
  if s.replacerSize < f then none
  else
    let fi := s.frameMap f
    let cs : Int :=
      if fi.evictable ∧ ¬b then s.currSize - 1
      else if ¬fi.evictable ∧ b then s.currSize + 1
      else s.currSize
    some { s with
           currSize := cs
           frameMap := updF s.frameMap f { fi with evictable := b } }

/-- `LRUKReplacer::Evict`: scan `hist_list_` from its reverse end, then
`cache_list_` from the front, for the first evictable frame; clear that
frame's record and return its id.  `none` models returning `false`. -/
def LRUK.Evict (s : LRUK) : Option (Nat × LRUK) :=
  match findEvictable s.frameMap s.histList.reverse with
  | some e =>
      some (e.2, { s with
        frameTime := updF s.frameTime e.2 []
        frameMap := updF s.frameMap e.2 { s.frameMap e.2 with count := 0 }
        histList := eraseEntry e s.histList
        currSize := s.currSize - 1 })
  | none =>
    match findEvictable s.frameMap s.cacheList with
    | some e =>
        some (e.2, { s with
          frameTime := updF s.frameTime e.2 []
          frameMap := updF s.frameMap e.2 { s.frameMap e.2 with count := 0 }
          cacheList := eraseEntry e s.cacheList
          currSize := s.currSize - 1 })
    | none => none

/-- `LRUKReplacer::Remove`. -/
def LRUK.Remove (s : LRUK) (f : Nat) : Option LRUK :=
  let fi := s.frameMap f
  if fi.count = 0 then some s
  else if ¬fi.evictable then none
  else
    let hist1 := if fi.count < s.k then eraseFrame f s.histList else s.histList
    let cache1 := if s.k ≤ fi.count then eraseFrame f s.cacheList else s.cacheList
    some { s with
           histList := hist1
           cacheList := cache1
           frameTime := updF s.frameTime f []
           frameMap := updF s.frameMap f { fi with count := 0 }
           currSize := s.currSize - 1 }

/-- `LRUKReplacer::Size`. -/
def LRUK.Size (s : LRUK) : Int := s.currSize

/-! Operation sequences on the replacer.  A thrown exception propagates to
the caller with the state unchanged, and a failed `Evict` simply reports
`false`, so a run continues with the unchanged state in either case. -/

inductive ROp where
  | record (f : Nat)
  | setEvict (f : Nat) (b : Bool)
  | evictOp
  | removeOp (f : Nat)
  deriving Repr, DecidableEq

def applyR (s : LRUK) : ROp → LRUK
  | .record f => (s.RecordAccess f).getD s
  | .setEvict f b => (s.SetEvictable f b).getD s
  | .evictOp => match s.Evict with | some p => p.2 | none => s
  | .removeOp f => (s.Remove f).getD s

def runR (n k : Nat) (d : Bool) (ops : List ROp) : LRUK :=
  ops.foldl applyR (LRUK.init n k d)

/-! ## Small list lemmas used by the replacer invariants -/

theorem eraseFrame_sublist (f : Nat) : ∀ l : List (Nat × Nat), List.Sublist (eraseFrame f l) l
  | [] => List.Sublist.refl _
  | x :: xs => by
      unfold eraseFrame
      by_cases h : x.2 = f
      · simp [h]
      · simpa [h] using (eraseFrame_sublist f xs).cons₂ x

theorem eraseEntry_sublist (e : Nat × Nat) : ∀ l : List (Nat × Nat), List.Sublist (eraseEntry e l) l
  | [] => List.Sublist.refl _
  | x :: xs => by
      unfold eraseEntry
      by_cases h : x = e
      · simp [h]
      · simpa [h] using (eraseEntry_sublist e xs).cons₂ x

theorem eraseFrame_of_not_mem {f : Nat} :
    ∀ {l : List (Nat × Nat)}, f ∉ l.map Prod.snd → eraseFrame f l = l
  | [], _ => rfl
  | x :: xs, h => by
      unfold eraseFrame
      have hx : x.2 ≠ f := by
        intro hc; exact h (by simp [hc.symm])
      have hxs : f ∉ xs.map Prod.snd := by
        intro hc; exact h (by simp [hc])
      simp [hx, eraseFrame_of_not_mem hxs]

theorem mem_eraseFrame {f : Nat} {e : Nat × Nat} :
    ∀ {l : List (Nat × Nat)}, (l.map Prod.snd).Nodup →
      (e ∈ eraseFrame f l ↔ e ∈ l ∧ e.2 ≠ f)
  | [], _ => by simp [eraseFrame]
  | x :: xs, h => by
      rw [List.map_cons, List.nodup_cons] at h
      unfold eraseFrame
      by_cases hx : x.2 = f
      · simp only [if_pos hx]
        constructor
        · intro he
          refine ⟨List.mem_cons_of_mem _ he, ?_⟩
          intro hef
          exact h.1 (hx ▸ hef ▸ List.mem_map_of_mem Prod.snd he)
        · rintro ⟨he, hef⟩
          rcases List.mem_cons.mp he with rfl | he
          · exact absurd hx hef
          · exact he
      · simp only [if_neg hx]
        rw [List.mem_cons, mem_eraseFrame h.2, List.mem_cons]
        constructor
        · rintro (rfl | ⟨he, hef⟩)
          · exact ⟨Or.inl rfl, hx⟩
          · exact ⟨Or.inr he, hef⟩
        · rintro ⟨rfl | he, hef⟩
          · exact Or.inl rfl
          · exact Or.inr ⟨he, hef⟩

theorem mem_eraseEntry {e' e : Nat × Nat} :
    ∀ {l : List (Nat × Nat)}, (l.map Prod.snd).Nodup →
      (e' ∈ eraseEntry e l ↔ e' ∈ l ∧ e' ≠ e)
  | [], _ => by simp [eraseEntry]
  | x :: xs, h => by
      rw [List.map_cons, List.nodup_cons] at h
      unfold eraseEntry
      by_cases hx : x = e
      · simp only [if_pos hx]
        constructor
        · intro he'
          refine ⟨List.mem_cons_of_mem _ he', ?_⟩
          rintro rfl
          exact h.1 (hx ▸ List.mem_map_of_mem Prod.snd he')
        · rintro ⟨he', hne⟩
          rcases List.mem_cons.mp he' with rfl | he'
          · exact absurd hx hne
          · exact he'
      · simp only [if_neg hx]
        rw [List.mem_cons, mem_eraseEntry h.2, List.mem_cons]
        constructor
        · rintro (rfl | ⟨he', hne⟩)
          · refine ⟨Or.inl rfl, ?_⟩
            rintro rfl; exact hx rfl
          · exact ⟨Or.inr he', hne⟩
        · rintro ⟨rfl | he', hne⟩
          · exact Or.inl rfl
          · exact Or.inr ⟨he', hne⟩

theorem insertUB_perm (e : Nat × Nat) : ∀ l : List (Nat × Nat), List.Perm (insertUB e l) (e :: l)
  | [] => List.Perm.refl _
  | x :: xs => by
      unfold insertUB
      by_cases h : pairLt e x
      · simp [h]
      · simp only [if_neg h]
        exact ((insertUB_perm e xs).cons x).trans (List.Perm.swap e x xs)

theorem pairLt_trichot (a b : Nat × Nat) : a = b ∨ pairLt a b ∨ pairLt b a := by
  unfold pairLt
  rcases Nat.lt_trichotomy a.1 b.1 with h | h | h
  · exact Or.inr (Or.inl (Or.inl h))
  · rcases Nat.lt_trichotomy a.2 b.2 with h2 | h2 | h2
    · exact Or.inr (Or.inl (Or.inr ⟨h, h2⟩))
    · exact Or.inl (Prod.ext h h2)
    · exact Or.inr (Or.inr (Or.inr ⟨h.symm, h2⟩))
  · exact Or.inr (Or.inr (Or.inl h))

theorem pairLt_trans {a b c : Nat × Nat} (h1 : pairLt a b) (h2 : pairLt b c) : pairLt a c := by
  unfold pairLt at *
  rcases h1 with h1 | ⟨h1e, h1s⟩ <;> rcases h2 with h2 | ⟨h2e, h2s⟩
  · exact Or.inl (h1.trans h2)
  · exact Or.inl (h2e ▸ h1)
  · exact Or.inl (h1e ▸ h2)
  · exact Or.inr ⟨h1e.trans h2e, h1s.trans h2s⟩

theorem insertUB_sorted {e : Nat × Nat} :
    ∀ {l : List (Nat × Nat)}, l.Sorted pairLt → (∀ x ∈ l, x ≠ e) →
      (insertUB e l).Sorted pairLt
  | [], _, _ => List.sorted_singleton e
  | x :: xs, hs, hne => by
      rw [List.sorted_cons] at hs
      unfold insertUB
      by_cases h : pairLt e x
      · rw [if_pos h, List.sorted_cons]
        refine ⟨?_, List.sorted_cons.mpr hs⟩
        intro b hb
        rcases List.mem_cons.mp hb with rfl | hb
        · exact h
        · exact pairLt_trans h (hs.1 b hb)
      · rw [if_neg h, List.sorted_cons]
        have hxe : pairLt x e := by
          rcases pairLt_trichot x e with heq | hlt | hgt
          · exact absurd heq (hne x (List.mem_cons_self x xs))
          · exact hlt
          · exact absurd hgt h
        refine ⟨?_, insertUB_sorted hs.2 fun y hy => hne y (List.mem_cons_of_mem _ hy)⟩
        intro b hb
        have := (insertUB_perm e xs).mem_iff.mp hb
        rcases List.mem_cons.mp this with rfl | hbxs
        · exact hxe
        · exact hs.1 b hbxs

theorem find?_min_of_sorted {p : Nat × Nat → Bool} :
    ∀ {l : List (Nat × Nat)}, l.Sorted pairLt → ∀ {e}, l.find? p = some e →
      ∀ e' ∈ l, p e' = true → e.1 ≤ e'.1
  | [], _, _, h => by simp at h
  | x :: xs, hs, e, h => by
      rw [List.sorted_cons] at hs
      by_cases hx : p x = true
      · rw [List.find?_cons_of_pos _ hx] at h
        cases h
        intro e' he' _
        rcases List.mem_cons.mp he' with rfl | he'
        · exact Nat.le_refl _
        · rcases hs.1 e' he' with h | ⟨h, _⟩
          · exact Nat.le_of_lt h
          · exact Nat.le_of_eq h
      · rw [List.find?_cons_of_neg _ (by simpa using hx)] at h
        intro e' he' hp
        rcases List.mem_cons.mp he' with rfl | he'
        · exact absurd hp hx
        · exact find?_min_of_sorted hs.2 h e' he' hp

/-! ## Claim C7: the bound check of RecordAccess -/

/-- C7 (counterexample): the claim says `record_access(frame_id)` raises a
logic error exactly when `frame_id >= pool_size`.  At `frame_id = pool_size`
(here pool size 1, frame id 1) the code accepts the id and records the
access, because the check in the source is `frame_id > replacer_size_` and
the constructor sizes `frame_time_` to `num_frames + 1`. -/
theorem C7_boundary_cex :
    ((LRUK.init 1 2 true).RecordAccess 1).isSome = true ∧
    ((runR 1 2 true [ROp.record 1]).frameMap 1).count = 1 ∧
    ((runR 1 2 true [ROp.record 1]).frameTime 1) = [1] := by
  refine ⟨rfl, rfl, rfl⟩

/-- C7 (amended): `record_access(frame_id)` throws, leaving the replacer
unchanged, exactly when `frame_id > pool_size`; for every
`frame_id ≤ pool_size` the call returns normally and the access is
recorded: the frame's access count and the global timestamp both increase
by one. -/
theorem C7_record_access_bound (s : LRUK) (f : Nat) :
    (s.replacerSize < f → s.RecordAccess f = none ∧ applyR s (ROp.record f) = s) ∧
    (f ≤ s.replacerSize →
      ∃ s', s.RecordAccess f = some s' ∧
        (s'.frameMap f).count = (s.frameMap f).count + 1 ∧
        s'.currentTimestamp = s.currentTimestamp + 1) := by
  constructor
  · intro h
    have h1 : s.RecordAccess f = none := by
      unfold LRUK.RecordAccess
      rw [if_pos h]
    exact ⟨h1, by simp [applyR, h1]⟩
  · intro h
    unfold LRUK.RecordAccess
    rw [if_neg (Nat.not_lt.mpr h)]
    simp only
    by_cases h1 : (s.frameMap f).count + 1 = 1
    · rw [if_pos h1]
      exact ⟨_, rfl, by simp [updF], rfl⟩
    · rw [if_neg h1]
      by_cases h2 : (s.frameMap f).count + 1 = s.k ∨ (s.frameMap f).count + 1 > s.k
      · rw [if_pos h2]
        exact ⟨_, rfl, by simp [updF], rfl⟩
      · rw [if_neg h2]
        exact ⟨_, rfl, by simp [updF], rfl⟩

/-- C7 (witness): the amended theorem applied at pool size 1, once with
the rejected frame id 2 and once with the accepted frame id 0. -/
theorem C7_record_access_bound_witness :
    ((LRUK.init 1 2 true).RecordAccess 2 = none ∧
      applyR (LRUK.init 1 2 true) (ROp.record 2) = LRUK.init 1 2 true) ∧
    (∃ s', (LRUK.init 1 2 true).RecordAccess 0 = some s' ∧
      (s'.frameMap 0).count = ((LRUK.init 1 2 true).frameMap 0).count + 1 ∧
      s'.currentTimestamp = (LRUK.init 1 2 true).currentTimestamp + 1) :=
  ⟨(C7_record_access_bound (LRUK.init 1 2 true) 2).1 (by decide),
   (C7_record_access_bound (LRUK.init 1 2 true) 0).2 (by decide)⟩

/-! ## Claim C5 and C6 counterexamples -/

/-- C5 (counterexample): the claim says `record_access` never changes the
value returned by `size()`.  On a fresh replacer (pool 2, K 2) the first
`record_access(0)` moves `size()` from 0 to 1: `RecordAccess` increments
`curr_size_` whenever a frame's access count becomes 1. -/
theorem C5_record_changes_size_cex :
    (runR 2 2 true []).Size = 0 ∧ (runR 2 2 true [ROp.record 0]).Size = 1 := by
  refine ⟨rfl, rfl⟩

/-- C6 (counterexample): the claim quantifies over every K ≥ 1.  With
K = 1, after a single `record_access(0)` the frame's count is 1 ≥ K, yet
the frame sits in `history_list` (the first-access branch inserts there
unconditionally) and `cache_list` is empty, contradicting
count ≥ K ⇒ cache_list. -/
theorem C6_k1_cex :
    ((runR 2 1 true [ROp.record 0]).frameMap 0).count = 1 ∧
    (runR 2 1 true [ROp.record 0]).k = 1 ∧
    ((1, 0) ∈ (runR 2 1 true [ROp.record 0]).histList) ∧
    (runR 2 1 true [ROp.record 0]).cacheList = [] := by
  refine ⟨rfl, rfl, by simp [runR, applyR, LRUK.RecordAccess, LRUK.init, updF], rfl⟩

/-! ## Ghost access history

To state the LRU-K ordering law we track, alongside each run, the full
list of timestamps of every frame's accesses since that frame's record was
last cleared.  The ghost map is updated exactly when the code stamps or
clears timestamps; it does not influence the run. -/

def applyG : (LRUK × (Nat → List Nat)) → ROp → (LRUK × (Nat → List Nat))
  | (s, g), .record f =>
    match s.RecordAccess f with
    | some s' => (s', updF g f (g f ++ [s.currentTimestamp + 1]))
    | none => (s, g)
  | (s, g), .setEvict f b => ((s.SetEvictable f b).getD s, g)
  | (s, g), .evictOp =>
    match s.Evict with
    | some p => (p.2, updF g p.1 [])
    | none => (s, g)
  | (s, g), .removeOp f =>
    match s.Remove f with
    | some s' => (s', if (s.frameMap f).count = 0 then g else updF g f [])
    | none => (s, g)

def runG (n k : Nat) (d : Bool) (ops : List ROp) : LRUK × (Nat → List Nat) :=
  ops.foldl applyG (LRUK.init n k d, fun _ => [])

theorem applyG_fst (s : LRUK) (g : Nat → List Nat) (op : ROp) :
    (applyG (s, g) op).1 = applyR s op := by
  cases op with
  | record f =>
      simp only [applyG, applyR]
      cases h : s.RecordAccess f <;> simp [h]
  | setEvict f b => simp [applyG, applyR]
  | evictOp =>
      simp only [applyG, applyR]
      cases h : s.Evict <;> simp [h]
  | removeOp f =>
      simp only [applyG, applyR]
      cases h : s.Remove f <;> simp [h]

theorem foldG_fst (ops : List ROp) : ∀ (s : LRUK) (g : Nat → List Nat),
    (ops.foldl applyG (s, g)).1 = ops.foldl applyR s := by
  induction ops with
  | nil => intro s g; rfl
  | cons op ops ih =>
      intro s g
      simp only [List.foldl_cons]
      have h := applyG_fst s g op
      rcases hA : applyG (s, g) op with ⟨s1, g1⟩
      rw [hA] at h
      simp only at h
      rw [h]
      exact ih _ _

theorem runG_fst (n k : Nat) (d : Bool) (ops : List ROp) :
    (runG n k d ops).1 = runR n k d ops :=
  foldG_fst ops (LRUK.init n k d) (fun _ => [])

/-- The replacer invariant, tying the concrete state to the ghost access
history `g`.  It holds for every state reachable with `2 ≤ k`. -/
structure GoodR (s : LRUK) (g : Nat → List Nat) : Prop where
  bound : ∀ f, (s.frameMap f).count ≠ 0 → f ≤ s.replacerSize
  len : ∀ f, (g f).length = (s.frameMap f).count
  timeEq : ∀ f, s.frameTime f = (g f).drop ((s.frameMap f).count - (s.k - 1))
  sortedG : ∀ f, (g f).Sorted (· < ·)
  ubG : ∀ f t, t ∈ g f → 0 < t ∧ t ≤ s.currentTimestamp
  disjG : ∀ f f', f ≠ f' → ∀ t, t ∈ g f → t ∉ g f'
  histMem : ∀ e ∈ s.histList, 0 < (s.frameMap e.2).count ∧
      (s.frameMap e.2).count < s.k ∧ (g e.2).head? = some e.1
  histCompl : ∀ f, 0 < (s.frameMap f).count → (s.frameMap f).count < s.k →
      ∃ t, (t, f) ∈ s.histList
  histSorted : s.histList.Sorted (fun a b => b.1 < a.1)
  histNodup : (s.histList.map Prod.snd).Nodup
  cacheMem : ∀ e ∈ s.cacheList, s.k ≤ (s.frameMap e.2).count ∧
      e.1 = (s.frameMap e.2).kth ∧
      (g e.2).get? ((s.frameMap e.2).count - s.k) = some e.1
  cacheCompl : ∀ f, s.k ≤ (s.frameMap f).count → ∃ t, (t, f) ∈ s.cacheList
  cacheSorted : s.cacheList.Sorted pairLt
  cacheNodup : (s.cacheList.map Prod.snd).Nodup

theorem GoodR.init (n k : Nat) (d : Bool) (hk : k ≠ 0) :
    GoodR (LRUK.init n k d) (fun _ => []) := by
  refine ⟨?_, ?_, ?_, ?_, ?_, ?_, ?_, ?_, ?_, ?_, ?_, ?_, ?_, ?_⟩ <;>
    simp [LRUK.init]
  exact hk

theorem updF_same {α : Type} (m : Nat → α) (x : Nat) (v : α) : updF m x v x = v := by
  simp [updF]

theorem updF_other {α : Type} (m : Nat → α) (x : Nat) (v : α) {y : Nat} (h : y ≠ x) :
    updF m x v y = m y := by
  simp [updF, h]

theorem findEvictable_some {m : Nat → FrameInfo} {e : Nat × Nat} :
    ∀ {l : List (Nat × Nat)}, findEvictable m l = some e →
      e ∈ l ∧ (m e.2).evictable = true
  | [], h => by simp [findEvictable] at h
  | x :: xs, h => by
      unfold findEvictable at h
      by_cases hx : (m x.2).evictable
      · rw [if_pos hx] at h
        cases h
        exact ⟨List.mem_cons_self _ _, hx⟩
      · rw [if_neg hx] at h
        have hr := findEvictable_some h
        exact ⟨List.mem_cons_of_mem _ hr.1, hr.2⟩

theorem findEvictable_none {m : Nat → FrameInfo} :
    ∀ {l : List (Nat × Nat)}, findEvictable m l = none →
      ∀ e ∈ l, (m e.2).evictable = false
  | [], _ => by simp
  | x :: xs, h => by
      unfold findEvictable at h
      by_cases hx : (m x.2).evictable
      · rw [if_pos hx] at h; cases h
      · rw [if_neg hx] at h
        intro e he
        rcases List.mem_cons.mp he with rfl | he
        · exact Bool.not_eq_true _ ▸ hx
        · exact findEvictable_none h e he

theorem findEvictable_isSome {m : Nat → FrameInfo} :
    ∀ {l : List (Nat × Nat)}, ∀ e ∈ l, (m e.2).evictable = true →
      (findEvictable m l).isSome = true := by
  intro l e he hev
  cases h : findEvictable m l with
  | some e' => rfl
  | none => exact absurd hev (by simp [findEvictable_none h e he])

theorem findEvictable_min {m : Nat → FrameInfo} :
    ∀ {l : List (Nat × Nat)}, l.Sorted (fun a b => a.1 ≤ b.1) → ∀ {e},
      findEvictable m l = some e →
      ∀ e' ∈ l, (m e'.2).evictable = true → e.1 ≤ e'.1
  | [], _, _, h => by simp [findEvictable] at h
  | x :: xs, hs, e, h => by
      rw [List.sorted_cons] at hs
      unfold findEvictable at h
      by_cases hx : (m x.2).evictable
      · rw [if_pos hx] at h
        cases h
        intro e' he' _
        rcases List.mem_cons.mp he' with rfl | he'
        · exact Nat.le_refl _
        · exact hs.1 e' he'
      · rw [if_neg hx] at h
        intro e' he' hp
        rcases List.mem_cons.mp he' with rfl | he'
        · exact absurd hp hx
        · exact findEvictable_min hs.2 h e' he' hp

/-- Clearing one frame's record (the shared removal protocol of `Evict`
and `Remove`) preserves the replacer invariant, provided the two lists
lose exactly that frame's entries. -/
theorem GoodR.clearFrame {s : LRUK} {g : Nat → List Nat} (h : GoodR s g) (v : Nat)
    (hk1 : 1 ≤ s.k)
    {hist1 cache1 : List (Nat × Nat)}
    (hh : ∀ e', e' ∈ hist1 ↔ e' ∈ s.histList ∧ e'.2 ≠ v)
    (hc : ∀ e', e' ∈ cache1 ↔ e' ∈ s.cacheList ∧ e'.2 ≠ v)
    (hhs : hist1.Sorted (fun a b => b.1 < a.1)) (hhn : (hist1.map Prod.snd).Nodup)
    (hcs : cache1.Sorted pairLt) (hcn : (cache1.map Prod.snd).Nodup) :
    GoodR { s with
            histList := hist1
            cacheList := cache1
            frameTime := updF s.frameTime v []
            frameMap := updF s.frameMap v { s.frameMap v with count := 0 }
            currSize := s.currSize - 1 } (updF g v []) := by
  have hcnt : ∀ f, f ≠ v →
      (updF s.frameMap v { s.frameMap v with count := 0 } f) = s.frameMap f :=
    fun f hf => updF_other _ _ _ hf
  have hgo : ∀ f, f ≠ v → updF g v [] f = g f := fun f hf => updF_other _ _ _ hf
  constructor
  case bound =>
    dsimp only
    intro f hf
    by_cases hfv : f = v
    · subst hfv
      rw [updF_same] at hf
      exact absurd rfl hf
    · rw [hcnt f hfv] at hf
      exact h.bound f hf
  case len =>
    dsimp only
    intro f
    by_cases hfv : f = v
    · subst hfv
      rw [updF_same, updF_same]
      rfl
    · rw [hgo f hfv, hcnt f hfv]
      exact h.len f
  case timeEq =>
    dsimp only
    intro f
    by_cases hfv : f = v
    · subst hfv
      rw [updF_same, updF_same, updF_same]
      simp
    · rw [updF_other _ _ _ hfv, hgo f hfv, hcnt f hfv]
      exact h.timeEq f
  case sortedG =>
    dsimp only
    intro f
    by_cases hfv : f = v
    · subst hfv; rw [updF_same]; exact List.sorted_nil
    · rw [hgo f hfv]; exact h.sortedG f
  case ubG =>
    dsimp only
    intro f t ht
    by_cases hfv : f = v
    · subst hfv; rw [updF_same] at ht; simp at ht
    · rw [hgo f hfv] at ht
      exact h.ubG f t ht
  case disjG =>
    dsimp only
    intro f f' hne t ht
    by_cases hfv : f = v
    · subst hfv; rw [updF_same] at ht; simp at ht
    · rw [hgo f hfv] at ht
      by_cases hfv' : f' = v
      · subst hfv'; rw [updF_same]; simp
      · rw [hgo f' hfv']
        exact h.disjG f f' hne t ht
  case histMem =>
    dsimp only
    intro e' he'
    obtain ⟨hmem, hnv⟩ := (hh e').mp he'
    rw [hcnt _ hnv, hgo _ hnv]
    exact h.histMem e' hmem
  case histCompl =>
    dsimp only
    intro f h0 hlt
    by_cases hfv : f = v
    · subst hfv
      rw [updF_same] at h0
      exact absurd h0 (by simp)
    · rw [hcnt f hfv] at h0 hlt
      obtain ⟨t, ht⟩ := h.histCompl f h0 hlt
      exact ⟨t, (hh (t, f)).mpr ⟨ht, hfv⟩⟩
  case histSorted => exact hhs
  case histNodup => exact hhn
  case cacheMem =>
    dsimp only
    intro e' he'
    obtain ⟨hmem, hnv⟩ := (hc e').mp he'
    rw [hcnt _ hnv, hgo _ hnv]
    exact h.cacheMem e' hmem
  case cacheCompl =>
    dsimp only
    intro f hk
    by_cases hfv : f = v
    · subst hfv
      rw [updF_same] at hk
      simp only [Nat.le_zero] at hk
      omega
    · rw [hcnt f hfv] at hk
      obtain ⟨t, ht⟩ := h.cacheCompl f hk
      exact ⟨t, (hc (t, f)).mpr ⟨ht, hfv⟩⟩
  case cacheSorted => exact hcs
  case cacheNodup => exact hcn

theorem GoodR.setEvict {s : LRUK} {g : Nat → List Nat} (h : GoodR s g)
    {f : Nat} {b : Bool} {s' : LRUK} (hS : s.SetEvictable f b = some s') :
    GoodR s' g := by
  unfold LRUK.SetEvictable at hS
  by_cases hf : s.replacerSize < f
  · rw [if_pos hf] at hS; cases hS
  · rw [if_neg hf] at hS
    simp only [Option.some.injEq] at hS
    subst hS
    have hcnt : ∀ f', ((updF s.frameMap f { s.frameMap f with evictable := b }) f').count
        = (s.frameMap f').count := by
      intro f'
      by_cases hfv : f' = f
      · subst hfv; rw [updF_same]
      · rw [updF_other _ _ _ hfv]
    have hkth : ∀ f', ((updF s.frameMap f { s.frameMap f with evictable := b }) f').kth
        = (s.frameMap f').kth := by
      intro f'
      by_cases hfv : f' = f
      · subst hfv; rw [updF_same]
      · rw [updF_other _ _ _ hfv]
    refine ⟨?_, ?_, ?_, h.sortedG, h.ubG, h.disjG, ?_, ?_, h.histSorted,
      h.histNodup, ?_, ?_, h.cacheSorted, h.cacheNodup⟩
    · dsimp only; intro f' hf'; rw [hcnt] at hf'; exact h.bound f' hf'
    · dsimp only; intro f'; rw [hcnt]; exact h.len f'
    · dsimp only; intro f'; rw [hcnt]; exact h.timeEq f'
    · dsimp only
      intro e he
      rw [hcnt]
      exact h.histMem e he
    · dsimp only
      intro f' h0 hlt
      rw [hcnt] at h0 hlt
      exact h.histCompl f' h0 hlt
    · dsimp only
      intro e he
      rw [hcnt, hkth]
      exact h.cacheMem e he
    · dsimp only
      intro f' hk'
      rw [hcnt] at hk'
      exact h.cacheCompl f' hk'

theorem GoodR.evictStep {s : LRUK} {g : Nat → List Nat} (h : GoodR s g) (hk : 2 ≤ s.k)
    {v : Nat} {s' : LRUK} (hE : s.Evict = some (v, s')) :
    GoodR s' (updF g v []) := by
  have hk1 : 1 ≤ s.k := Nat.le_trans (by norm_num) hk
  unfold LRUK.Evict at hE
  cases hH : findEvictable s.frameMap s.histList.reverse with
  | some e =>
      rw [hH] at hE
      simp only [Option.some.injEq, Prod.mk.injEq] at hE
      obtain ⟨rfl, rfl⟩ := hE
      have hmem : e ∈ s.histList := List.mem_reverse.mp (findEvictable_some hH).1
      have hhm := h.histMem e hmem
      refine h.clearFrame e.2 hk1 ?_ ?_ ?_ ?_ h.cacheSorted h.cacheNodup
      · intro e'
        rw [mem_eraseEntry h.histNodup]
        constructor
        · rintro ⟨hm, hne⟩
          refine ⟨hm, fun hsnd => hne ?_⟩
          exact List.inj_on_of_nodup_map h.histNodup hm hmem hsnd
        · rintro ⟨hm, hsnd⟩
          exact ⟨hm, fun hc => hsnd (hc ▸ rfl)⟩
      · intro e'
        constructor
        · intro hm
          refine ⟨hm, fun hsnd => ?_⟩
          have := (h.cacheMem e' hm).1
          rw [hsnd] at this
          exact absurd this (Nat.not_le.mpr hhm.2.1)
        · exact fun hp => hp.1
      · exact List.Pairwise.sublist (eraseEntry_sublist e _) h.histSorted
      · exact List.Nodup.sublist (List.Sublist.map Prod.snd (eraseEntry_sublist e _)) h.histNodup
  | none =>
      rw [hH] at hE
      cases hC : findEvictable s.frameMap s.cacheList with
      | some e =>
          rw [hC] at hE
          simp only [Option.some.injEq, Prod.mk.injEq] at hE
          obtain ⟨rfl, rfl⟩ := hE
          have hmem : e ∈ s.cacheList := (findEvictable_some hC).1
          have hcm := h.cacheMem e hmem
          refine h.clearFrame e.2 hk1 ?_ ?_ h.histSorted h.histNodup ?_ ?_
          · intro e'
            constructor
            · intro hm
              refine ⟨hm, fun hsnd => ?_⟩
              have := (h.histMem e' hm).2.1
              rw [hsnd] at this
              exact absurd hcm.1 (Nat.not_le.mpr this)
            · exact fun hp => hp.1
          · intro e'
            rw [mem_eraseEntry h.cacheNodup]
            constructor
            · rintro ⟨hm, hne⟩
              refine ⟨hm, fun hsnd => hne ?_⟩
              exact List.inj_on_of_nodup_map h.cacheNodup hm hmem hsnd
            · rintro ⟨hm, hsnd⟩
              exact ⟨hm, fun hc => hsnd (hc ▸ rfl)⟩
          · exact List.Pairwise.sublist (eraseEntry_sublist e _) h.cacheSorted
          · exact List.Nodup.sublist (List.Sublist.map Prod.snd (eraseEntry_sublist e _)) h.cacheNodup
      | none => rw [hC] at hE; cases hE

theorem GoodR.removeStep {s : LRUK} {g : Nat → List Nat} (h : GoodR s g) (hk : 2 ≤ s.k)
    {f : Nat} {s' : LRUK} (hR : s.Remove f = some s')
    (hc0 : (s.frameMap f).count ≠ 0) :
    GoodR s' (updF g f []) := by
  have hk1 : 1 ≤ s.k := Nat.le_trans (by norm_num) hk
  unfold LRUK.Remove at hR
  rw [if_neg hc0] at hR
  by_cases hev : (s.frameMap f).evictable
  · rw [if_neg (by simpa using hev)] at hR
    simp only [Option.some.injEq] at hR
    subst hR
    by_cases hlt : (s.frameMap f).count < s.k
    · rw [if_pos hlt, if_neg (Nat.not_le.mpr hlt)]
      refine h.clearFrame f hk1 ?_ ?_ ?_ ?_ h.cacheSorted h.cacheNodup
      · intro e'
        exact mem_eraseFrame h.histNodup
      · intro e'
        constructor
        · intro hm
          refine ⟨hm, fun hsnd => ?_⟩
          have := (h.cacheMem e' hm).1
          rw [hsnd] at this
          exact absurd this (Nat.not_le.mpr hlt)
        · exact fun hp => hp.1
      · exact List.Pairwise.sublist (eraseFrame_sublist f _) h.histSorted
      · exact List.Nodup.sublist (List.Sublist.map Prod.snd (eraseFrame_sublist f _)) h.histNodup
    · rw [if_neg hlt, if_pos (Nat.le_of_not_lt hlt)]
      refine h.clearFrame f hk1 ?_ ?_ h.histSorted h.histNodup ?_ ?_
      · intro e'
        constructor
        · intro hm
          refine ⟨hm, fun hsnd => ?_⟩
          have := (h.histMem e' hm).2.1
          rw [hsnd] at this
          exact absurd this hlt
        · exact fun hp => hp.1
      · intro e'
        exact mem_eraseFrame h.cacheNodup
      · exact List.Pairwise.sublist (eraseFrame_sublist f _) h.cacheSorted
      · exact List.Nodup.sublist (List.Sublist.map Prod.snd (eraseFrame_sublist f _)) h.cacheNodup
  · rw [if_pos (by simpa using hev)] at hR
    cases hR

theorem mem_of_head?_eq {l : List Nat} {a : Nat} (h : l.head? = some a) : a ∈ l := by
  cases l
  · simp at h
  · simp only [List.head?_cons, Option.some.injEq] at h
    simp [h]

theorem sorted_append_fresh {l : List Nat} {t : Nat} (hs : l.Sorted (· < ·))
    (hf : ∀ x ∈ l, x < t) : (l ++ [t]).Sorted (· < ·) := by
  exact List.pairwise_append.mpr
    ⟨hs, List.pairwise_singleton _ _, fun a ha b hb => (List.mem_singleton.mp hb) ▸ hf a ha⟩

/-- RecordAccess preservation, first-access branch (count 0 → 1). -/
theorem GoodR.recordNew {s : LRUK} {g : Nat → List Nat} (h : GoodR s g) (hk : 2 ≤ s.k)
    {f : Nat} (hfb : f ≤ s.replacerSize) (hc : (s.frameMap f).count = 0) :
    GoodR { s with
            currentTimestamp := s.currentTimestamp + 1
            currSize := s.currSize + 1
            frameMap := updF s.frameMap f
              { s.frameMap f with count := (s.frameMap f).count + 1 }
            frameTime := updF s.frameTime f (s.frameTime f ++ [s.currentTimestamp + 1])
            histList := (s.currentTimestamp + 1, f) :: s.histList }
      (updF g f (g f ++ [s.currentTimestamp + 1])) := by
  have hfresh : ∀ f' t, t ∈ g f' → t < s.currentTimestamp + 1 :=
    fun f' t ht => Nat.lt_succ_of_le (h.ubG f' t ht).2
  have hgnil : g f = [] := List.length_eq_zero.mp ((h.len f).trans hc)
  have htnil : s.frameTime f = [] := by
    have := h.timeEq f
    rw [hc, Nat.zero_sub, List.drop_zero] at this
    rw [this, hgnil]
  have hnotinh : ∀ e ∈ s.histList, e.2 ≠ f := by
    intro e he hef
    have := (h.histMem e he).1
    rw [hef, hc] at this
    exact absurd this (by simp)
  have hnotinc : ∀ e ∈ s.cacheList, e.2 ≠ f := by
    intro e he hef
    have := (h.cacheMem e he).1
    rw [hef, hc] at this
    omega
  refine ⟨?_, ?_, ?_, ?_, ?_, ?_, ?_, ?_, ?_, ?_, ?_, ?_, h.cacheSorted, h.cacheNodup⟩
  · dsimp only
    intro f' hf'
    by_cases hfv : f' = f
    · subst hfv; exact hfb
    · rw [updF_other _ _ _ hfv] at hf'
      exact h.bound f' hf'
  · dsimp only
    intro f'
    by_cases hfv : f' = f
    · subst hfv
      rw [updF_same, updF_same]
      simp [h.len f']
    · rw [updF_other _ _ _ hfv, updF_other _ _ _ hfv]
      exact h.len f'
  · dsimp only
    intro f'
    by_cases hfv : f' = f
    · subst hfv
      rw [updF_same, updF_same, updF_same]
      have h10 : (s.frameMap f').count + 1 - (s.k - 1) = 0 := by
        rw [hc]; omega
      rw [h10, List.drop_zero, htnil, hgnil]
    · rw [updF_other _ _ _ hfv, updF_other _ _ _ hfv, updF_other _ _ _ hfv]
      exact h.timeEq f'
  · dsimp only
    intro f'
    by_cases hfv : f' = f
    · subst hfv
      rw [updF_same]
      exact sorted_append_fresh (h.sortedG f') (hfresh f')
    · rw [updF_other _ _ _ hfv]
      exact h.sortedG f'
  · dsimp only
    intro f' t ht
    by_cases hfv : f' = f
    · subst hfv
      rw [updF_same] at ht
      rcases List.mem_append.mp ht with ht | ht
      · exact ⟨(h.ubG f' t ht).1, Nat.le_succ_of_le (h.ubG f' t ht).2⟩
      · rw [List.mem_singleton.mp ht]
        omega
    · rw [updF_other _ _ _ hfv] at ht
      exact ⟨(h.ubG f' t ht).1, Nat.le_succ_of_le (h.ubG f' t ht).2⟩
  · dsimp only
    intro f1 f2 hne t ht
    by_cases hf1 : f1 = f
    · subst hf1
      rw [updF_same] at ht
      rw [updF_other _ _ _ (Ne.symm hne)]
      rcases List.mem_append.mp ht with ht | ht
      · exact h.disjG f1 f2 hne t ht
      · rw [List.mem_singleton.mp ht]
        intro hmem
        exact absurd (hfresh f2 _ hmem) (by omega)
    · rw [updF_other _ _ _ hf1] at ht
      by_cases hf2 : f2 = f
      · subst hf2
        rw [updF_same]
        intro hmem
        rcases List.mem_append.mp hmem with hm | hm
        · exact h.disjG f1 f2 hne t ht hm
        · rw [List.mem_singleton.mp hm] at ht
          exact absurd (hfresh f1 _ ht) (by omega)
      · rw [updF_other _ _ _ hf2]
        exact h.disjG f1 f2 hne t ht
  · dsimp only
    intro e he
    rcases List.mem_cons.mp he with rfl | he
    · rw [updF_same, updF_same]
      refine ⟨by simp, ?_, ?_⟩
      · show (s.frameMap f).count + 1 < s.k
        omega
      · rw [hgnil]
        rfl
    · have hne := hnotinh e he
      rw [updF_other _ _ _ hne, updF_other _ _ _ hne]
      exact h.histMem e he
  · dsimp only
    intro f' h0 hlt
    by_cases hfv : f' = f
    · subst hfv
      exact ⟨s.currentTimestamp + 1, List.mem_cons_self _ _⟩
    · rw [updF_other _ _ _ hfv] at h0 hlt
      obtain ⟨t, ht⟩ := h.histCompl f' h0 hlt
      exact ⟨t, List.mem_cons_of_mem _ ht⟩
  · dsimp only
    refine List.Pairwise.cons ?_ h.histSorted
    intro e he
    have hh := (h.histMem e he).2.2
    exact hfresh e.2 e.1 (mem_of_head?_eq hh)
  · dsimp only
    rw [List.map_cons]
    refine List.Nodup.cons ?_ h.histNodup
    intro hmem
    obtain ⟨e, he, hee⟩ := List.mem_map.mp hmem
    exact hnotinh e he hee
  · dsimp only
    intro e he
    have hne := hnotinc e he
    rw [updF_other _ _ _ hne, updF_other _ _ _ hne]
    exact h.cacheMem e he
  · dsimp only
    intro f' hk'
    by_cases hfv : f' = f
    · rw [hfv, updF_same] at hk'
      have hk2 : s.k ≤ (s.frameMap f).count + 1 := hk'
      rw [hc] at hk2
      exact absurd hk2 (by omega)
    · rw [updF_other _ _ _ hfv] at hk'
      exact h.cacheCompl f' hk'

/-- RecordAccess preservation, middle branch (0 < count, count + 1 < k):
only the timestamp vector and the count change. -/
theorem GoodR.recordMid {s : LRUK} {g : Nat → List Nat} (h : GoodR s g) (hk : 2 ≤ s.k)
    {f : Nat} (hfb : f ≤ s.replacerSize) (h0 : (s.frameMap f).count ≠ 0)
    (hlt : (s.frameMap f).count + 1 < s.k) :
    GoodR { s with
            currentTimestamp := s.currentTimestamp + 1
            frameMap := updF s.frameMap f
              { s.frameMap f with count := (s.frameMap f).count + 1 }
            frameTime := updF s.frameTime f (s.frameTime f ++ [s.currentTimestamp + 1]) }
      (updF g f (g f ++ [s.currentTimestamp + 1])) := by
  have hfresh : ∀ f' t, t ∈ g f' → t < s.currentTimestamp + 1 :=
    fun f' t ht => Nat.lt_succ_of_le (h.ubG f' t ht).2
  have hgne : g f ≠ [] := by
    intro hnil
    rw [← List.length_eq_zero, h.len f] at hnil
    exact h0 hnil
  have htf : s.frameTime f = g f := by
    have := h.timeEq f
    rwa [show (s.frameMap f).count - (s.k - 1) = 0 by omega, List.drop_zero] at this
  have hnotinc : ∀ e ∈ s.cacheList, e.2 ≠ f := by
    intro e he hef
    have := (h.cacheMem e he).1
    rw [hef] at this
    omega
  refine ⟨?_, ?_, ?_, ?_, ?_, ?_, ?_, ?_, h.histSorted, h.histNodup, ?_, ?_,
    h.cacheSorted, h.cacheNodup⟩
  · dsimp only
    intro f' hf'
    by_cases hfv : f' = f
    · subst hfv; exact hfb
    · rw [updF_other _ _ _ hfv] at hf'
      exact h.bound f' hf'
  · dsimp only
    intro f'
    by_cases hfv : f' = f
    · subst hfv
      rw [updF_same, updF_same]
      simp [h.len f']
    · rw [updF_other _ _ _ hfv, updF_other _ _ _ hfv]
      exact h.len f'
  · dsimp only
    intro f'
    by_cases hfv : f' = f
    · subst hfv
      rw [updF_same, updF_same, updF_same]
      have h10 : (s.frameMap f').count + 1 - (s.k - 1) = 0 := by omega
      rw [h10, List.drop_zero, htf]
    · rw [updF_other _ _ _ hfv, updF_other _ _ _ hfv, updF_other _ _ _ hfv]
      exact h.timeEq f'
  · dsimp only
    intro f'
    by_cases hfv : f' = f
    · subst hfv
      rw [updF_same]
      exact sorted_append_fresh (h.sortedG f') (hfresh f')
    · rw [updF_other _ _ _ hfv]
      exact h.sortedG f'
  · dsimp only
    intro f' t ht
    by_cases hfv : f' = f
    · subst hfv
      rw [updF_same] at ht
      rcases List.mem_append.mp ht with ht | ht
      · exact ⟨(h.ubG f' t ht).1, Nat.le_succ_of_le (h.ubG f' t ht).2⟩
      · rw [List.mem_singleton.mp ht]
        omega
    · rw [updF_other _ _ _ hfv] at ht
      exact ⟨(h.ubG f' t ht).1, Nat.le_succ_of_le (h.ubG f' t ht).2⟩
  · dsimp only
    intro f1 f2 hne t ht
    by_cases hf1 : f1 = f
    · subst hf1
      rw [updF_same] at ht
      rw [updF_other _ _ _ (Ne.symm hne)]
      rcases List.mem_append.mp ht with ht | ht
      · exact h.disjG f1 f2 hne t ht
      · rw [List.mem_singleton.mp ht]
        intro hmem
        exact absurd (hfresh f2 _ hmem) (by omega)
    · rw [updF_other _ _ _ hf1] at ht
      by_cases hf2 : f2 = f
      · subst hf2
        rw [updF_same]
        intro hmem
        rcases List.mem_append.mp hmem with hm | hm
        · exact h.disjG f1 f2 hne t ht hm
        · rw [List.mem_singleton.mp hm] at ht
          exact absurd (hfresh f1 _ ht) (by omega)
      · rw [updF_other _ _ _ hf2]
        exact h.disjG f1 f2 hne t ht
  · dsimp only
    intro e he
    by_cases hef : e.2 = f
    · rw [hef, updF_same, updF_same]
      refine ⟨by simp, ?_, ?_⟩
      · show (s.frameMap f).count + 1 < s.k
        omega
      · rw [List.head?_append_of_ne_nil _ hgne]
        have := (h.histMem e he).2.2
        rwa [hef] at this
    · rw [updF_other _ _ _ hef, updF_other _ _ _ hef]
      exact h.histMem e he
  · dsimp only
    intro f' h0' hlt'
    by_cases hfv : f' = f
    · subst hfv
      exact h.histCompl f' (by omega) (by omega)
    · rw [updF_other _ _ _ hfv] at h0' hlt'
      exact h.histCompl f' h0' hlt'
  · dsimp only
    intro e he
    have hne := hnotinc e he
    rw [updF_other _ _ _ hne, updF_other _ _ _ hne]
    exact h.cacheMem e he
  · dsimp only
    intro f' hk'
    by_cases hfv : f' = f
    · rw [hfv, updF_same] at hk'
      have hk2 : s.k ≤ (s.frameMap f).count + 1 := hk'
      exact absurd hk2 (by omega)
    · rw [updF_other _ _ _ hfv] at hk'
      exact h.cacheCompl f' hk'

/-- RecordAccess preservation, cache branch (count + 1 ≥ k): the frame
moves to (or within) the cache list, keyed by its K-th most recent
timestamp. -/
theorem GoodR.recordCache {s : LRUK} {g : Nat → List Nat} (h : GoodR s g) (hk : 2 ≤ s.k)
    {f : Nat} (hfb : f ≤ s.replacerSize) (h0 : (s.frameMap f).count ≠ 0)
    (hge : s.k ≤ (s.frameMap f).count + 1) :
    GoodR { s with
            currentTimestamp := s.currentTimestamp + 1
            frameMap := updF s.frameMap f
              ⟨(s.frameMap f).count + 1, (s.frameMap f).evictable,
               (s.frameTime f ++ [s.currentTimestamp + 1]).headD 0⟩
            frameTime := updF s.frameTime f (s.frameTime f ++ [s.currentTimestamp + 1]).tail
            histList := if (s.frameMap f).count + 1 = s.k then eraseFrame f s.histList
              else s.histList
            cacheList := insertUB ((s.frameTime f ++ [s.currentTimestamp + 1]).headD 0, f)
              (if (s.frameMap f).count + 1 = s.k then s.cacheList
               else eraseFrame f s.cacheList) }
      (updF g f (g f ++ [s.currentTimestamp + 1])) := by
  have hfresh : ∀ f' t, t ∈ g f' → t < s.currentTimestamp + 1 :=
    fun f' t ht => Nat.lt_succ_of_le (h.ubG f' t ht).2
  have hdroplen : ((g f).drop ((s.frameMap f).count - (s.k - 1))).length = s.k - 1 := by
    rw [List.length_drop, h.len f]
    omega
  have htfne : s.frameTime f ≠ [] := by
    rw [h.timeEq f]
    intro hnil
    rw [hnil] at hdroplen
    simp at hdroplen
    omega
  have hheadD : (s.frameTime f ++ [s.currentTimestamp + 1]).headD 0
      = (s.frameTime f).headD 0 := by
    cases htime : s.frameTime f with
    | nil => exact absurd htime htfne
    | cons a l => rfl
  have hhead? : (s.frameTime f).head? = some ((s.frameTime f).headD 0) := by
    cases htime : s.frameTime f with
    | nil => exact absurd htime htfne
    | cons a l => rfl
  have hgetk : (g f)[(s.frameMap f).count - (s.k - 1)]? =
      some ((s.frameTime f).headD 0) := by
    rw [← List.head?_drop, ← h.timeEq f]
    exact hhead?
  have hidx : (s.frameMap f).count + 1 - s.k = (s.frameMap f).count - (s.k - 1) := by
    omega
  have hltlen : (s.frameMap f).count - (s.k - 1) < (g f).length := by
    rw [h.len f]
    omega
  have hnewget : (g f ++ [s.currentTimestamp + 1]).get? ((s.frameMap f).count + 1 - s.k)
      = some ((s.frameTime f ++ [s.currentTimestamp + 1]).headD 0) := by
    rw [List.get?_eq_getElem?, List.getElem?_append, hidx, if_pos hltlen, hheadD]
    exact hgetk
  -- characterisation of the two lists after the operation
  have hh : ∀ e', e' ∈ (if (s.frameMap f).count + 1 = s.k
      then eraseFrame f s.histList else s.histList) ↔
      e' ∈ s.histList ∧ e'.2 ≠ f := by
    intro e'
    by_cases hcase : (s.frameMap f).count + 1 = s.k
    · rw [if_pos hcase]
      exact mem_eraseFrame h.histNodup
    · rw [if_neg hcase]
      constructor
      · intro hm
        refine ⟨hm, fun hef => ?_⟩
        have := (h.histMem e' hm).2.1
        rw [hef] at this
        omega
      · exact fun hp => hp.1
  have hc0 : ∀ e', e' ∈ (if (s.frameMap f).count + 1 = s.k
      then s.cacheList else eraseFrame f s.cacheList) ↔
      e' ∈ s.cacheList ∧ e'.2 ≠ f := by
    intro e'
    by_cases hcase : (s.frameMap f).count + 1 = s.k
    · rw [if_pos hcase]
      constructor
      · intro hm
        refine ⟨hm, fun hef => ?_⟩
        have := (h.cacheMem e' hm).1
        rw [hef] at this
        omega
      · exact fun hp => hp.1
    · rw [if_neg hcase]
      exact mem_eraseFrame h.cacheNodup
  have hhs1 : (if (s.frameMap f).count + 1 = s.k
      then eraseFrame f s.histList else s.histList).Sorted (fun a b => b.1 < a.1) := by
    by_cases hcase : (s.frameMap f).count + 1 = s.k
    · rw [if_pos hcase]
      exact List.Pairwise.sublist (eraseFrame_sublist f _) h.histSorted
    · rw [if_neg hcase]
      exact h.histSorted
  have hhn1 : ((if (s.frameMap f).count + 1 = s.k
      then eraseFrame f s.histList else s.histList).map Prod.snd).Nodup := by
    by_cases hcase : (s.frameMap f).count + 1 = s.k
    · rw [if_pos hcase]
      exact List.Nodup.sublist (List.Sublist.map Prod.snd (eraseFrame_sublist f _)) h.histNodup
    · rw [if_neg hcase]
      exact h.histNodup
  have hcs0 : (if (s.frameMap f).count + 1 = s.k
      then s.cacheList else eraseFrame f s.cacheList).Sorted pairLt := by
    by_cases hcase : (s.frameMap f).count + 1 = s.k
    · rw [if_pos hcase]; exact h.cacheSorted
    · rw [if_neg hcase]
      exact List.Pairwise.sublist (eraseFrame_sublist f _) h.cacheSorted
  have hcn0 : ((if (s.frameMap f).count + 1 = s.k
      then s.cacheList else eraseFrame f s.cacheList).map Prod.snd).Nodup := by
    by_cases hcase : (s.frameMap f).count + 1 = s.k
    · rw [if_pos hcase]; exact h.cacheNodup
    · rw [if_neg hcase]
      exact List.Nodup.sublist (List.Sublist.map Prod.snd (eraseFrame_sublist f _)) h.cacheNodup
  have hinsmem : ∀ e', e' ∈ insertUB ((s.frameTime f ++ [s.currentTimestamp + 1]).headD 0, f)
      (if (s.frameMap f).count + 1 = s.k then s.cacheList else eraseFrame f s.cacheList) ↔
      e' = ((s.frameTime f ++ [s.currentTimestamp + 1]).headD 0, f) ∨
      e' ∈ (if (s.frameMap f).count + 1 = s.k
        then s.cacheList else eraseFrame f s.cacheList) := by
    intro e'
    rw [(insertUB_perm _ _).mem_iff, List.mem_cons]
  refine ⟨?_, ?_, ?_, ?_, ?_, ?_, ?_, ?_, hhs1, hhn1, ?_, ?_, ?_, ?_⟩
  · dsimp only
    intro f' hf'
    by_cases hfv : f' = f
    · subst hfv; exact hfb
    · rw [updF_other _ _ _ hfv] at hf'
      exact h.bound f' hf'
  · dsimp only
    intro f'
    by_cases hfv : f' = f
    · subst hfv
      rw [updF_same, updF_same]
      simp [h.len f']
    · rw [updF_other _ _ _ hfv, updF_other _ _ _ hfv]
      exact h.len f'
  · dsimp only
    intro f'
    by_cases hfv : f' = f
    · subst hfv
      rw [updF_same, updF_same, updF_same]
      show (s.frameTime f' ++ [s.currentTimestamp + 1]).tail
        = List.drop ((s.frameMap f').count + 1 - (s.k - 1)) (g f' ++ [s.currentTimestamp + 1])
      rw [h.timeEq f', List.tail_append_singleton_of_ne_nil (h.timeEq f' ▸ htfne),
        List.tail_drop, List.drop_append_of_le_length (by rw [h.len f']; omega)]
      congr 1
      congr 1
      omega
    · rw [updF_other _ _ _ hfv, updF_other _ _ _ hfv, updF_other _ _ _ hfv]
      exact h.timeEq f'
  · dsimp only
    intro f'
    by_cases hfv : f' = f
    · subst hfv
      rw [updF_same]
      exact sorted_append_fresh (h.sortedG f') (hfresh f')
    · rw [updF_other _ _ _ hfv]
      exact h.sortedG f'
  · dsimp only
    intro f' t ht
    by_cases hfv : f' = f
    · subst hfv
      rw [updF_same] at ht
      rcases List.mem_append.mp ht with ht | ht
      · exact ⟨(h.ubG f' t ht).1, Nat.le_succ_of_le (h.ubG f' t ht).2⟩
      · rw [List.mem_singleton.mp ht]
        omega
    · rw [updF_other _ _ _ hfv] at ht
      exact ⟨(h.ubG f' t ht).1, Nat.le_succ_of_le (h.ubG f' t ht).2⟩
  · dsimp only
    intro f1 f2 hne t ht
    by_cases hf1 : f1 = f
    · subst hf1
      rw [updF_same] at ht
      rw [updF_other _ _ _ (Ne.symm hne)]
      rcases List.mem_append.mp ht with ht | ht
      · exact h.disjG f1 f2 hne t ht
      · rw [List.mem_singleton.mp ht]
        intro hmem
        exact absurd (hfresh f2 _ hmem) (by omega)
    · rw [updF_other _ _ _ hf1] at ht
      by_cases hf2 : f2 = f
      · subst hf2
        rw [updF_same]
        intro hmem
        rcases List.mem_append.mp hmem with hm | hm
        · exact h.disjG f1 f2 hne t ht hm
        · rw [List.mem_singleton.mp hm] at ht
          exact absurd (hfresh f1 _ ht) (by omega)
      · rw [updF_other _ _ _ hf2]
        exact h.disjG f1 f2 hne t ht
  · dsimp only
    intro e' he'
    obtain ⟨hm, hne⟩ := (hh e').mp he'
    rw [updF_other _ _ _ hne, updF_other _ _ _ hne]
    exact h.histMem e' hm
  · dsimp only
    intro f' h0' hlt'
    by_cases hfv : f' = f
    · rw [hfv, updF_same] at hlt'
      have : (s.frameMap f).count + 1 < s.k := hlt'
      omega
    · rw [updF_other _ _ _ hfv] at h0' hlt'
      obtain ⟨t, ht⟩ := h.histCompl f' h0' hlt'
      exact ⟨t, (hh (t, f')).mpr ⟨ht, hfv⟩⟩
  · dsimp only
    intro e' he'
    rcases (hinsmem e').mp he' with rfl | he'
    · rw [updF_same, updF_same]
      refine ⟨?_, rfl, ?_⟩
      · show s.k ≤ (s.frameMap f).count + 1
        exact hge
      · show (g f ++ [s.currentTimestamp + 1]).get? ((s.frameMap f).count + 1 - s.k) = _
        exact hnewget
    · obtain ⟨hm, hne⟩ := (hc0 e').mp he'
      rw [updF_other _ _ _ hne, updF_other _ _ _ hne]
      exact h.cacheMem e' hm
  · dsimp only
    intro f' hk'
    by_cases hfv : f' = f
    · subst hfv
      exact ⟨_, (hinsmem _).mpr (Or.inl rfl)⟩
    · rw [updF_other _ _ _ hfv] at hk'
      obtain ⟨t, ht⟩ := h.cacheCompl f' hk'
      exact ⟨t, (hinsmem (t, f')).mpr (Or.inr ((hc0 (t, f')).mpr ⟨ht, hfv⟩))⟩
  · dsimp only
    refine insertUB_sorted hcs0 ?_
    intro x hx hxe
    have := ((hc0 x).mp hx).2
    rw [hxe] at this
    exact this rfl
  · dsimp only
    have hperm := (insertUB_perm ((s.frameTime f ++ [s.currentTimestamp + 1]).headD 0, f)
      (if (s.frameMap f).count + 1 = s.k then s.cacheList else eraseFrame f s.cacheList)).map
      Prod.snd
    rw [List.Perm.nodup_iff hperm, List.map_cons, List.nodup_cons]
    refine ⟨?_, hcn0⟩
    intro hmem
    obtain ⟨e', he', hee⟩ := List.mem_map.mp hmem
    exact ((hc0 e').mp he').2 hee

theorem GoodR.recordStep {s : LRUK} {g : Nat → List Nat} (h : GoodR s g) (hk : 2 ≤ s.k)
    {f : Nat} {s' : LRUK} (hR : s.RecordAccess f = some s') :
    GoodR s' (updF g f (g f ++ [s.currentTimestamp + 1])) := by
  unfold LRUK.RecordAccess at hR
  by_cases hfb : s.replacerSize < f
  · rw [if_pos hfb] at hR
    cases hR
  · rw [if_neg hfb] at hR
    simp only at hR
    by_cases h1 : (s.frameMap f).count + 1 = 1
    · rw [if_pos h1] at hR
      simp only [Option.some.injEq] at hR
      subst hR
      exact h.recordNew hk (Nat.le_of_not_lt hfb) (by omega)
    · rw [if_neg h1] at hR
      by_cases h2 : (s.frameMap f).count + 1 = s.k ∨ (s.frameMap f).count + 1 > s.k
      · rw [if_pos h2] at hR
        simp only [Option.some.injEq] at hR
        subst hR
        exact h.recordCache hk (Nat.le_of_not_lt hfb) (by omega) (by omega)
      · rw [if_neg h2] at hR
        simp only [Option.some.injEq] at hR
        subst hR
        exact h.recordMid hk (Nat.le_of_not_lt hfb) (by omega) (by omega)

theorem RecordAccess_k {s : LRUK} {f : Nat} {s' : LRUK}
    (h : s.RecordAccess f = some s') : s'.k = s.k ∧ s'.replacerSize = s.replacerSize := by
  unfold LRUK.RecordAccess at h
  by_cases h0 : s.replacerSize < f
  · rw [if_pos h0] at h; cases h
  · rw [if_neg h0] at h
    simp only at h
    split at h
    · cases h; exact ⟨rfl, rfl⟩
    · split at h
      · cases h; exact ⟨rfl, rfl⟩
      · cases h; exact ⟨rfl, rfl⟩

theorem SetEvictable_k {s : LRUK} {f : Nat} {b : Bool} {s' : LRUK}
    (h : s.SetEvictable f b = some s') : s'.k = s.k ∧ s'.replacerSize = s.replacerSize := by
  unfold LRUK.SetEvictable at h
  split at h
  · cases h
  · cases h; exact ⟨rfl, rfl⟩

theorem Evict_k {s : LRUK} {v : Nat} {s' : LRUK}
    (h : s.Evict = some (v, s')) : s'.k = s.k ∧ s'.replacerSize = s.replacerSize := by
  unfold LRUK.Evict at h
  cases hH : findEvictable s.frameMap s.histList.reverse with
  | some e =>
      rw [hH] at h
      simp only [Option.some.injEq, Prod.mk.injEq] at h
      obtain ⟨-, rfl⟩ := h
      exact ⟨rfl, rfl⟩
  | none =>
      rw [hH] at h
      cases hC : findEvictable s.frameMap s.cacheList with
      | some e =>
          rw [hC] at h
          simp only [Option.some.injEq, Prod.mk.injEq] at h
          obtain ⟨-, rfl⟩ := h
          exact ⟨rfl, rfl⟩
      | none => rw [hC] at h; cases h

theorem Remove_k {s : LRUK} {f : Nat} {s' : LRUK}
    (h : s.Remove f = some s') : s'.k = s.k ∧ s'.replacerSize = s.replacerSize := by
  unfold LRUK.Remove at h
  simp only at h
  split at h
  · cases h; exact ⟨rfl, rfl⟩
  · split at h
    · cases h
    · cases h; exact ⟨rfl, rfl⟩

theorem applyR_k (s : LRUK) (op : ROp) :
    (applyR s op).k = s.k ∧ (applyR s op).replacerSize = s.replacerSize := by
  cases op with
  | record f =>
      simp only [applyR]
      cases h : s.RecordAccess f with
      | some s' => simpa using RecordAccess_k h
      | none => exact ⟨rfl, rfl⟩
  | setEvict f b =>
      simp only [applyR]
      cases h : s.SetEvictable f b with
      | some s' => simpa using SetEvictable_k h
      | none => exact ⟨rfl, rfl⟩
  | evictOp =>
      simp only [applyR]
      cases h : s.Evict with
      | some p => simpa using @Evict_k s p.1 p.2 (by rw [h])
      | none => exact ⟨rfl, rfl⟩
  | removeOp f =>
      simp only [applyR]
      cases h : s.Remove f with
      | some s' => simpa using Remove_k h
      | none => exact ⟨rfl, rfl⟩

theorem GoodR.step {s : LRUK} {g : Nat → List Nat} (hk : 2 ≤ s.k) (h : GoodR s g)
    (op : ROp) : GoodR (applyG (s, g) op).1 (applyG (s, g) op).2 := by
  cases op with
  | record f =>
      simp only [applyG]
      cases hR : s.RecordAccess f with
      | some s' => exact h.recordStep hk hR
      | none => exact h
  | setEvict f b =>
      simp only [applyG]
      cases hS : s.SetEvictable f b with
      | some s' => simpa using h.setEvict hS
      | none => simpa using h
  | evictOp =>
      simp only [applyG]
      cases hE : s.Evict with
      | some p => exact @GoodR.evictStep s g h hk p.1 p.2 (by rw [hE])
      | none => exact h
  | removeOp f =>
      simp only [applyG]
      cases hR : s.Remove f with
      | some s' =>
          by_cases hc0 : (s.frameMap f).count = 0
          · have hs : s' = s := by
              unfold LRUK.Remove at hR
              rw [if_pos hc0] at hR
              exact (Option.some.inj hR).symm
            rw [if_pos hc0]
            subst hs
            exact h
          · rw [if_neg hc0]
            exact h.removeStep hk hR hc0
      | none => exact h

theorem GoodR.runAux : ∀ (ops : List ROp) (s : LRUK) (g : Nat → List Nat), 2 ≤ s.k →
    GoodR s g → GoodR (ops.foldl applyG (s, g)).1 (ops.foldl applyG (s, g)).2
  | [], _, _, _, h => h
  | op :: ops, s, g, hk, h => by
      simp only [List.foldl_cons]
      have hstep := GoodR.step hk h op
      have hkeep := applyR_k s op
      rw [← applyG_fst s g op] at hkeep
      rcases hA : applyG (s, g) op with ⟨s1, g1⟩
      rw [hA] at hstep hkeep
      simp only at hstep hkeep
      exact GoodR.runAux ops s1 g1 (hkeep.1 ▸ hk) hstep

/-- Every state reachable with 2 ≤ k satisfies the replacer invariant,
together with its ghost access history. -/
theorem GoodR.run (n k : Nat) (d : Bool) (hk : 2 ≤ k) (ops : List ROp) :
    GoodR (runG n k d ops).1 (runG n k d ops).2 :=
  GoodR.runAux ops (LRUK.init n k d) (fun _ => []) hk (GoodR.init n k d (by omega))

theorem runG_k (n k : Nat) (d : Bool) (ops : List ROp) :
    (runG n k d ops).1.k = k ∧ (runG n k d ops).1.replacerSize = n := by
  unfold runG
  have : ∀ (l : List ROp) (s : LRUK) (g : Nat → List Nat),
      (l.foldl applyG (s, g)).1.k = s.k ∧
      (l.foldl applyG (s, g)).1.replacerSize = s.replacerSize := by
    intro l
    induction l with
    | nil => intro s g; exact ⟨rfl, rfl⟩
    | cons op l ih =>
        intro s g
        simp only [List.foldl_cons]
        have hkeep := applyR_k s op
        rw [← applyG_fst s g op] at hkeep
        rcases hA : applyG (s, g) op with ⟨s1, g1⟩
        rw [hA] at hkeep
        simp only at hkeep
        rw [(ih s1 g1).1, (ih s1 g1).2, hkeep.1, hkeep.2]
        exact ⟨rfl, rfl⟩
  exact this ops (LRUK.init n k d) (fun _ => [])

/-! ## Claim C6: history/cache trichotomy -/

/-- C6 (amended): for every replacer configured with K ≥ 2 (K = 1 breaks
the claim, see the counterexample) and after any operation sequence, each
tracked frame is in exactly one of the two lists, decided by its count:
count 0 — neither list; 0 < count < K — history list only; count ≥ K —
cache list only; and each list mentions a frame at most once. -/
theorem C6_list_trichotomy (n k : Nat) (d : Bool) (hk : 2 ≤ k) (ops : List ROp)
    (s : LRUK) (hs : runR n k d ops = s) (f : Nat) :
    ((s.frameMap f).count = 0 →
      (∀ t, (t, f) ∉ s.histList) ∧ (∀ t, (t, f) ∉ s.cacheList)) ∧
    (0 < (s.frameMap f).count → (s.frameMap f).count < k →
      (∃ t, (t, f) ∈ s.histList) ∧ (∀ t, (t, f) ∉ s.cacheList)) ∧
    (k ≤ (s.frameMap f).count →
      (∃ t, (t, f) ∈ s.cacheList) ∧ (∀ t, (t, f) ∉ s.histList)) ∧
    (s.histList.map Prod.snd).Nodup ∧ (s.cacheList.map Prod.snd).Nodup := by
  subst hs
  have hG : GoodR (runG n k d ops).1 (runG n k d ops).2 := GoodR.run n k d hk ops
  rw [runG_fst] at hG
  have hkk : (runR n k d ops).k = k := by
    rw [← runG_fst]
    exact (runG_k n k d ops).1
  refine ⟨?_, ?_, ?_, hG.histNodup, hG.cacheNodup⟩
  · intro h0
    constructor
    · intro t ht
      have := (hG.histMem (t, f) ht).1
      rw [h0] at this
      exact absurd this (by simp)
    · intro t ht
      have := (hG.cacheMem (t, f) ht).1
      dsimp only at this
      rw [h0, hkk] at this
      omega
  · intro h0 hlt
    constructor
    · exact hG.histCompl f h0 (by rw [hkk]; exact hlt)
    · intro t ht
      have := (hG.cacheMem (t, f) ht).1
      dsimp only at this
      rw [hkk] at this
      omega
  · intro hge
    constructor
    · exact hG.cacheCompl f (by rw [hkk]; exact hge)
    · intro t ht
      have := (hG.histMem (t, f) ht).2.1
      dsimp only at this
      rw [hkk] at this
      omega

/-- C6 (witness): the amended trichotomy applied to a concrete run with
K = 2 in which frame 0 reaches two accesses (cache list), frame 1 one
access (history list), and frame 2 none (neither list). -/
theorem C6_list_trichotomy_witness :
    (∃ t, (t, (0 : Nat)) ∈
      (runR 3 2 true [ROp.record 0, ROp.record 0, ROp.record 1]).cacheList) ∧
    (∃ t, (t, (1 : Nat)) ∈
      (runR 3 2 true [ROp.record 0, ROp.record 0, ROp.record 1]).histList) ∧
    (∀ t, (t, (2 : Nat)) ∉
      (runR 3 2 true [ROp.record 0, ROp.record 0, ROp.record 1]).histList) :=
  ⟨((C6_list_trichotomy 3 2 true (by decide)
      [ROp.record 0, ROp.record 0, ROp.record 1] _ rfl 0).2.2.1 (by decide)).1,
   ((C6_list_trichotomy 3 2 true (by decide)
      [ROp.record 0, ROp.record 0, ROp.record 1] _ rfl 1).2.1 (by decide) (by decide)).1,
   ((C6_list_trichotomy 3 2 true (by decide)
      [ROp.record 0, ROp.record 0, ROp.record 1] _ rfl 2).1 (by decide)).1⟩

/-! ## Claim C8: the Remove contract -/

/-- C8: on any state reachable with K ≥ 2, `remove(frame_id)` returns
silently with the state unchanged when the frame has no recorded accesses;
it throws a logic error, leaving the state unchanged, when the frame is
tracked but not evictable; otherwise it removes the frame's entry from
whichever list holds it (leaving all other entries in place), clears its
access history and count, and decrements the evictable counter by one. -/
theorem C8_remove_contract (n k : Nat) (d : Bool) (hk : 2 ≤ k) (ops : List ROp)
    (s : LRUK) (hs : runR n k d ops = s) (f : Nat) :
    ((s.frameMap f).count = 0 → s.Remove f = some s) ∧
    ((s.frameMap f).count ≠ 0 → (s.frameMap f).evictable = false →
      s.Remove f = none ∧ applyR s (ROp.removeOp f) = s) ∧
    ((s.frameMap f).count ≠ 0 → (s.frameMap f).evictable = true →
      ∃ s', s.Remove f = some s' ∧
        (s'.frameMap f).count = 0 ∧ s'.frameTime f = [] ∧
        s'.currSize = s.currSize - 1 ∧
        (∀ t, (t, f) ∉ s'.histList) ∧ (∀ t, (t, f) ∉ s'.cacheList) ∧
        (∀ e : Nat × Nat, e.2 ≠ f → (e ∈ s'.histList ↔ e ∈ s.histList)) ∧
        (∀ e : Nat × Nat, e.2 ≠ f → (e ∈ s'.cacheList ↔ e ∈ s.cacheList)) ∧
        (∀ f', f' ≠ f → s'.frameMap f' = s.frameMap f' ∧
          s'.frameTime f' = s.frameTime f')) := by
  have hG : GoodR (runG n k d ops).1 (runG n k d ops).2 := GoodR.run n k d hk ops
  rw [runG_fst, hs] at hG
  refine ⟨?_, ?_, ?_⟩
  · intro h0
    unfold LRUK.Remove
    rw [if_pos h0]
  · intro h0 hev
    have hnone : s.Remove f = none := by
      unfold LRUK.Remove
      rw [if_neg h0, if_pos (by simp [hev])]
    exact ⟨hnone, by simp [applyR, hnone]⟩
  · intro h0 hev
    unfold LRUK.Remove
    rw [if_neg h0, if_neg (by simp [hev])]
    refine ⟨_, rfl, by dsimp only; rw [updF_same], by dsimp only; rw [updF_same], rfl, ?_, ?_, ?_, ?_, ?_⟩
    · intro t ht
      dsimp only at ht
      by_cases hlt : (s.frameMap f).count < s.k
      · rw [if_pos hlt] at ht
        exact absurd rfl ((mem_eraseFrame hG.histNodup).mp ht).2
      · rw [if_neg hlt] at ht
        have := (hG.histMem (t, f) ht).2.1
        dsimp only at this
        exact absurd this hlt
    · intro t ht
      dsimp only at ht
      by_cases hge : s.k ≤ (s.frameMap f).count
      · rw [if_pos hge] at ht
        exact absurd rfl ((mem_eraseFrame hG.cacheNodup).mp ht).2
      · rw [if_neg hge] at ht
        have := (hG.cacheMem (t, f) ht).1
        dsimp only at this
        exact absurd this hge
    · intro e hne
      dsimp only
      by_cases hlt : (s.frameMap f).count < s.k
      · rw [if_pos hlt]
        constructor
        · exact fun hm => ((mem_eraseFrame hG.histNodup).mp hm).1
        · exact fun hm => (mem_eraseFrame hG.histNodup).mpr ⟨hm, hne⟩
      · rw [if_neg hlt]
    · intro e hne
      dsimp only
      by_cases hge : s.k ≤ (s.frameMap f).count
      · rw [if_pos hge]
        constructor
        · exact fun hm => ((mem_eraseFrame hG.cacheNodup).mp hm).1
        · exact fun hm => (mem_eraseFrame hG.cacheNodup).mpr ⟨hm, hne⟩
      · rw [if_neg hge]
    · intro f' hne
      exact ⟨updF_other _ _ _ hne, updF_other _ _ _ hne⟩

/-- C8 (witness): the contract applied on a concrete reachable state, once
in each of the three cases. -/
theorem C8_remove_contract_witness :
    ((runR 2 2 true [ROp.record 0, ROp.setEvict 0 false]).Remove 1 =
      some (runR 2 2 true [ROp.record 0, ROp.setEvict 0 false])) ∧
    ((runR 2 2 true [ROp.record 0, ROp.setEvict 0 false]).Remove 0 = none) ∧
    (∃ s', (runR 2 2 true [ROp.record 0]).Remove 0 = some s' ∧
      (s'.frameMap 0).count = 0 ∧ s'.frameTime 0 = [] ∧
      s'.currSize = (runR 2 2 true [ROp.record 0]).currSize - 1 ∧
      (∀ t, (t, 0) ∉ s'.histList) ∧ (∀ t, (t, 0) ∉ s'.cacheList) ∧
      (∀ e : Nat × Nat, e.2 ≠ 0 →
        (e ∈ s'.histList ↔ e ∈ (runR 2 2 true [ROp.record 0]).histList)) ∧
      (∀ e : Nat × Nat, e.2 ≠ 0 →
        (e ∈ s'.cacheList ↔ e ∈ (runR 2 2 true [ROp.record 0]).cacheList)) ∧
      (∀ f', f' ≠ 0 → s'.frameMap f' = (runR 2 2 true [ROp.record 0]).frameMap f' ∧
        s'.frameTime f' = (runR 2 2 true [ROp.record 0]).frameTime f')) :=
  ⟨(C8_remove_contract 2 2 true (by decide) [ROp.record 0, ROp.setEvict 0 false]
      _ rfl 1).1 (by decide),
   ((C8_remove_contract 2 2 true (by decide) [ROp.record 0, ROp.setEvict 0 false]
      _ rfl 0).2.1 (by decide) (by decide)).1,
   (C8_remove_contract 2 2 true (by decide) [ROp.record 0]
      _ rfl 0).2.2 (by decide) (by decide)⟩

theorem pairLt_fst_le {a b : Nat × Nat} (h : pairLt a b) : a.1 ≤ b.1 := by
  rcases h with h | ⟨h, -⟩
  · exact Nat.le_of_lt h
  · exact Nat.le_of_eq h

/-! ## Claim C4: the LRU-K ordering law -/

/-- C4: on any state reachable with K ≥ 2 (tracked through the ghost
access history `g`): (a) if some frame is tracked and every tracked frame
has at least K recorded accesses and is evictable, `Evict` returns the
frame whose K-th most recent access timestamp is smallest; (b) if some
evictable frame has fewer than K accesses, `Evict` returns such a frame —
the one whose first access is oldest — before any frame with ≥ K
accesses. -/
theorem C4_lru_k_ordering (n k : Nat) (d : Bool) (hk : 2 ≤ k) (ops : List ROp)
    (s : LRUK) (g : Nat → List Nat) (hs : runG n k d ops = (s, g)) :
    ((∃ f0, (s.frameMap f0).count ≠ 0) →
     (∀ f, f ≤ n → (s.frameMap f).count ≠ 0 →
        k ≤ (s.frameMap f).count ∧ (s.frameMap f).evictable = true) →
      ∃ v s', s.Evict = some (v, s') ∧ (s.frameMap v).count ≠ 0 ∧
        ∀ f, (s.frameMap f).count ≠ 0 →
          ∀ tv tf, (g v).get? ((s.frameMap v).count - k) = some tv →
            (g f).get? ((s.frameMap f).count - k) = some tf → tv ≤ tf) ∧
    ((∃ f0, 0 < (s.frameMap f0).count ∧ (s.frameMap f0).count < k ∧
        (s.frameMap f0).evictable = true) →
      ∃ v s', s.Evict = some (v, s') ∧ 0 < (s.frameMap v).count ∧
        (s.frameMap v).count < k ∧ (s.frameMap v).evictable = true ∧
        ∀ f, 0 < (s.frameMap f).count → (s.frameMap f).count < k →
          (s.frameMap f).evictable = true →
          ∀ tv tf, (g v).head? = some tv → (g f).head? = some tf → tv ≤ tf) := by
  have hG : GoodR s g := by
    have := GoodR.run n k d hk ops
    rw [hs] at this
    exact this
  have hkk : s.k = k := by
    have := (runG_k n k d ops).1
    rw [hs] at this
    exact this
  have hnn : s.replacerSize = n := by
    have := (runG_k n k d ops).2
    rw [hs] at this
    exact this
  have hble : ∀ f, (s.frameMap f).count ≠ 0 → f ≤ n := fun f hf => hnn ▸ hG.bound f hf
  constructor
  · intro hex hall
    have hhist : s.histList = [] := by
      rw [List.eq_nil_iff_forall_not_mem]
      intro e he
      have h1 := hG.histMem e he
      have h2 := (hall e.2 (hble e.2 (by omega)) (by omega)).1
      rw [← hkk] at h2
      omega
    obtain ⟨f0, hf0⟩ := hex
    obtain ⟨t0, ht0⟩ := hG.cacheCompl f0
      (by rw [hkk]; exact (hall f0 (hble f0 hf0) hf0).1)
    have hev0 : (s.frameMap (t0, f0).2).evictable = true := (hall f0 (hble f0 hf0) hf0).2
    have hsome := findEvictable_isSome (t0, f0) ht0 hev0
    cases hC : findEvictable s.frameMap s.cacheList with
    | none => rw [hC] at hsome; cases hsome
    | some e =>
        have hnone : findEvictable s.frameMap s.histList.reverse = none := by
          rw [hhist]
          rfl
        have hce := hG.cacheMem e (findEvictable_some hC).1
        have hEv : s.Evict = some (e.2,
            { s with
              frameTime := updF s.frameTime e.2 []
              frameMap := updF s.frameMap e.2 { s.frameMap e.2 with count := 0 }
              cacheList := eraseEntry e s.cacheList
              currSize := s.currSize - 1 }) := by
          unfold LRUK.Evict
          rw [hnone, hC]
        refine ⟨e.2, _, hEv, by omega, ?_⟩
        intro f hf tv tf htv htf
        obtain ⟨t', ht'⟩ := hG.cacheCompl f
          (by rw [hkk]; exact (hall f (hble f hf) hf).1)
        have hcf := hG.cacheMem (t', f) ht'
        dsimp only at hcf
        have htfeq : tf = t' := by
          rw [← hkk] at htf
          rw [htf] at hcf
          exact Option.some.inj hcf.2.2
        have htveq : tv = e.1 := by
          rw [← hkk] at htv
          rw [htv] at hce
          exact Option.some.inj hce.2.2
        have hsorted : s.cacheList.Sorted (fun a b => a.1 ≤ b.1) :=
          hG.cacheSorted.imp pairLt_fst_le
        have hmin := findEvictable_min hsorted hC (t', f) ht' (hall f (hble f hf) hf).2
        rw [htfeq, htveq]
        exact hmin
  · intro hex
    obtain ⟨f0, h00, h0k, h0e⟩ := hex
    obtain ⟨t0, ht0⟩ := hG.histCompl f0 h00 (by rw [hkk]; exact h0k)
    have hsome := findEvictable_isSome (t0, f0) (List.mem_reverse.mpr ht0) h0e
    cases hC : findEvictable s.frameMap s.histList.reverse with
    | none => rw [hC] at hsome; cases hsome
    | some e =>
        have hmemr := (findEvictable_some hC).1
        have hmem : e ∈ s.histList := List.mem_reverse.mp hmemr
        have hhe := hG.histMem e hmem
        have hEv : s.Evict = some (e.2,
            { s with
              frameTime := updF s.frameTime e.2 []
              frameMap := updF s.frameMap e.2 { s.frameMap e.2 with count := 0 }
              histList := eraseEntry e s.histList
              currSize := s.currSize - 1 }) := by
          unfold LRUK.Evict
          rw [hC]
        refine ⟨e.2, _, hEv, hhe.1, by rw [← hkk]; exact hhe.2.1,
          (findEvictable_some hC).2, ?_⟩
        intro f h0 hlt hev tv tf htv htf
        obtain ⟨t', ht'⟩ := hG.histCompl f h0 (by rw [hkk]; exact hlt)
        have hhf := hG.histMem (t', f) ht'
        dsimp only at hhf
        have htfeq : tf = t' := by
          rw [htf] at hhf
          exact Option.some.inj hhf.2.2
        have htveq : tv = e.1 := by
          rw [htv] at hhe
          exact Option.some.inj hhe.2.2
        have hsorted : s.histList.reverse.Sorted (fun a b => a.1 ≤ b.1) :=
          List.pairwise_reverse.mpr (hG.histSorted.imp fun h => Nat.le_of_lt h)
        have hmin := findEvictable_min hsorted hC (t', f)
          (List.mem_reverse.mpr ht') hev
        rw [htfeq, htveq]
        exact hmin

/-- C4 (witness): the ordering law applied to two concrete runs with
K = 2: one where both frames have two accesses (cache case), one where
both have a single access (history case). -/
theorem C4_lru_k_ordering_witness :
    (∃ v s', (runG 2 2 false [ROp.record 0, ROp.record 0, ROp.record 1, ROp.record 1,
        ROp.setEvict 0 true, ROp.setEvict 1 true]).1.Evict = some (v, s')) ∧
    (∃ v s', (runG 2 2 false [ROp.record 0, ROp.record 1,
        ROp.setEvict 0 true, ROp.setEvict 1 true]).1.Evict = some (v, s') ∧
      0 < ((runG 2 2 false [ROp.record 0, ROp.record 1,
        ROp.setEvict 0 true, ROp.setEvict 1 true]).1.frameMap v).count ∧
      ((runG 2 2 false [ROp.record 0, ROp.record 1,
        ROp.setEvict 0 true, ROp.setEvict 1 true]).1.frameMap v).count < 2) := by
  constructor
  · obtain ⟨v, s', hEv, -, -⟩ := (C4_lru_k_ordering 2 2 false (by decide)
      [ROp.record 0, ROp.record 0, ROp.record 1, ROp.record 1,
        ROp.setEvict 0 true, ROp.setEvict 1 true] _ _ rfl).1
      ⟨0, by decide⟩ (by decide)
    exact ⟨v, s', hEv⟩
  · obtain ⟨v, s', hEv, h1, h2, -, -⟩ := (C4_lru_k_ordering 2 2 false (by decide)
      [ROp.record 0, ROp.record 1, ROp.setEvict 0 true, ROp.setEvict 1 true] _ _ rfl).2
      ⟨0, by decide, by decide, by decide⟩
    exact ⟨v, s', hEv, h1, h2⟩

/-! ## Claim C5: what size() counts

`curr_size_` is incremented by the first access of a frame, adjusted by
`SetEvictable` transitions, and decremented by the removal protocol.  Under
the discipline the buffer pool uses — `set_evictable` is only invoked on
tracked frames — and with the default-constructed `evictable_` flag being
`true`, it equals the number of tracked frames whose flag is set. -/

def evPred (s : LRUK) : Nat → Bool := fun f =>
  ((s.frameMap f).count != 0) && (s.frameMap f).evictable

/-- The number of tracked (count ≠ 0) frames currently flagged evictable. -/
def trackedEv (s : LRUK) : Nat :=
  ((List.range (s.replacerSize + 1)).filter (evPred s)).length

theorem filter_length_congr {p q : Nat → Bool} :
    ∀ {l : List Nat}, (∀ x ∈ l, p x = q x) →
      (l.filter p).length = (l.filter q).length
  | [], _ => rfl
  | x :: xs, h => by
      have hx := h x (List.mem_cons_self _ _)
      have hxs := filter_length_congr (fun y hy => h y (List.mem_cons_of_mem _ hy))
      by_cases hp : p x = true
      · rw [List.filter_cons_of_pos hp, List.filter_cons_of_pos (hx ▸ hp)]
        simp [hxs]
      · rw [List.filter_cons_of_neg hp, List.filter_cons_of_neg (hx ▸ hp)]
        exact hxs

theorem filter_length_flip {p q : Nat → Bool} {f : Nat} :
    ∀ {l : List Nat}, l.Nodup → f ∈ l → p f = false → q f = true →
      (∀ x ∈ l, x ≠ f → p x = q x) →
      (l.filter q).length = (l.filter p).length + 1
  | [], _, hf, _, _, _ => by cases hf
  | x :: xs, hnd, hf, hpf, hqf, hcong => by
      rw [List.nodup_cons] at hnd
      rcases List.mem_cons.mp hf with rfl | hf
      · rw [List.filter_cons_of_pos hqf, List.filter_cons_of_neg (by simp [hpf])]
        have : (xs.filter p).length = (xs.filter q).length := by
          refine filter_length_congr fun y hy => hcong y (List.mem_cons_of_mem _ hy) ?_
          intro hyx
          exact hnd.1 (hyx ▸ hy)
        simp [this]
      · have hx : p x = q x := by
          refine hcong x (List.mem_cons_self _ _) fun hxf => ?_
          exact hnd.1 (hxf ▸ hf)
        have hxs := filter_length_flip hnd.2 hf hpf hqf
          (fun y hy hyf => hcong y (List.mem_cons_of_mem _ hy) hyf)
        by_cases hp : p x = true
        · rw [List.filter_cons_of_pos hp, List.filter_cons_of_pos (hx ▸ hp)]
          simp [hxs]
        · rw [List.filter_cons_of_neg hp, List.filter_cons_of_neg (hx ▸ hp)]
          exact hxs

structure EvOK (s : LRUK) : Prop where
  flag0 : ∀ f, (s.frameMap f).count = 0 → (s.frameMap f).evictable = true
  sizeEq : s.currSize = (trackedEv s : Int)

theorem EvOK.initial (n k : Nat) : EvOK (LRUK.init n k true) := by
  constructor
  · intro f _
    rfl
  · show (0 : Int) = _
    have : ∀ x ∈ List.range (n + 1), evPred (LRUK.init n k true) x = false := by
      intro x _
      rfl
    rw [show trackedEv (LRUK.init n k true)
        = ((List.range (n + 1)).filter (evPred (LRUK.init n k true))).length from rfl,
      List.filter_eq_nil_iff.mpr (by intro x hx; simp [this x hx])]
    rfl

theorem trackedEv_congr {s s' : LRUK} (hsz : s'.replacerSize = s.replacerSize)
    (hp : ∀ x, x ≤ s.replacerSize → evPred s' x = evPred s x) :
    trackedEv s' = trackedEv s := by
  unfold trackedEv
  rw [hsz]
  exact filter_length_congr fun x hx =>
    hp x (Nat.lt_succ_iff.mp (List.mem_range.mp hx))

theorem trackedEv_flip_up {s s' : LRUK} (hsz : s'.replacerSize = s.replacerSize)
    {f : Nat} (hf : f ≤ s.replacerSize)
    (hold : evPred s f = false) (hnew : evPred s' f = true)
    (hp : ∀ x, x ≤ s.replacerSize → x ≠ f → evPred s' x = evPred s x) :
    trackedEv s' = trackedEv s + 1 := by
  unfold trackedEv
  rw [hsz]
  exact filter_length_flip (List.nodup_range _)
    (List.mem_range.mpr (Nat.lt_succ_of_le hf)) hold hnew
    (fun x hx hxf => (hp x (Nat.lt_succ_iff.mp (List.mem_range.mp hx)) hxf).symm)

theorem trackedEv_flip_down {s s' : LRUK} (hsz : s'.replacerSize = s.replacerSize)
    {f : Nat} (hf : f ≤ s.replacerSize)
    (hold : evPred s f = true) (hnew : evPred s' f = false)
    (hp : ∀ x, x ≤ s.replacerSize → x ≠ f → evPred s' x = evPred s x) :
    trackedEv s = trackedEv s' + 1 := by
  unfold trackedEv
  rw [hsz]
  exact filter_length_flip (List.nodup_range _)
    (List.mem_range.mpr (Nat.lt_succ_of_le hf)) hnew hold
    (fun x hx hxf => hp x (Nat.lt_succ_iff.mp (List.mem_range.mp hx)) hxf)

theorem sizeEq_of_flip_down {s s' : LRUK} (hE : s.currSize = (trackedEv s : Int))
    (hcs : s'.currSize = s.currSize - 1)
    (hflip : trackedEv s = trackedEv s' + 1) : s'.currSize = (trackedEv s' : Int) := by
  rw [hcs, hE, hflip]
  push_cast
  ring

theorem sizeEq_of_flip_up {s s' : LRUK} (hE : s.currSize = (trackedEv s : Int))
    (hcs : s'.currSize = s.currSize + 1)
    (hflip : trackedEv s' = trackedEv s + 1) : s'.currSize = (trackedEv s' : Int) := by
  rw [hcs, hE, hflip]
  push_cast
  ring

theorem sizeEq_of_congr {s s' : LRUK} (hE : s.currSize = (trackedEv s : Int))
    (hcs : s'.currSize = s.currSize)
    (hcg : trackedEv s' = trackedEv s) : s'.currSize = (trackedEv s' : Int) := by
  rw [hcs, hE, hcg]

/-- The shared removal protocol decrements `curr_size_` in step with the
tracked-evictable census. -/
theorem EvOK.clear {s : LRUK} (hE : EvOK s) (v : Nat) (hbound : v ≤ s.replacerSize)
    (hcnt : (s.frameMap v).count ≠ 0) (hev : (s.frameMap v).evictable = true)
    (hist1 cache1 : List (Nat × Nat)) :
    EvOK { s with
           histList := hist1
           cacheList := cache1
           frameTime := updF s.frameTime v []
           frameMap := updF s.frameMap v { s.frameMap v with count := 0 }
           currSize := s.currSize - 1 } := by
  constructor
  · dsimp only
    intro f hf
    by_cases hfv : f = v
    · subst hfv
      rw [updF_same]
      exact hev
    · rw [updF_other _ _ _ hfv] at hf ⊢
      exact hE.flag0 f hf
  · exact sizeEq_of_flip_down hE.sizeEq rfl (trackedEv_flip_down rfl hbound
      (by simp [evPred, hcnt, hev])
      (by simp [evPred, updF_same])
      (by
        intro x hx hxv
        unfold evPred
        dsimp only
        rw [updF_other _ _ _ hxv]))

theorem EvOK.stepOK {s : LRUK} {g : Nat → List Nat} (hk : 2 ≤ s.k) (hG : GoodR s g)
    (hE : EvOK s) (op : ROp)
    (hguard : ∀ f b, op = ROp.setEvict f b → (s.frameMap f).count ≠ 0) :
    EvOK (applyR s op) := by
  cases op with
  | record f =>
      simp only [applyR]
      cases hR : s.RecordAccess f with
      | none => exact hE
      | some s1 =>
          simp only [Option.getD_some]
          unfold LRUK.RecordAccess at hR
          by_cases hfb : s.replacerSize < f
          · rw [if_pos hfb] at hR
            cases hR
          · rw [if_neg hfb] at hR
            simp only at hR
            by_cases h1 : (s.frameMap f).count + 1 = 1
            · rw [if_pos h1] at hR
              simp only [Option.some.injEq] at hR
              subst hR
              have hc0 : (s.frameMap f).count = 0 := by omega
              have hev : (s.frameMap f).evictable = true := hE.flag0 f hc0
              constructor
              · dsimp only
                intro f' hf'
                by_cases hfv : f' = f
                · subst hfv
                  rw [updF_same] at hf'
                  have : (s.frameMap f').count + 1 = 0 := hf'
                  omega
                · rw [updF_other _ _ _ hfv] at hf' ⊢
                  exact hE.flag0 f' hf'
              · exact sizeEq_of_flip_up hE.sizeEq rfl (trackedEv_flip_up rfl
                  (Nat.le_of_not_lt hfb)
                  (by simp [evPred, hc0])
                  (by simp [evPred, updF_same, hev])
                  (by
                    intro x hx hxv
                    unfold evPred
                    dsimp only
                    rw [updF_other _ _ _ hxv]))
            · rw [if_neg h1] at hR
              have hcne : (s.frameMap f).count ≠ 0 := by omega
              by_cases h2 : (s.frameMap f).count + 1 = s.k ∨ (s.frameMap f).count + 1 > s.k
              · rw [if_pos h2] at hR
                simp only [Option.some.injEq] at hR
                subst hR
                constructor
                · dsimp only
                  intro f' hf'
                  by_cases hfv : f' = f
                  · subst hfv
                    rw [updF_same] at hf'
                    have : (s.frameMap f').count + 1 = 0 := hf'
                    omega
                  · rw [updF_other _ _ _ hfv] at hf' ⊢
                    exact hE.flag0 f' hf'
                · refine sizeEq_of_congr hE.sizeEq rfl (trackedEv_congr rfl ?_)
                  intro x hx
                  by_cases hxv : x = f
                  · subst hxv
                    unfold evPred
                    dsimp only
                    rw [updF_same]
                    show (((s.frameMap x).count + 1 != 0) && (s.frameMap x).evictable) = _
                    simp [hcne]
                  · unfold evPred
                    dsimp only
                    rw [updF_other _ _ _ hxv]
              · rw [if_neg h2] at hR
                simp only [Option.some.injEq] at hR
                subst hR
                constructor
                · dsimp only
                  intro f' hf'
                  by_cases hfv : f' = f
                  · subst hfv
                    rw [updF_same] at hf'
                    have : (s.frameMap f').count + 1 = 0 := hf'
                    omega
                  · rw [updF_other _ _ _ hfv] at hf' ⊢
                    exact hE.flag0 f' hf'
                · refine sizeEq_of_congr hE.sizeEq rfl (trackedEv_congr rfl ?_)
                  intro x hx
                  by_cases hxv : x = f
                  · subst hxv
                    unfold evPred
                    dsimp only
                    rw [updF_same]
                    show (((s.frameMap x).count + 1 != 0) && (s.frameMap x).evictable) = _
                    simp [hcne]
                  · unfold evPred
                    dsimp only
                    rw [updF_other _ _ _ hxv]
  | setEvict f b =>
      simp only [applyR]
      cases hS : s.SetEvictable f b with
      | none => exact hE
      | some s1 =>
          simp only [Option.getD_some]
          have hcnt : (s.frameMap f).count ≠ 0 := hguard f b rfl
          unfold LRUK.SetEvictable at hS
          by_cases hfb : s.replacerSize < f
          · rw [if_pos hfb] at hS
            cases hS
          · rw [if_neg hfb] at hS
            simp only [Option.some.injEq] at hS
            subst hS
            constructor
            · dsimp only
              intro f' hf'
              by_cases hfv : f' = f
              · subst hfv
                rw [updF_same] at hf'
                have : (s.frameMap f').count = 0 := hf'
                exact absurd this hcnt
              · rw [updF_other _ _ _ hfv] at hf' ⊢
                exact hE.flag0 f' hf'
            · by_cases hc1 : (s.frameMap f).evictable = true ∧ ¬(b = true)
              · have hbf : b = false := Bool.eq_false_iff.mpr hc1.2
                refine sizeEq_of_flip_down hE.sizeEq (by dsimp only; rw [if_pos hc1])
                  (trackedEv_flip_down rfl (Nat.le_of_not_lt hfb)
                    (by simp [evPred, hcnt, hc1.1])
                    (by simp [evPred, updF_same, hbf])
                    (by
                      intro x hx hxv
                      unfold evPred
                      dsimp only
                      rw [updF_other _ _ _ hxv]))
              · by_cases hc2 : ¬((s.frameMap f).evictable = true) ∧ b = true
                · have hef : (s.frameMap f).evictable = false := Bool.eq_false_iff.mpr hc2.1
                  refine sizeEq_of_flip_up hE.sizeEq
                    (by dsimp only; rw [if_neg hc1, if_pos hc2])
                    (trackedEv_flip_up rfl (Nat.le_of_not_lt hfb)
                      (by simp [evPred, hef])
                      (by simp [evPred, updF_same, hcnt, hc2.2])
                      (by
                        intro x hx hxv
                        unfold evPred
                        dsimp only
                        rw [updF_other _ _ _ hxv]))
                · have hbe : b = (s.frameMap f).evictable := by
                    cases hbb : b <;> cases hee : (s.frameMap f).evictable
                    · rfl
                    · exact absurd ⟨hee, by simp [hbb]⟩ hc1
                    · exact absurd ⟨by simp [hee], hbb⟩ hc2
                    · rfl
                  refine sizeEq_of_congr hE.sizeEq
                    (by dsimp only; rw [if_neg hc1, if_neg hc2])
                    (trackedEv_congr rfl ?_)
                  intro x hx
                  by_cases hxv : x = f
                  · subst hxv
                    unfold evPred
                    dsimp only
                    rw [updF_same, hbe]
                  · unfold evPred
                    dsimp only
                    rw [updF_other _ _ _ hxv]
  | evictOp =>
      simp only [applyR]
      cases hEv : s.Evict with
      | none => exact hE
      | some p =>
          unfold LRUK.Evict at hEv
          cases hH : findEvictable s.frameMap s.histList.reverse with
          | some e =>
              rw [hH] at hEv
              simp only [Option.some.injEq] at hEv
              subst hEv
              have hmem : e ∈ s.histList := List.mem_reverse.mp (findEvictable_some hH).1
              have h1 := hG.histMem e hmem
              exact hE.clear e.2 (hG.bound e.2 (by omega)) (by omega)
                (findEvictable_some hH).2 _ _
          | none =>
              rw [hH] at hEv
              cases hC : findEvictable s.frameMap s.cacheList with
              | some e =>
                  rw [hC] at hEv
                  simp only [Option.some.injEq] at hEv
                  subst hEv
                  have hmem : e ∈ s.cacheList := (findEvictable_some hC).1
                  have h1 := hG.cacheMem e hmem
                  exact hE.clear e.2 (hG.bound e.2 (by omega)) (by omega)
                    (findEvictable_some hC).2 _ _
              | none =>
                  rw [hC] at hEv
                  cases hEv
  | removeOp f =>
      simp only [applyR]
      cases hR : s.Remove f with
      | none => exact hE
      | some s1 =>
          simp only [Option.getD_some]
          unfold LRUK.Remove at hR
          by_cases hc0 : (s.frameMap f).count = 0
          · rw [if_pos hc0] at hR
            have : s = s1 := Option.some.inj hR
            rw [← this]
            exact hE
          · rw [if_neg hc0] at hR
            by_cases hev : (s.frameMap f).evictable = true
            · rw [if_neg (by simp [hev])] at hR
              simp only [Option.some.injEq] at hR
              subst hR
              exact hE.clear f (hG.bound f hc0) hc0 hev _ _
            · rw [if_pos (by simp [Bool.eq_false_iff.mpr hev])] at hR
              cases hR

/-- The discipline the buffer pool observes: `set_evictable` is only ever
invoked on frames with at least one recorded access. -/
def guardOK (s : LRUK) : ROp → Bool
  | ROp.setEvict f _ => (s.frameMap f).count != 0
  | _ => true

def guardedB : LRUK → List ROp → Bool
  | _, [] => true
  | s, op :: ops => guardOK s op && guardedB (applyR s op) ops

theorem EvOK.runAuxOK : ∀ (ops : List ROp) (s : LRUK) (g : Nat → List Nat), 2 ≤ s.k →
    GoodR s g → EvOK s → guardedB s ops = true →
    EvOK (ops.foldl applyG (s, g)).1
  | [], _, _, _, _, hE, _ => hE
  | op :: ops, s, g, hk, hG, hE, hg => by
      have hg1 : ∀ f b, op = ROp.setEvict f b → (s.frameMap f).count ≠ 0 := by
        intro f b hop
        subst hop
        rw [guardedB, Bool.and_eq_true] at hg
        simpa [guardOK] using hg.1
      have hg2 : guardedB (applyR s op) ops = true := by
        rw [guardedB, Bool.and_eq_true] at hg
        exact hg.2
      simp only [List.foldl_cons]
      have hstep : EvOK (applyR s op) := hE.stepOK hk hG op hg1
      have hGstep := GoodR.step hk hG op
      have hkeep := applyR_k s op
      have hfst := applyG_fst s g op
      rcases hA : applyG (s, g) op with ⟨s1, g1⟩
      rw [hA] at hGstep hfst
      simp only at hGstep hfst
      rw [hfst] at hGstep ⊢
      exact EvOK.runAuxOK ops (applyR s op) g1 ((hkeep.1).symm ▸ hk) hGstep hstep hg2

/-- C5 (amended): with the default `evictable_` flag true, K ≥ 2, and
`set_evictable` applied only to tracked frames (the buffer pool's usage),
`size()` equals the number of tracked frames currently flagged evictable.
The counter is maintained by the first-access increment in
`record_access`, the transitions in `set_evictable`, and the decrements of
the removal protocol in `evict` and `remove` — not by `set_evictable`
alone, as the original claim stated. -/
theorem C5_size_counts_evictable (n k : Nat) (hk : 2 ≤ k) (ops : List ROp)
    (hg : guardedB (LRUK.init n k true) ops = true) :
    (runR n k true ops).Size = (trackedEv (runR n k true ops) : Int) := by
  have := EvOK.runAuxOK ops (LRUK.init n k true) (fun _ => []) hk
    (GoodR.init n k true (by omega)) (EvOK.initial n k) hg
  rw [show (ops.foldl applyG (LRUK.init n k true, fun _ => [])).1 = runR n k true ops from
    foldG_fst ops _ _] at this
  exact this.sizeEq

/-- C5 (witness): the amended size law on a concrete guarded run: two
frames accessed, one made non-evictable, one evicted. -/
theorem C5_size_counts_evictable_witness :
    (runR 2 2 true [ROp.record 0, ROp.record 1, ROp.setEvict 0 false,
      ROp.evictOp]).Size =
    (trackedEv (runR 2 2 true [ROp.record 0, ROp.record 1, ROp.setEvict 0 false,
      ROp.evictOp]) : Int) :=
  C5_size_counts_evictable 2 2 (by decide)
    [ROp.record 0, ROp.record 1, ROp.setEvict 0 false, ROp.evictOp] (by decide)

/-! ## Extendible hash table: state

`ExtendibleHashTable<K, V>` holds `global_depth_`, `bucket_size_`,
`num_buckets_`, and the directory `dir_` of `shared_ptr<Bucket>`.  Shared
ownership (several directory slots pointing at one bucket) is modelled as
an arena: `buckets` is the list of all buckets ever allocated and `dir`
holds arena indices.  The hash function is a parameter standing for
`std::hash<K>`. -/

structure Bucket (K V : Type) where
  size : Nat
  depth : Nat
  list : List (K × V)

structure EHT (K V : Type) where
  globalDepth : Nat
  bucketSize : Nat
  numBuckets : Nat
  buckets : List (Bucket K V)
  dir : List Nat

section EHTDefs

variable {K V : Type} [DecidableEq K] (hash : K → Nat)

/-- Linear scan of a bucket's `std::list`, first match. -/
def bucketFind (l : List (K × V)) (k : K) : Option V :=
  match l with
  | [] => none
  | e :: es => if e.1 = k then some e.2 else bucketFind es k

def containsKey (l : List (K × V)) (k : K) : Bool :=
  match l with
  | [] => false
  | e :: es => if e.1 = k then true else containsKey es k

/-- `Bucket::Remove`: erase the first entry with the given key. -/
def eraseKey (l : List (K × V)) (k : K) : List (K × V) :=
  match l with
  | [] => []
  | e :: es => if e.1 = k then es else e :: eraseKey es k

/-- The overwrite loop of `Bucket::Insert`: replace the value of the
first entry carrying the key. -/
def overwriteFirst (l : List (K × V)) (k : K) (v : V) : List (K × V) :=
  match l with
  | [] => []
  | e :: es => if e.1 = k then (e.1, v) :: es else e :: overwriteFirst es k v

/-- `Bucket::IsFull` (declared in the missing header; modelled from the
spec: a bucket holds up to `bucket_size` entries, so it is full when no
room is left). -/
def Bucket.IsFull (b : Bucket K V) : Prop := b.size ≤ b.list.length

instance (b : Bucket K V) : Decidable b.IsFull := Nat.decLe _ _

/-- `Bucket::Insert`: overwrite on key hit, append when not full,
otherwise report failure. -/
def Bucket.insertB (b : Bucket K V) (k : K) (v : V) : Option (Bucket K V) :=
  if containsKey b.list k then some { b with list := overwriteFirst b.list k v }
  else if b.list.length < b.size then some { b with list := b.list ++ [(k, v)] }
  else none

/-- `ExtendibleHashTable(bucket_size)`: depth 0, one empty bucket. -/
def EHT.init (bs : Nat) : EHT K V := ⟨0, bs, 1, [⟨bs, 0, []⟩], [0]⟩

def dirAt (s : EHT K V) (i : Nat) : Nat := s.dir.getD i 0

def bucketAt (s : EHT K V) (bi : Nat) : Bucket K V := s.buckets.getD bi ⟨0, 0, []⟩

/-- `IndexOf`: the low `global_depth_` bits of the hash. -/
def indexOf (s : EHT K V) (k : K) : Nat := hash k % 2 ^ s.globalDepth

/-- `ExtendibleHashTable::Find`. -/
def EHT.find (s : EHT K V) (k : K) : Option V :=
  bucketFind (bucketAt s (dirAt s (indexOf hash s k))).list k

/-- `ExtendibleHashTable::Remove`. -/
def EHT.remove (s : EHT K V) (k : K) : Bool × EHT K V :=
  let bi := dirAt s (indexOf hash s k)
  let b := bucketAt s bi
  (containsKey b.list k,
   { s with buckets := s.buckets.set bi { b with list := eraseKey b.list k } })

/-- The redistribution loop ignores `Insert`'s boolean result. -/
def forceInsert (b : Bucket K V) (e : K × V) : Bucket K V :=
  (b.insertB e.1 e.2).getD b

/-- The slot re-pointing loop: every slot congruent to the key's low
`local_depth` bits is re-aimed at one of the two fresh buckets, chosen by
bit `local_depth` of the slot index. -/
def repointFrom (ld cls i0 i1 : Nat) : Nat → List Nat → List Nat
  | _, [] => []
  | i, x :: xs =>
      (if i % 2 ^ ld = cls then (if Nat.testBit i ld then i1 else i0) else x)
        :: repointFrom ld cls i0 i1 (i + 1) xs

/-- One iteration of `Insert`'s split loop: double the directory when the
full bucket's depth equals the global depth, create the two depth+1
buckets, redistribute by bit `local_depth` of each key's hash, and
re-point the directory slots. -/
def splitOnce (s : EHT K V) (k : K) : EHT K V :=
  let pos := indexOf hash s k
  let bi := dirAt s pos
  let b := bucketAt s bi
  let ld := b.depth
  let s1 : EHT K V :=
    if ld = s.globalDepth then
      { s with globalDepth := s.globalDepth + 1, dir := s.dir ++ s.dir }
    else s
  let p := b.list.foldl
    (fun (p : Bucket K V × Bucket K V) e =>
      if Nat.testBit (hash e.1) ld then (p.1, forceInsert p.2 e)
      else (forceInsert p.1 e, p.2))
    (⟨s.bucketSize, ld + 1, []⟩, ⟨s.bucketSize, ld + 1, []⟩)
  let i0 := s1.buckets.length
  { s1 with
    buckets := s1.buckets ++ [p.1, p.2]
    numBuckets := s1.numBuckets + 1
    dir := repointFrom ld (hash k % 2 ^ ld) i0 (i0 + 1) 0 s1.dir }

/-- `while (bucket->IsFull())`, fuelled: `none` models an execution that
has not returned within `fuel` iterations. -/
def splitLoop : Nat → EHT K V → K → Option (EHT K V)
  | 0, _, _ => none
  | fuel + 1, s, k =>
      if (bucketAt s (dirAt s (indexOf hash s k))).IsFull then
        splitLoop fuel (splitOnce hash s k) k
      else some s

/-- `ExtendibleHashTable::Insert`. -/
def EHT.insert (fuel : Nat) (s : EHT K V) (k : K) (v : V) : Option (EHT K V) :=
  let bi := dirAt s (indexOf hash s k)
  match (bucketAt s bi).insertB k v with
  | some b1 => some { s with buckets := s.buckets.set bi b1 }
  | none =>
    match splitLoop hash fuel s k with
    | none => none
    | some s1 =>
      let bi1 := dirAt s1 (indexOf hash s1 k)
      match (bucketAt s1 bi1).insertB k v with
      | some b1 => some { s1 with buckets := s1.buckets.set bi1 b1 }
      | none => some s1

inductive EOp (K V : Type) where
  | ins (k : K) (v : V) (fuel : Nat)
  | rem (k : K)

def applyE (s : EHT K V) : EOp K V → Option (EHT K V)
  | .ins k v fuel => EHT.insert hash fuel s k v
  | .rem k => some (EHT.remove hash s k).2

def runE (bs : Nat) (ops : List (EOp K V)) : Option (EHT K V) :=
  ops.foldl (fun acc op => acc.bind (fun s => applyE hash s op)) (some (EHT.init bs))

/-- The reference map semantics of the operation sequence. -/
def specStep (m : K → Option V) : EOp K V → K → Option V
  | .ins k v _ => fun x => if x = k then some v else m x
  | .rem k => fun x => if x = k then none else m x

def specMap (ops : List (EOp K V)) : K → Option V :=
  ops.foldl specStep (fun _ => none)

end EHTDefs

section EHTLemmas

variable {K V : Type} [DecidableEq K]

theorem containsKey_iff {k : K} :
    ∀ {l : List (K × V)}, containsKey l k = true ↔ k ∈ l.map Prod.fst
  | [] => by simp [containsKey]
  | e :: es => by
      unfold containsKey
      by_cases he : e.1 = k
      · simp [he]
      · rw [if_neg he]
        simp only [List.map_cons, List.mem_cons]
        rw [containsKey_iff]
        constructor
        · exact Or.inr
        · rintro (h | h)
          · exact absurd h.symm he
          · exact h

theorem bucketFind_none {k : K} :
    ∀ {l : List (K × V)}, containsKey l k = false → bucketFind l k = none
  | [], _ => rfl
  | e :: es, h => by
      unfold containsKey at h
      unfold bucketFind
      by_cases he : e.1 = k
      · rw [if_pos he] at h
        cases h
      · rw [if_neg he] at h ⊢
        exact bucketFind_none h

theorem eraseKey_sublist (k : K) : ∀ l : List (K × V), List.Sublist (eraseKey l k) l
  | [] => List.Sublist.refl _
  | e :: es => by
      unfold eraseKey
      by_cases he : e.1 = k
      · simp [he]
      · simpa [he] using (eraseKey_sublist k es).cons₂ e

theorem bucketFind_eraseKey_self {k : K} :
    ∀ {l : List (K × V)}, (l.map Prod.fst).Nodup → bucketFind (eraseKey l k) k = none
  | [], _ => rfl
  | e :: es, h => by
      rw [List.map_cons, List.nodup_cons] at h
      unfold eraseKey
      by_cases he : e.1 = k
      · rw [if_pos he]
        refine bucketFind_none ?_
        rw [← Bool.not_eq_true, containsKey_iff]
        exact he ▸ h.1
      · rw [if_neg he]
        unfold bucketFind
        rw [if_neg he]
        exact bucketFind_eraseKey_self h.2

theorem bucketFind_eraseKey_other {k k' : K} (hne : k' ≠ k) :
    ∀ {l : List (K × V)}, bucketFind (eraseKey l k) k' = bucketFind l k'
  | [] => rfl
  | e :: es => by
      simp only [eraseKey]
      by_cases he : e.1 = k
      · rw [if_pos he]
        have hek : ¬(e.1 = k') := by
          rw [he]
          exact fun h => hne h.symm
        conv_rhs => rw [show bucketFind (e :: es) k' = bucketFind es k' by
          simp only [bucketFind]; rw [if_neg hek]]
      · rw [if_neg he]
        simp only [bucketFind]
        by_cases he' : e.1 = k'
        · rw [if_pos he', if_pos he']
        · rw [if_neg he', if_neg he']
          exact bucketFind_eraseKey_other hne

theorem map_fst_overwriteFirst (k : K) (v : V) :
    ∀ l : List (K × V), (overwriteFirst l k v).map Prod.fst = l.map Prod.fst
  | [] => rfl
  | e :: es => by
      unfold overwriteFirst
      by_cases he : e.1 = k
      · simp [he]
      · simp [he, map_fst_overwriteFirst k v es]

theorem length_overwriteFirst (k : K) (v : V) :
    ∀ l : List (K × V), (overwriteFirst l k v).length = l.length
  | [] => rfl
  | e :: es => by
      unfold overwriteFirst
      by_cases he : e.1 = k
      · simp [he]
      · simp [he, length_overwriteFirst k v es]

theorem bucketFind_overwriteFirst_self {k : K} {v : V} :
    ∀ {l : List (K × V)}, containsKey l k = true →
      bucketFind (overwriteFirst l k v) k = some v
  | [], h => by cases h
  | e :: es, h => by
      unfold containsKey at h
      unfold overwriteFirst
      by_cases he : e.1 = k
      · rw [if_pos he]
        unfold bucketFind
        rw [if_pos he]
      · rw [if_neg he] at h ⊢
        unfold bucketFind
        rw [if_neg he]
        exact bucketFind_overwriteFirst_self h

theorem bucketFind_overwriteFirst_other {k k' : K} {v : V} (hne : k' ≠ k) :
    ∀ {l : List (K × V)}, bucketFind (overwriteFirst l k v) k' = bucketFind l k'
  | [] => rfl
  | e :: es => by
      simp only [overwriteFirst]
      by_cases he : e.1 = k
      · rw [if_pos he]
        have hek : ¬(e.1 = k') := by
          rw [he]
          exact fun h => hne h.symm
        simp only [bucketFind]
        rw [if_neg hek, if_neg hek]
      · rw [if_neg he]
        simp only [bucketFind]
        by_cases he' : e.1 = k'
        · rw [if_pos he', if_pos he']
        · rw [if_neg he', if_neg he']
          exact bucketFind_overwriteFirst_other hne

theorem bucketFind_append_self {k : K} {v : V} :
    ∀ {l : List (K × V)}, containsKey l k = false →
      bucketFind (l ++ [(k, v)]) k = some v
  | [], _ => by simp [bucketFind]
  | e :: es, h => by
      unfold containsKey at h
      by_cases he : e.1 = k
      · rw [if_pos he] at h
        cases h
      · rw [if_neg he] at h
        rw [List.cons_append]
        unfold bucketFind
        rw [if_neg he]
        exact bucketFind_append_self h

theorem bucketFind_append_other {k k' : K} {v : V} (hne : k' ≠ k) :
    ∀ {l : List (K × V)}, bucketFind (l ++ [(k, v)]) k' = bucketFind l k'
  | [] => by
      simp only [List.nil_append, bucketFind]
      rw [if_neg (show ¬((k, v).1 = k') from fun h => hne h.symm)]
  | e :: es => by
      rw [List.cons_append]
      simp only [bucketFind]
      by_cases he : e.1 = k'
      · rw [if_pos he, if_pos he]
      · rw [if_neg he, if_neg he]
        exact bucketFind_append_other hne

theorem bucketFind_filter {k : K} {p : K × V → Bool} :
    ∀ {l : List (K × V)}, (∀ e ∈ l, e.1 = k → p e = true) →
      bucketFind (l.filter p) k = bucketFind l k
  | [], _ => rfl
  | e :: es, h => by
      by_cases he : e.1 = k
      · rw [List.filter_cons_of_pos (h e (List.mem_cons_self _ _) he)]
        unfold bucketFind
        rw [if_pos he, if_pos he]
      · have hrest := bucketFind_filter (fun x hx => h x (List.mem_cons_of_mem _ hx))
        by_cases hp : p e = true
        · rw [List.filter_cons_of_pos hp]
          simp only [bucketFind]
          rw [if_neg he, if_neg he]
          exact hrest
        · rw [List.filter_cons_of_neg (by simpa using hp)]
          conv_rhs => rw [show bucketFind (e :: es) k = bucketFind es k by
            simp only [bucketFind]; rw [if_neg he]]
          exact hrest

theorem getD_set_self {α : Type} (l : List α) (i : Nat) (a d : α) (h : i < l.length) :
    (l.set i a).getD i d = a := by
  rw [List.getD_eq_getElem?_getD, List.getElem?_set_self (by simpa using h)]
  rfl

theorem getD_set_other {α : Type} (l : List α) (i j : Nat) (a d : α) (h : j ≠ i) :
    (l.set i a).getD j d = l.getD j d := by
  rw [List.getD_eq_getElem?_getD, List.getElem?_set_ne (fun hc => h hc.symm),
    ← List.getD_eq_getElem?_getD]

theorem getD_append_left {α : Type} (l l2 : List α) (i : Nat) (d : α) (h : i < l.length) :
    (l ++ l2).getD i d = l.getD i d := by
  rw [List.getD_eq_getElem?_getD, List.getElem?_append, if_pos h,
    ← List.getD_eq_getElem?_getD]

theorem getD_append_right {α : Type} (l l2 : List α) (i : Nat) (d : α)
    (h : l.length ≤ i) : (l ++ l2).getD i d = l2.getD (i - l.length) d := by
  rw [List.getD_eq_getElem?_getD, List.getElem?_append_right h,
    ← List.getD_eq_getElem?_getD]

end EHTLemmas

theorem mod_two_pow_succ_eq_iff (a b d : Nat) :
    a % 2 ^ (d + 1) = b % 2 ^ (d + 1) ↔
      (a % 2 ^ d = b % 2 ^ d ∧ Nat.testBit a d = Nat.testBit b d) := by
  have ha : a % 2 ^ (d + 1) = 2 ^ d * (a / 2 ^ d % 2) + a % 2 ^ d := by
    conv_lhs => rw [show (2 : Nat) ^ (d + 1) = 2 ^ d * 2 by ring]
    rw [Nat.mod_mul]
    ring
  have hb : b % 2 ^ (d + 1) = 2 ^ d * (b / 2 ^ d % 2) + b % 2 ^ d := by
    conv_lhs => rw [show (2 : Nat) ^ (d + 1) = 2 ^ d * 2 by ring]
    rw [Nat.mod_mul]
    ring
  have h1 : a % 2 ^ d < 2 ^ d := Nat.mod_lt _ (by positivity)
  have h2 : b % 2 ^ d < 2 ^ d := Nat.mod_lt _ (by positivity)
  rw [ha, hb, Nat.testBit_to_div_mod, Nat.testBit_to_div_mod, decide_eq_decide]
  rcases (by omega : a / 2 ^ d % 2 = 0 ∨ a / 2 ^ d % 2 = 1) with h5 | h5 <;>
    rcases (by omega : b / 2 ^ d % 2 = 0 ∨ b / 2 ^ d % 2 = 1) with h6 | h6 <;>
    rw [h5, h6] <;> simp <;> omega

theorem testBit_mod_pow {a g d : Nat} (h : d < g) :
    Nat.testBit (a % 2 ^ g) d = Nat.testBit a d := by
  rw [Nat.testBit_mod_two_pow]
  simp [h]

theorem mod_mod_pow {a g d : Nat} (h : d ≤ g) : a % 2 ^ g % 2 ^ d = a % 2 ^ d :=
  Nat.mod_mod_of_dvd a (pow_dvd_pow 2 h)

theorem repointFrom_length (ld cls i0 i1 : Nat) :
    ∀ (base : Nat) (l : List Nat), (repointFrom ld cls i0 i1 base l).length = l.length
  | _, [] => rfl
  | base, x :: xs => by
      simp only [repointFrom, List.length_cons]
      rw [repointFrom_length ld cls i0 i1 (base + 1) xs]

theorem repointFrom_getD (ld cls i0 i1 : Nat) :
    ∀ (base : Nat) (l : List Nat) (j : Nat), j < l.length →
      (repointFrom ld cls i0 i1 base l).getD j 0 =
        if (base + j) % 2 ^ ld = cls then
          (if Nat.testBit (base + j) ld then i1 else i0)
        else l.getD j 0
  | _, [], j, hj => by simp at hj
  | base, x :: xs, 0, _ => by
      simp only [repointFrom, List.getD_cons_zero, Nat.add_zero]
  | base, x :: xs, j + 1, hj => by
      simp only [repointFrom, List.getD_cons_succ]
      rw [repointFrom_getD ld cls i0 i1 (base + 1) xs j
        (by simpa using Nat.lt_of_succ_lt_succ hj)]
      have harith : base + 1 + j = base + (j + 1) := by omega
      rw [harith]

section Redist

variable {K V : Type} [DecidableEq K] (hash : K → Nat) (ld : Nat)

theorem redist_aux :
    ∀ (l acc0 acc1 : List (K × V)) (bs : Nat),
      ((acc0 ++ acc1 ++ l).map Prod.fst).Nodup →
      acc0.length + acc1.length + l.length ≤ bs →
      l.foldl (fun (p : Bucket K V × Bucket K V) e =>
          if Nat.testBit (hash e.1) ld then (p.1, forceInsert p.2 e)
          else (forceInsert p.1 e, p.2))
        (⟨bs, ld + 1, acc0⟩, ⟨bs, ld + 1, acc1⟩)
      = (⟨bs, ld + 1, acc0 ++ l.filter (fun e => !(Nat.testBit (hash e.1) ld))⟩,
         ⟨bs, ld + 1, acc1 ++ l.filter (fun e => Nat.testBit (hash e.1) ld)⟩)
  | [], acc0, acc1, bs, _, _ => by simp
  | e :: l, acc0, acc1, bs, hnd, hlen => by
      simp only [List.foldl_cons, List.length_cons] at hlen ⊢
      by_cases hbit : Nat.testBit (hash e.1) ld
      · rw [if_pos hbit]
        have h1 : containsKey acc1 e.1 = false := by
          rw [← Bool.not_eq_true, containsKey_iff]
          intro hmem
          rw [List.map_append, List.nodup_append] at hnd
          have hin1 : e.1 ∈ List.map Prod.fst (acc0 ++ acc1) := by
            rw [List.map_append]
            exact List.mem_append_right _ hmem
          have hin2 : e.1 ∈ List.map Prod.fst (e :: l) := by simp
          exact hnd.2.2 hin1 hin2
        have hfi : forceInsert ⟨bs, ld + 1, acc1⟩ e = ⟨bs, ld + 1, acc1 ++ [e]⟩ := by
          unfold forceInsert Bucket.insertB
          rw [if_neg (by simp [h1]), if_pos (by dsimp only; omega)]
          simp
        rw [hfi]
        rw [redist_aux l acc0 (acc1 ++ [e]) bs
          (by simpa [List.append_assoc] using hnd)
          (by simp only [List.length_append, List.length_singleton]; omega)]
        rw [List.filter_cons_of_neg (by simp [hbit]),
          List.filter_cons_of_pos (by simpa using hbit)]
        simp [List.append_assoc]
      · rw [if_neg hbit]
        have h1 : containsKey acc0 e.1 = false := by
          rw [← Bool.not_eq_true, containsKey_iff]
          intro hmem
          rw [List.map_append, List.nodup_append] at hnd
          have hin1 : e.1 ∈ List.map Prod.fst (acc0 ++ acc1) := by
            rw [List.map_append]
            exact List.mem_append_left _ hmem
          have hin2 : e.1 ∈ List.map Prod.fst (e :: l) := by simp
          exact hnd.2.2 hin1 hin2
        have hfi : forceInsert ⟨bs, ld + 1, acc0⟩ e = ⟨bs, ld + 1, acc0 ++ [e]⟩ := by
          unfold forceInsert Bucket.insertB
          rw [if_neg (by simp [h1]), if_pos (by dsimp only; omega)]
          simp
        rw [hfi]
        have hperm2 : List.Perm (acc0 ++ (e :: (acc1 ++ l))) (acc0 ++ (acc1 ++ e :: l)) :=
          List.Perm.append_left acc0 List.perm_middle.symm
        rw [redist_aux l (acc0 ++ [e]) acc1 bs
          (by
            have hnd2 : ((acc0 ++ (e :: (acc1 ++ l))).map Prod.fst).Nodup := by
              refine ((hperm2.map Prod.fst).nodup_iff).mpr ?_
              simpa [List.append_assoc] using hnd
            simpa [List.append_assoc] using hnd2)
          (by simp only [List.length_append, List.length_singleton]; omega)]
        have hbf : Nat.testBit (hash e.1) ld = false := by simpa using hbit
        rw [List.filter_cons_of_pos (by simp [hbf]),
          List.filter_cons_of_neg (by simp [hbf])]
        simp [List.append_assoc]

end Redist

section EInvSec

variable {K V : Type} [DecidableEq K] (hash : K → Nat)

/-- The extendible-hashing directory invariant. -/
structure EInv (s : EHT K V) : Prop where
  dlen : s.dir.length = 2 ^ s.globalDepth
  dref : ∀ i < s.dir.length, dirAt s i < s.buckets.length
  dep : ∀ i < s.dir.length, (bucketAt s (dirAt s i)).depth ≤ s.globalDepth
  share : ∀ i < s.dir.length, ∀ j < s.dir.length,
      (dirAt s j = dirAt s i ↔
        j % 2 ^ (bucketAt s (dirAt s i)).depth = i % 2 ^ (bucketAt s (dirAt s i)).depth)
  keys : ∀ i < s.dir.length, ∀ e ∈ (bucketAt s (dirAt s i)).list,
      hash e.1 % 2 ^ (bucketAt s (dirAt s i)).depth = i % 2 ^ (bucketAt s (dirAt s i)).depth
  nodupKeys : ∀ i < s.dir.length, ((bucketAt s (dirAt s i)).list.map Prod.fst).Nodup
  blen : ∀ i < s.dir.length, (bucketAt s (dirAt s i)).list.length ≤ s.bucketSize
  bsize : ∀ i < s.dir.length, (bucketAt s (dirAt s i)).size = s.bucketSize

theorem EInv.initE (bs : Nat) : EInv hash (EHT.init bs : EHT K V) := by
  have hd : ∀ i, dirAt (EHT.init bs : EHT K V) i = 0 := by
    intro i
    cases i with
    | zero => rfl
    | succ n => cases n <;> rfl
  have hlen : (EHT.init bs : EHT K V).dir.length = 1 := rfl
  refine ⟨rfl, ?_, ?_, ?_, ?_, ?_, ?_, ?_⟩
  · intro i hi
    rw [hd]
    show 0 < 1
    norm_num
  · intro i hi
    rw [hd]
    show (0 : Nat) ≤ 0
    exact Nat.le_refl 0
  · intro i hi j hj
    rw [hlen] at hi hj
    have hi0 : i = 0 := by omega
    have hj0 : j = 0 := by omega
    subst hi0
    subst hj0
    rw [hd]
    simp
  · intro i hi e he
    rw [hd] at he
    simp only [bucketAt, EHT.init] at he
    simp at he
  · intro i hi
    rw [hd]
    show (([] : List (K × V)).map Prod.fst).Nodup
    simp
  · intro i hi
    rw [hd]
    show ([] : List (K × V)).length ≤ bs
    simp
  · intro i hi
    rw [hd]
    rfl

theorem indexOf_lt {s : EHT K V} (h : EInv hash s) (k : K) :
    indexOf hash s k < s.dir.length := by
  rw [h.dlen]
  exact Nat.mod_lt _ (by positivity)

end EInvSec

/-- The directory-doubling step of the split. -/
def doubled {K V : Type} (s : EHT K V) : EHT K V :=
  { s with globalDepth := s.globalDepth + 1, dir := s.dir ++ s.dir }

section DoubleSec

variable {K V : Type} [DecidableEq K] (hash : K → Nat)

theorem double_spec {s : EHT K V} (h : EInv hash s) :
    EInv hash (doubled s) ∧
    (∀ j, j < 2 ^ (s.globalDepth + 1) →
      dirAt (doubled s) j = dirAt s (j % 2 ^ s.globalDepth)) ∧
    (∀ k', dirAt (doubled s) (indexOf hash (doubled s) k') = dirAt s (indexOf hash s k')) ∧
    (∀ k', EHT.find hash (doubled s) k' = EHT.find hash s k') := by
  have hpow : (2 : Nat) ^ (s.globalDepth + 1) = 2 ^ s.globalDepth + 2 ^ s.globalDepth := by
    ring
  have hgd : ∀ j, j < 2 ^ (s.globalDepth + 1) →
      dirAt (doubled s) j = dirAt s (j % 2 ^ s.globalDepth) := by
    intro j hj
    show (s.dir ++ s.dir).getD j 0 = dirAt s (j % 2 ^ s.globalDepth)
    by_cases hc : j < 2 ^ s.globalDepth
    · rw [getD_append_left _ _ _ _ (by rw [h.dlen]; exact hc)]
      rw [Nat.mod_eq_of_lt hc]
      rfl
    · rw [getD_append_right _ _ _ _ (by rw [h.dlen]; omega)]
      have hmod : j % 2 ^ s.globalDepth = j - 2 ^ s.globalDepth := by
        rw [Nat.mod_eq_sub_mod (by omega), Nat.mod_eq_of_lt (by omega)]
      rw [hmod, dirAt, h.dlen]
  have hmlt : ∀ a : Nat, a % 2 ^ s.globalDepth < s.dir.length := by
    intro a
    rw [h.dlen]
    exact Nat.mod_lt _ (by positivity)
  have hlen2 : (doubled s).dir.length = 2 ^ (s.globalDepth + 1) := by
    show (s.dir ++ s.dir).length = _
    rw [List.length_append, h.dlen, hpow]
  have hdir2 : ∀ k', dirAt (doubled s) (indexOf hash (doubled s) k')
      = dirAt s (indexOf hash s k') := by
    intro k'
    rw [hgd (indexOf hash (doubled s) k') (Nat.mod_lt _ (by positivity))]
    show dirAt s ((hash k' % 2 ^ (s.globalDepth + 1)) % 2 ^ s.globalDepth) = _
    rw [mod_mod_pow (by omega)]
    rfl
  refine ⟨⟨hlen2, ?_, ?_, ?_, ?_, ?_, ?_, ?_⟩, hgd, hdir2, ?_⟩
  · intro i hi
    rw [hlen2] at hi
    rw [hgd i hi]
    exact h.dref _ (hmlt i)
  · intro i hi
    rw [hlen2] at hi
    show (bucketAt s _).depth ≤ s.globalDepth + 1
    rw [hgd i hi]
    exact Nat.le_succ_of_le (h.dep _ (hmlt i))
  · intro i hi j hj
    rw [hlen2] at hi hj
    show dirAt (doubled s) j = dirAt (doubled s) i ↔ _
    rw [hgd j hj, hgd i hi]
    show _ ↔ j % 2 ^ (bucketAt s (dirAt s (i % 2 ^ s.globalDepth))).depth
      = i % 2 ^ (bucketAt s (dirAt s (i % 2 ^ s.globalDepth))).depth
    have hd := h.dep _ (hmlt i)
    rw [h.share _ (hmlt i) _ (hmlt j), mod_mod_pow hd, mod_mod_pow hd]
  · intro i hi e he
    rw [hlen2] at hi
    have hgd2 : bucketAt (doubled s) (dirAt (doubled s) i)
        = bucketAt s (dirAt s (i % 2 ^ s.globalDepth)) := by
      rw [hgd i hi]
      rfl
    rw [hgd2] at he ⊢
    have hd := h.dep _ (hmlt i)
    rw [h.keys _ (hmlt i) e he, mod_mod_pow hd]
  · intro i hi
    rw [hlen2] at hi
    have hgd2 : bucketAt (doubled s) (dirAt (doubled s) i)
        = bucketAt s (dirAt s (i % 2 ^ s.globalDepth)) := by
      rw [hgd i hi]
      rfl
    rw [hgd2]
    exact h.nodupKeys _ (hmlt i)
  · intro i hi
    rw [hlen2] at hi
    have hgd2 : bucketAt (doubled s) (dirAt (doubled s) i)
        = bucketAt s (dirAt s (i % 2 ^ s.globalDepth)) := by
      rw [hgd i hi]
      rfl
    rw [hgd2]
    exact h.blen _ (hmlt i)
  · intro i hi
    rw [hlen2] at hi
    have hgd2 : bucketAt (doubled s) (dirAt (doubled s) i)
        = bucketAt s (dirAt s (i % 2 ^ s.globalDepth)) := by
      rw [hgd i hi]
      rfl
    rw [hgd2]
    exact h.bsize _ (hmlt i)
  · intro k'
    unfold EHT.find
    rw [show bucketAt (doubled s) (dirAt (doubled s) (indexOf hash (doubled s) k'))
      = bucketAt s (dirAt s (indexOf hash s k')) by rw [hdir2 k']; rfl]

end DoubleSec

/-- The state produced by one split iteration, with the redistribution
already expressed as two filters of the old bucket's entries. -/
def splitState {K V : Type} (hash : K → Nat) (s1 : EHT K V) (b : Bucket K V) (k : K) :
    EHT K V :=
  { s1 with
    buckets := s1.buckets ++
      [⟨s1.bucketSize, b.depth + 1,
        b.list.filter (fun e => !(Nat.testBit (hash e.1) b.depth))⟩,
       ⟨s1.bucketSize, b.depth + 1,
        b.list.filter (fun e => Nat.testBit (hash e.1) b.depth)⟩]
    numBuckets := s1.numBuckets + 1
    dir := repointFrom b.depth (hash k % 2 ^ b.depth) s1.buckets.length
      (s1.buckets.length + 1) 0 s1.dir }

section SplitCore

variable {K V : Type} [DecidableEq K] (hash : K → Nat)

theorem splitCore_spec {s1 : EHT K V} (hInv : EInv hash s1) (k : K)
    (b : Bucket K V) (hb : bucketAt s1 (dirAt s1 (indexOf hash s1 k)) = b)
    (hld : b.depth < s1.globalDepth) :
    EInv hash (splitState hash s1 b k) ∧
    (∀ k', EHT.find hash (splitState hash s1 b k) k' = EHT.find hash s1 k') := by
  have hposlt : indexOf hash s1 k < s1.dir.length := indexOf_lt hash hInv k
  have hCpos : indexOf hash s1 k % 2 ^ b.depth = hash k % 2 ^ b.depth :=
    mod_mod_pow (Nat.le_of_lt hld)
  have hS : ∀ j, j < s1.dir.length →
      (dirAt s1 j = dirAt s1 (indexOf hash s1 k) ↔
        j % 2 ^ b.depth = hash k % 2 ^ b.depth) := by
    intro j hj
    have hsh := hInv.share (indexOf hash s1 k) hposlt j hj
    rw [hb] at hsh
    rw [hsh, hCpos]
  have hlen2 : (splitState hash s1 b k).dir.length = s1.dir.length := by
    show (repointFrom _ _ _ _ 0 s1.dir).length = _
    exact repointFrom_length _ _ _ _ 0 s1.dir
  have hdirAt2 : ∀ j, j < s1.dir.length →
      dirAt (splitState hash s1 b k) j =
        if j % 2 ^ b.depth = hash k % 2 ^ b.depth then
          (if Nat.testBit j b.depth then s1.buckets.length + 1 else s1.buckets.length)
        else dirAt s1 j := by
    intro j hj
    show (repointFrom _ _ _ _ 0 s1.dir).getD j 0 = _
    rw [repointFrom_getD _ _ _ _ 0 s1.dir j hj]
    simp only [Nat.zero_add]
    rfl
  have hbuck_old : ∀ x, x < s1.buckets.length →
      bucketAt (splitState hash s1 b k) x = bucketAt s1 x := by
    intro x hx
    show (s1.buckets ++ _).getD x _ = _
    rw [getD_append_left _ _ _ _ hx]
    rfl
  have hbuck0 : bucketAt (splitState hash s1 b k) s1.buckets.length =
      ⟨s1.bucketSize, b.depth + 1,
        b.list.filter (fun e => !(Nat.testBit (hash e.1) b.depth))⟩ := by
    show (s1.buckets ++ _).getD s1.buckets.length _ = _
    rw [getD_append_right _ _ _ _ (Nat.le_refl _)]
    simp
  have hbuck1 : bucketAt (splitState hash s1 b k) (s1.buckets.length + 1) =
      ⟨s1.bucketSize, b.depth + 1,
        b.list.filter (fun e => Nat.testBit (hash e.1) b.depth)⟩ := by
    show (s1.buckets ++ _).getD (s1.buckets.length + 1) _ = _
    rw [getD_append_right _ _ _ _ (by omega)]
    have h1 : s1.buckets.length + 1 - s1.buckets.length = 1 := by omega
    rw [h1]
    simp
  have hkeysb : ∀ e ∈ b.list, hash e.1 % 2 ^ b.depth = hash k % 2 ^ b.depth := by
    intro e he
    have hk := hInv.keys (indexOf hash s1 k) hposlt e (by rw [hb]; exact he)
    rw [hb] at hk
    rw [hk, hCpos]
  have hXeq : ∀ i' j' : Nat,
      ((if Nat.testBit j' b.depth then s1.buckets.length + 1 else s1.buckets.length)
        = (if Nat.testBit i' b.depth then s1.buckets.length + 1 else s1.buckets.length)) ↔
      Nat.testBit j' b.depth = Nat.testBit i' b.depth := by
    intro i' j'
    by_cases h1 : Nat.testBit j' b.depth <;> by_cases h2 : Nat.testBit i' b.depth <;>
      simp [h1, h2]
  have hXge : ∀ i' : Nat, s1.buckets.length ≤
      (if Nat.testBit i' b.depth then s1.buckets.length + 1 else s1.buckets.length) := by
    intro i'
    by_cases h1 : Nat.testBit i' b.depth <;> simp [h1]
  have hdepthX : ∀ i' : Nat, (bucketAt (splitState hash s1 b k)
      (if Nat.testBit i' b.depth then s1.buckets.length + 1
        else s1.buckets.length)).depth = b.depth + 1 := by
    intro i'
    by_cases h1 : Nat.testBit i' b.depth
    · rw [if_pos h1, hbuck1]
    · rw [if_neg h1, hbuck0]
  have hnodupb : (b.list.map Prod.fst).Nodup := by
    have := hInv.nodupKeys (indexOf hash s1 k) hposlt
    rwa [hb] at this
  have hblenb : b.list.length ≤ s1.bucketSize := by
    have := hInv.blen (indexOf hash s1 k) hposlt
    rwa [hb] at this
  constructor
  · refine ⟨?_, ?_, ?_, ?_, ?_, ?_, ?_, ?_⟩
    · rw [hlen2]
      exact hInv.dlen
    · intro i hi
      rw [hlen2] at hi
      rw [hdirAt2 i hi]
      show _ < (s1.buckets ++ _).length
      rw [List.length_append]
      by_cases hiC : i % 2 ^ b.depth = hash k % 2 ^ b.depth
      · rw [if_pos hiC]
        by_cases hbit : Nat.testBit i b.depth <;> simp [hbit]
      · rw [if_neg hiC]
        have := hInv.dref i hi
        simp only [List.length_cons, List.length_singleton]
        omega
    · intro i hi
      rw [hlen2] at hi
      show (bucketAt _ (dirAt _ i)).depth ≤ s1.globalDepth
      rw [hdirAt2 i hi]
      by_cases hiC : i % 2 ^ b.depth = hash k % 2 ^ b.depth
      · rw [if_pos hiC, hdepthX]
        exact hld
      · rw [if_neg hiC, hbuck_old _ (hInv.dref i hi)]
        exact hInv.dep i hi
    · intro i hi j hj
      rw [hlen2] at hi hj
      show dirAt _ j = dirAt _ i ↔ _
      rw [hdirAt2 i hi, hdirAt2 j hj]
      by_cases hiC : i % 2 ^ b.depth = hash k % 2 ^ b.depth
      · rw [if_pos hiC, hdepthX]
        by_cases hjC : j % 2 ^ b.depth = hash k % 2 ^ b.depth
        · rw [if_pos hjC, hXeq, mod_two_pow_succ_eq_iff]
          constructor
          · intro hbits
            exact ⟨by rw [hiC, hjC], hbits⟩
          · exact And.right
        · rw [if_neg hjC]
          constructor
          · intro hx
            have h1 := hInv.dref j hj
            have h2 := hXge i
            omega
          · intro hx
            rw [mod_two_pow_succ_eq_iff] at hx
            exact absurd (hx.1.trans hiC) hjC
      · rw [if_neg hiC, hbuck_old _ (hInv.dref i hi)]
        by_cases hjC : j % 2 ^ b.depth = hash k % 2 ^ b.depth
        · rw [if_pos hjC]
          constructor
          · intro hx
            have h1 := hInv.dref i hi
            have h2 := hXge j
            omega
          · intro hx
            have h1 := (hInv.share i hi j hj).mpr hx
            have h2 := (hS j hj).mpr hjC
            rw [h2] at h1
            exact absurd ((hS i hi).mp h1.symm) hiC
        · rw [if_neg hjC]
          exact hInv.share i hi j hj
    · intro i hi e he
      rw [hlen2] at hi
      rw [show dirAt (splitState hash s1 b k) i = _ from hdirAt2 i hi] at he ⊢
      by_cases hiC : i % 2 ^ b.depth = hash k % 2 ^ b.depth
      · rw [if_pos hiC] at he ⊢
        rw [hdepthX]
        rw [mod_two_pow_succ_eq_iff]
        by_cases hbit : Nat.testBit i b.depth
        · rw [if_pos hbit, hbuck1] at he
          simp only [List.mem_filter] at he
          refine ⟨(hkeysb e he.1).trans hiC.symm, ?_⟩
          rw [he.2, hbit]
        · rw [if_neg hbit, hbuck0] at he
          simp only [List.mem_filter, Bool.not_eq_true'] at he
          refine ⟨(hkeysb e he.1).trans hiC.symm, ?_⟩
          simp [he.2, hbit]
      · rw [if_neg hiC] at he ⊢
        rw [hbuck_old _ (hInv.dref i hi)] at he ⊢
        exact hInv.keys i hi e he
    · intro i hi
      rw [hlen2] at hi
      rw [show dirAt (splitState hash s1 b k) i = _ from hdirAt2 i hi]
      by_cases hiC : i % 2 ^ b.depth = hash k % 2 ^ b.depth
      · rw [if_pos hiC]
        by_cases hbit : Nat.testBit i b.depth
        · rw [if_pos hbit, hbuck1]
          exact List.Nodup.sublist (List.Sublist.map Prod.fst (List.filter_sublist _)) hnodupb
        · rw [if_neg hbit, hbuck0]
          exact List.Nodup.sublist (List.Sublist.map Prod.fst (List.filter_sublist _)) hnodupb
      · rw [if_neg hiC, hbuck_old _ (hInv.dref i hi)]
        exact hInv.nodupKeys i hi
    · intro i hi
      rw [hlen2] at hi
      rw [show dirAt (splitState hash s1 b k) i = _ from hdirAt2 i hi]
      show (bucketAt _ _).list.length ≤ s1.bucketSize
      by_cases hiC : i % 2 ^ b.depth = hash k % 2 ^ b.depth
      · rw [if_pos hiC]
        by_cases hbit : Nat.testBit i b.depth
        · rw [if_pos hbit, hbuck1]
          exact Nat.le_trans (List.length_filter_le _ _) hblenb
        · rw [if_neg hbit, hbuck0]
          exact Nat.le_trans (List.length_filter_le _ _) hblenb
      · rw [if_neg hiC, hbuck_old _ (hInv.dref i hi)]
        exact hInv.blen i hi
    · intro i hi
      rw [hlen2] at hi
      rw [show dirAt (splitState hash s1 b k) i = _ from hdirAt2 i hi]
      show (bucketAt _ _).size = s1.bucketSize
      by_cases hiC : i % 2 ^ b.depth = hash k % 2 ^ b.depth
      · rw [if_pos hiC]
        by_cases hbit : Nat.testBit i b.depth
        · rw [if_pos hbit, hbuck1]
        · rw [if_neg hbit, hbuck0]
      · rw [if_neg hiC, hbuck_old _ (hInv.dref i hi)]
        exact hInv.bsize i hi
  · intro k'
    show bucketFind (bucketAt _ (dirAt _ (indexOf hash s1 k'))).list k' = _
    have hplt : indexOf hash s1 k' < s1.dir.length := indexOf_lt hash hInv k'
    rw [hdirAt2 _ hplt]
    by_cases hC : indexOf hash s1 k' % 2 ^ b.depth = hash k % 2 ^ b.depth
    · rw [if_pos hC]
      have hbitk : Nat.testBit (indexOf hash s1 k') b.depth
          = Nat.testBit (hash k') b.depth := testBit_mod_pow hld
      have hbk : bucketAt s1 (dirAt s1 (indexOf hash s1 k')) = b := by
        rw [(hS _ hplt).mpr hC, hb]
      show _ = bucketFind (bucketAt s1 (dirAt s1 (indexOf hash s1 k'))).list k'
      rw [hbk]
      by_cases hbit : Nat.testBit (hash k') b.depth
      · rw [hbitk, if_pos hbit, hbuck1]
        refine bucketFind_filter ?_
        intro e he hek
        rw [hek, hbit]
      · rw [hbitk, if_neg hbit, hbuck0]
        refine bucketFind_filter ?_
        intro e he hek
        simp only [Bool.not_eq_true']
        rw [hek]
        exact Bool.eq_false_iff.mpr hbit
    · rw [if_neg hC, hbuck_old _ (hInv.dref _ hplt)]
      rfl

end SplitCore

section SplitLemmas

variable {K V : Type} [DecidableEq K] (hash : K → Nat)

theorem splitOnce_eq {s : EHT K V} (hInv : EInv hash s) (k : K) :
    splitOnce hash s k =
      splitState hash
        (if (bucketAt s (dirAt s (indexOf hash s k))).depth = s.globalDepth
          then doubled s else s)
        (bucketAt s (dirAt s (indexOf hash s k))) k := by
  have hposlt := indexOf_lt hash hInv k
  have hnd := hInv.nodupKeys _ hposlt
  have hlen := hInv.blen _ hposlt
  simp only [splitOnce, splitState, doubled]
  rw [redist_aux hash _ _ [] [] s.bucketSize (by simpa using hnd) (by simpa using hlen)]
  by_cases hld : (bucketAt s (dirAt s (indexOf hash s k))).depth = s.globalDepth
  · rw [if_pos hld]
    simp
  · rw [if_neg hld]
    simp

theorem splitOnce_spec {s : EHT K V} (hInv : EInv hash s) (k : K) :
    EInv hash (splitOnce hash s k) ∧
    (∀ k', EHT.find hash (splitOnce hash s k) k' = EHT.find hash s k') ∧
    (splitOnce hash s k).numBuckets = s.numBuckets + 1 ∧
    (splitOnce hash s k).bucketSize = s.bucketSize := by
  rw [splitOnce_eq hash hInv k]
  by_cases hld : (bucketAt s (dirAt s (indexOf hash s k))).depth = s.globalDepth
  · rw [if_pos hld]
    obtain ⟨hInv2, hgd, hdir2, hfind2⟩ := double_spec hash hInv
    have hb2 : bucketAt (doubled s) (dirAt (doubled s) (indexOf hash (doubled s) k))
        = bucketAt s (dirAt s (indexOf hash s k)) := by
      rw [hdir2 k]
      rfl
    have hld2 : (bucketAt s (dirAt s (indexOf hash s k))).depth
        < (doubled s).globalDepth := by
      show _ < s.globalDepth + 1
      omega
    obtain ⟨hI, hF⟩ := splitCore_spec hash hInv2 k _ hb2 hld2
    exact ⟨hI, fun k' => (hF k').trans (hfind2 k'), rfl, rfl⟩
  · rw [if_neg hld]
    have hld2 : (bucketAt s (dirAt s (indexOf hash s k))).depth < s.globalDepth :=
      lt_of_le_of_ne (hInv.dep _ (indexOf_lt hash hInv k)) hld
    obtain ⟨hI, hF⟩ := splitCore_spec hash hInv k _ rfl hld2
    exact ⟨hI, hF, rfl, rfl⟩

theorem splitLoop_spec : ∀ (fuel : Nat) {s s1 : EHT K V}, EInv hash s → ∀ (k : K),
    splitLoop hash fuel s k = some s1 →
    EInv hash s1 ∧ (∀ k', EHT.find hash s1 k' = EHT.find hash s k') ∧
    s.numBuckets ≤ s1.numBuckets ∧ s1.bucketSize = s.bucketSize ∧
    ¬ (bucketAt s1 (dirAt s1 (indexOf hash s1 k))).IsFull
  | 0, s, s1, _, k, h => by cases h
  | fuel + 1, s, s1, hInv, k, h => by
      rw [splitLoop] at h
      by_cases hfull : (bucketAt s (dirAt s (indexOf hash s k))).IsFull
      · rw [if_pos hfull] at h
        obtain ⟨hI, hF, hN, hB⟩ := splitOnce_spec hash hInv k
        obtain ⟨hI1, hF1, hN1, hB1, hfl⟩ := splitLoop_spec fuel hI k h
        exact ⟨hI1, fun k' => (hF1 k').trans (hF k'), by omega, hB1.trans hB, hfl⟩
      · rw [if_neg hfull] at h
        cases h
        exact ⟨hInv, fun _ => rfl, Nat.le_refl _, rfl, hfull⟩

theorem updateAt_spec {s : EHT K V} (hInv : EInv hash s) (k : K) (b1 : Bucket K V)
    (hdep : b1.depth = (bucketAt s (dirAt s (indexOf hash s k))).depth)
    (hsize : b1.size = s.bucketSize)
    (hlen : b1.list.length ≤ s.bucketSize)
    (hnd : (b1.list.map Prod.fst).Nodup)
    (hkeys : ∀ e ∈ b1.list, hash e.1 % 2 ^ b1.depth = hash k % 2 ^ b1.depth) :
    EInv hash { s with
      buckets := s.buckets.set (dirAt s (indexOf hash s k)) b1 } ∧
    (∀ k', EHT.find hash { s with
        buckets := s.buckets.set (dirAt s (indexOf hash s k)) b1 } k' =
      if dirAt s (indexOf hash s k') = dirAt s (indexOf hash s k)
      then bucketFind b1.list k' else EHT.find hash s k') := by
  have hposlt := indexOf_lt hash hInv k
  have hbilt := hInv.dref _ hposlt
  set s2 : EHT K V :=
    { s with buckets := s.buckets.set (dirAt s (indexOf hash s k)) b1 } with hs2
  have hdir2 : ∀ i, dirAt s2 i = dirAt s i := fun _ => rfl
  have hidx2 : ∀ k', indexOf hash s2 k' = indexOf hash s k' := fun _ => rfl
  have hbAt : ∀ x, bucketAt s2 x =
      if x = dirAt s (indexOf hash s k) then b1 else bucketAt s x := by
    intro x
    by_cases hx : x = dirAt s (indexOf hash s k)
    · rw [if_pos hx, hx]
      exact getD_set_self _ _ _ _ hbilt
    · rw [if_neg hx]
      exact getD_set_other _ _ _ _ _ hx
  have hmm : hash k % 2 ^ b1.depth = indexOf hash s k % 2 ^ b1.depth := by
    rw [hdep]
    exact (mod_mod_pow (hInv.dep _ hposlt)).symm
  constructor
  · refine ⟨hInv.dlen, ?_, ?_, ?_, ?_, ?_, ?_, ?_⟩
    · intro i hi
      show dirAt s i < (s.buckets.set _ _).length
      rw [List.length_set]
      exact hInv.dref i hi
    · intro i hi
      rw [show dirAt s2 i = dirAt s i from rfl, hbAt]
      by_cases hx : dirAt s i = dirAt s (indexOf hash s k)
      · rw [if_pos hx, hdep, ← hx]
        exact hInv.dep i hi
      · rw [if_neg hx]
        exact hInv.dep i hi
    · intro i hi j hj
      show dirAt s j = dirAt s i ↔ _
      rw [show dirAt s2 i = dirAt s i from rfl, hbAt]
      by_cases hx : dirAt s i = dirAt s (indexOf hash s k)
      · rw [if_pos hx, hdep, ← hx]
        exact hInv.share i hi j hj
      · rw [if_neg hx]
        exact hInv.share i hi j hj
    · intro i hi e he
      rw [show dirAt s2 i = dirAt s i from rfl, hbAt] at he ⊢
      by_cases hx : dirAt s i = dirAt s (indexOf hash s k)
      · rw [if_pos hx] at he ⊢
        rw [hkeys e he, hmm, hdep]
        exact ((hInv.share _ hposlt i hi).mp hx).symm
      · rw [if_neg hx] at he ⊢
        exact hInv.keys i hi e he
    · intro i hi
      rw [show dirAt s2 i = dirAt s i from rfl, hbAt]
      by_cases hx : dirAt s i = dirAt s (indexOf hash s k)
      · rw [if_pos hx]
        exact hnd
      · rw [if_neg hx]
        exact hInv.nodupKeys i hi
    · intro i hi
      rw [show dirAt s2 i = dirAt s i from rfl, hbAt]
      show _ ≤ s.bucketSize
      by_cases hx : dirAt s i = dirAt s (indexOf hash s k)
      · rw [if_pos hx]
        exact hlen
      · rw [if_neg hx]
        exact hInv.blen i hi
    · intro i hi
      rw [show dirAt s2 i = dirAt s i from rfl, hbAt]
      show _ = s.bucketSize
      by_cases hx : dirAt s i = dirAt s (indexOf hash s k)
      · rw [if_pos hx]
        exact hsize
      · rw [if_neg hx]
        exact hInv.bsize i hi
  · intro k'
    show bucketFind (bucketAt s2 (dirAt s (indexOf hash s k'))).list k' = _
    rw [hbAt]
    by_cases hx : dirAt s (indexOf hash s k') = dirAt s (indexOf hash s k)
    · rw [if_pos hx, if_pos hx]
    · rw [if_neg hx, if_neg hx]
      rfl

end SplitLemmas

section InsertRemove

variable {K V : Type} [DecidableEq K] (hash : K → Nat)

theorem insertHere_spec {s : EHT K V} (hInv : EInv hash s) (k : K) (v : V)
    {b1 : Bucket K V}
    (h : (bucketAt s (dirAt s (indexOf hash s k))).insertB k v = some b1) :
    EInv hash { s with
      buckets := s.buckets.set (dirAt s (indexOf hash s k)) b1 } ∧
    (∀ k', EHT.find hash { s with
        buckets := s.buckets.set (dirAt s (indexOf hash s k)) b1 } k' =
      if k' = k then some v else EHT.find hash s k') := by
  have hposlt := indexOf_lt hash hInv k
  have hnd := hInv.nodupKeys _ hposlt
  have hblen := hInv.blen _ hposlt
  have hbsize := hInv.bsize _ hposlt
  have hkeysOld := hInv.keys _ hposlt
  have hmmx : indexOf hash s k % 2 ^ (bucketAt s (dirAt s (indexOf hash s k))).depth
      = hash k % 2 ^ (bucketAt s (dirAt s (indexOf hash s k))).depth :=
    mod_mod_pow (hInv.dep _ hposlt)
  rw [Bucket.insertB] at h
  by_cases hc : containsKey (bucketAt s (dirAt s (indexOf hash s k))).list k
  · rw [if_pos hc] at h
    have hb1 := (Option.some.inj h).symm
    have hdep1 : b1.depth = (bucketAt s (dirAt s (indexOf hash s k))).depth := by
      rw [hb1]
    have hsize1 : b1.size = (bucketAt s (dirAt s (indexOf hash s k))).size := by
      rw [hb1]
    have hlist1 : b1.list
        = overwriteFirst (bucketAt s (dirAt s (indexOf hash s k))).list k v := by
      rw [hb1]
    obtain ⟨hI, hF⟩ := updateAt_spec hash hInv k b1 hdep1 (hsize1.trans hbsize)
      (by rw [hlist1, length_overwriteFirst]; exact hblen)
      (by rw [hlist1, map_fst_overwriteFirst]; exact hnd)
      (by
        intro e he
        rw [hlist1] at he
        have hfst : e.1 ∈ (bucketAt s (dirAt s (indexOf hash s k))).list.map Prod.fst := by
          rw [← map_fst_overwriteFirst k v]
          exact List.mem_map_of_mem Prod.fst he
        obtain ⟨e', he', hee⟩ := List.mem_map.mp hfst
        rw [hdep1, ← hee, hkeysOld e' he', hmmx])
    refine ⟨hI, fun k' => (hF k').trans ?_⟩
    rw [hlist1]
    by_cases hk' : k' = k
    · subst hk'
      rw [if_pos rfl, if_pos rfl]
      exact bucketFind_overwriteFirst_self hc
    · rw [if_neg hk']
      by_cases hx : dirAt s (indexOf hash s k') = dirAt s (indexOf hash s k)
      · rw [if_pos hx]
        rw [bucketFind_overwriteFirst_other hk']
        show _ = bucketFind (bucketAt s (dirAt s (indexOf hash s k'))).list k'
        rw [hx]
      · rw [if_neg hx]
  · rw [if_neg hc] at h
    by_cases hroom : (bucketAt s (dirAt s (indexOf hash s k))).list.length
        < (bucketAt s (dirAt s (indexOf hash s k))).size
    · rw [if_pos hroom] at h
      have hb1 := (Option.some.inj h).symm
      have hdep1 : b1.depth = (bucketAt s (dirAt s (indexOf hash s k))).depth := by
        rw [hb1]
      have hsize1 : b1.size = (bucketAt s (dirAt s (indexOf hash s k))).size := by
        rw [hb1]
      have hlist1 : b1.list
          = (bucketAt s (dirAt s (indexOf hash s k))).list ++ [(k, v)] := by
        rw [hb1]
      have hnotmem : k ∉ (bucketAt s (dirAt s (indexOf hash s k))).list.map Prod.fst := by
        intro hmem
        rw [← containsKey_iff] at hmem
        rw [hmem] at hc
        exact hc rfl
      obtain ⟨hI, hF⟩ := updateAt_spec hash hInv k b1 hdep1 (hsize1.trans hbsize)
        (by
          rw [hlist1, List.length_append, List.length_singleton]
          rw [hbsize] at hroom
          omega)
        (by
          rw [hlist1, List.map_append]
          refine List.Nodup.append hnd (by simp) ?_
          intro a ha hb
          rw [List.map_singleton, List.mem_singleton] at hb
          have hbk : a = k := hb
          rw [hbk] at ha
          exact hnotmem ha)
        (by
          intro e he
          rw [hlist1] at he
          rw [hdep1]
          rcases List.mem_append.mp he with he1 | he2
          · rw [hkeysOld e he1, hmmx]
          · rw [List.mem_singleton.mp he2])
      refine ⟨hI, fun k' => (hF k').trans ?_⟩
      rw [hlist1]
      by_cases hk' : k' = k
      · subst hk'
        rw [if_pos rfl, if_pos rfl]
        exact bucketFind_append_self (by simpa using hc)
      · rw [if_neg hk']
        by_cases hx : dirAt s (indexOf hash s k') = dirAt s (indexOf hash s k)
        · rw [if_pos hx]
          rw [bucketFind_append_other hk']
          show _ = bucketFind (bucketAt s (dirAt s (indexOf hash s k'))).list k'
          rw [hx]
        · rw [if_neg hx]
    · rw [if_neg hroom] at h
      cases h

theorem insertB_ne_none {b : Bucket K V} {k : K} {v : V}
    (hfl : ¬ b.IsFull) : b.insertB k v ≠ none := by
  rw [Bucket.insertB]
  by_cases hc : containsKey b.list k
  · rw [if_pos hc]
    exact Option.some_ne_none _
  · rw [if_neg hc, if_pos (by rw [Bucket.IsFull] at hfl; omega)]
    exact Option.some_ne_none _

theorem insert_spec {s : EHT K V} (hInv : EInv hash s) (fuel : Nat) (k : K) (v : V)
    {s1 : EHT K V} (h : EHT.insert hash fuel s k v = some s1) :
    EInv hash s1 ∧
    (∀ k', EHT.find hash s1 k' = if k' = k then some v else EHT.find hash s k') ∧
    s.numBuckets ≤ s1.numBuckets ∧ s1.bucketSize = s.bucketSize := by
  simp only [EHT.insert] at h
  rcases hins : (bucketAt s (dirAt s (indexOf hash s k))).insertB k v with _ | b1
  · simp only [hins] at h
    rcases hsl : splitLoop hash fuel s k with _ | s2
    · simp only [hsl] at h
      exact Option.noConfusion h
    · simp only [hsl] at h
      obtain ⟨hI2, hF2, hN2, hB2, hnotfull⟩ := splitLoop_spec hash fuel hInv k hsl
      rcases hins2 : (bucketAt s2 (dirAt s2 (indexOf hash s2 k))).insertB k v with _ | b2
      · exact absurd hins2 (insertB_ne_none hnotfull)
      · simp only [hins2] at h
        have hs1 : s1 = { s2 with
            buckets := s2.buckets.set (dirAt s2 (indexOf hash s2 k)) b2 } :=
          (Option.some.inj h).symm
        subst hs1
        obtain ⟨hI, hF⟩ := insertHere_spec hash hI2 k v hins2
        refine ⟨hI, ?_, ?_, hB2⟩
        · intro k'
          rw [hF k']
          by_cases hk' : k' = k
          · rw [if_pos hk', if_pos hk']
          · rw [if_neg hk', if_neg hk', hF2 k']
        · show s.numBuckets ≤ s2.numBuckets
          exact hN2
  · simp only [hins] at h
    have hs1 : s1 = { s with
        buckets := s.buckets.set (dirAt s (indexOf hash s k)) b1 } :=
      (Option.some.inj h).symm
    subst hs1
    obtain ⟨hI, hF⟩ := insertHere_spec hash hInv k v hins
    exact ⟨hI, hF, Nat.le_refl _, rfl⟩

theorem remove_spec {s : EHT K V} (hInv : EInv hash s) (k : K) :
    EInv hash (EHT.remove hash s k).2 ∧
    (∀ k', EHT.find hash (EHT.remove hash s k).2 k' =
      if k' = k then none else EHT.find hash s k') ∧
    (EHT.remove hash s k).2.numBuckets = s.numBuckets ∧
    (EHT.remove hash s k).2.bucketSize = s.bucketSize := by
  have hposlt := indexOf_lt hash hInv k
  have hnd := hInv.nodupKeys _ hposlt
  have hblen := hInv.blen _ hposlt
  have hbsize := hInv.bsize _ hposlt
  have hkeysOld := hInv.keys _ hposlt
  have hmmx : indexOf hash s k % 2 ^ (bucketAt s (dirAt s (indexOf hash s k))).depth
      = hash k % 2 ^ (bucketAt s (dirAt s (indexOf hash s k))).depth :=
    mod_mod_pow (hInv.dep _ hposlt)
  obtain ⟨hI, hF⟩ := updateAt_spec hash hInv k
    ⟨(bucketAt s (dirAt s (indexOf hash s k))).size,
     (bucketAt s (dirAt s (indexOf hash s k))).depth,
     eraseKey (bucketAt s (dirAt s (indexOf hash s k))).list k⟩
    rfl hbsize
    (Nat.le_trans (List.Sublist.length_le (eraseKey_sublist k _)) hblen)
    (List.Nodup.sublist ((eraseKey_sublist k _).map Prod.fst) hnd)
    (by
      intro e he
      have hmem := (eraseKey_sublist k _).subset he
      show hash e.1 % 2 ^ (bucketAt s (dirAt s (indexOf hash s k))).depth
        = hash k % 2 ^ (bucketAt s (dirAt s (indexOf hash s k))).depth
      rw [hkeysOld e hmem, hmmx])
  refine ⟨hI, ?_, rfl, rfl⟩
  intro k'
  have hF' := hF k'
  refine hF'.trans ?_
  by_cases hk' : k' = k
  · subst hk'
    rw [if_pos rfl, if_pos rfl]
    exact bucketFind_eraseKey_self hnd
  · rw [if_neg hk']
    by_cases hx : dirAt s (indexOf hash s k') = dirAt s (indexOf hash s k)
    · rw [if_pos hx]
      show bucketFind (eraseKey (bucketAt s (dirAt s (indexOf hash s k))).list k) k' = _
      rw [bucketFind_eraseKey_other hk']
      show _ = bucketFind (bucketAt s (dirAt s (indexOf hash s k'))).list k'
      rw [hx]
    · rw [if_neg hx]

end InsertRemove

section RunE

variable {K V : Type} [DecidableEq K] (hash : K → Nat)

theorem runE_none : ∀ ops : List (EOp K V),
    ops.foldl (fun acc op => acc.bind (fun t => applyE hash t op)) none = none
  | [] => rfl
  | _ :: ops => runE_none ops

theorem runEAux_spec : ∀ (ops : List (EOp K V)) (s : EHT K V), EInv hash s →
    ∀ s1 : EHT K V,
    ops.foldl (fun acc op => acc.bind (fun t => applyE hash t op)) (some s) = some s1 →
    EInv hash s1 ∧ (∀ k, EHT.find hash s1 k = ops.foldl specStep (EHT.find hash s) k) ∧
    s.numBuckets ≤ s1.numBuckets ∧ s1.bucketSize = s.bucketSize
  | [], s, hInv, s1, h => by
      cases Option.some.inj h
      exact ⟨hInv, fun k => rfl, Nat.le_refl _, rfl⟩
  | op :: ops, s, hInv, s1, h => by
      rw [List.foldl_cons] at h
      rw [show (some s).bind (fun t => applyE hash t op) = applyE hash s op from rfl] at h
      cases op with
      | ins k v fuel =>
          rcases hai : applyE hash s (EOp.ins k v fuel) with _ | s2
          · rw [hai, runE_none] at h
            exact Option.noConfusion h
          · rw [hai] at h
            have hins : EHT.insert hash fuel s k v = some s2 := hai
            obtain ⟨hI2, hF2, hN2, hB2⟩ := insert_spec hash hInv fuel k v hins
            obtain ⟨hI1, hF1, hN1, hB1⟩ := runEAux_spec ops s2 hI2 s1 h
            refine ⟨hI1, ?_, by omega, hB1.trans hB2⟩
            intro k'
            rw [List.foldl_cons]
            have hfeq : specStep (EHT.find hash s) (EOp.ins k v fuel) = EHT.find hash s2 :=
              funext (fun x => (hF2 x).symm)
            rw [hfeq]
            exact hF1 k'
      | rem k =>
          rw [show applyE hash s (EOp.rem k) = some (EHT.remove hash s k).2 from rfl] at h
          obtain ⟨hI2, hF2, hN2, hB2⟩ := remove_spec hash hInv k
          obtain ⟨hI1, hF1, hN1, hB1⟩ := runEAux_spec ops _ hI2 s1 h
          refine ⟨hI1, ?_, by omega, hB1.trans hB2⟩
          intro k'
          rw [List.foldl_cons]
          have hfeq : specStep (EHT.find hash s) (EOp.rem k)
              = EHT.find hash (EHT.remove hash s k).2 :=
            funext (fun x => (hF2 x).symm)
          rw [hfeq]
          exact hF1 k'

theorem runE_full_spec (bs : Nat) (ops : List (EOp K V)) {s : EHT K V}
    (h : runE hash bs ops = some s) :
    EInv hash s ∧ (∀ k, EHT.find hash s k = specMap ops k) ∧ s.bucketSize = bs := by
  obtain ⟨hI, hF, _, hB⟩ := runEAux_spec hash ops (EHT.init bs) (EInv.initE hash bs) s h
  refine ⟨hI, ?_, hB⟩
  intro k
  have hd : ∀ i, dirAt (EHT.init bs : EHT K V) i = 0 := by
    intro i
    cases i with
    | zero => rfl
    | succ n => cases n <;> rfl
  have hfind0 : EHT.find hash (EHT.init bs : EHT K V) = (fun _ : K => (none : Option V)) := by
    funext x
    show bucketFind (bucketAt (EHT.init bs : EHT K V)
      (dirAt (EHT.init bs : EHT K V) (indexOf hash (EHT.init bs) x))).list x = none
    rw [hd]
    rfl
  rw [hF k, hfind0]
  rfl

end RunE

/-- C3: after any terminating run of hash-table operations, `Find` returns
exactly the value of the most recent `Insert` of the key that is not
followed by a `Remove` of that key (so an `Insert` on a present key
overwrites the stored value, and absent keys report nothing), and the
bucket count `num_buckets_` never decreases: from any prefix of the run
to the full run it is monotonically non-decreasing. -/
theorem C3_hash_map_law {K V : Type} [DecidableEq K] (hash : K → Nat) (bs : Nat)
    (l1 l2 : List (EOp K V)) {s1 s : EHT K V}
    (hrun1 : runE hash bs l1 = some s1)
    (hrun : runE hash bs (l1 ++ l2) = some s) :
    (∀ k, EHT.find hash s k = specMap (l1 ++ l2) k) ∧
    s1.numBuckets ≤ s.numBuckets := by
  have hsp := runE_full_spec hash bs (l1 ++ l2) hrun
  refine ⟨hsp.2.1, ?_⟩
  obtain ⟨hI1, -, -⟩ := runE_full_spec hash bs l1 hrun1
  have hsplit : runE hash bs (l1 ++ l2)
      = l2.foldl (fun acc op => acc.bind (fun t => applyE hash t op)) (runE hash bs l1) := by
    unfold runE
    rw [List.foldl_append]
  rw [hsplit, hrun1] at hrun
  exact (runEAux_spec hash l2 s1 hI1 s hrun).2.2.1

theorem C3_hash_map_law_witness :
    runE (fun n => n) 1 [EOp.ins 0 10 1]
      = some (⟨0, 1, 1, [⟨1, 0, [(0, 10)]⟩], [0]⟩ : EHT Nat Nat) ∧
    runE (fun n => n) 1 ([EOp.ins 0 10 1] ++ [EOp.ins 0 20 1, EOp.rem 1])
      = some (⟨0, 1, 1, [⟨1, 0, [(0, 20)]⟩], [0]⟩ : EHT Nat Nat) ∧
    ((∀ k, EHT.find (fun n => n) (⟨0, 1, 1, [⟨1, 0, [(0, 20)]⟩], [0]⟩ : EHT Nat Nat) k
        = specMap ([EOp.ins 0 10 1] ++ [EOp.ins 0 20 1, EOp.rem 1]) k) ∧
      (⟨0, 1, 1, [⟨1, 0, [(0, 10)]⟩], [0]⟩ : EHT Nat Nat).numBuckets
        ≤ (⟨0, 1, 1, [⟨1, 0, [(0, 20)]⟩], [0]⟩ : EHT Nat Nat).numBuckets) :=
  ⟨rfl, rfl, C3_hash_map_law (fun n => n) 1 [EOp.ins 0 10 1] [EOp.ins 0 20 1, EOp.rem 1]
    rfl rfl⟩

/-- C9: after any terminating run of hash-table operations, every
directory slot holds a valid bucket reference, every key stored in the
bucket a slot points to agrees with that slot on the low `local_depth`
bits of its hash, and no bucket holds more than `bucket_size` entries —
including runs in which one split does not separate the colliding keys
and the split loop repeats. -/
theorem C9_hash_invariants {K V : Type} [DecidableEq K] (hash : K → Nat) (bs : Nat)
    (ops : List (EOp K V)) {s : EHT K V} (hrun : runE hash bs ops = some s) :
    (∀ i, i < s.dir.length → dirAt s i < s.buckets.length) ∧
    (∀ i, i < s.dir.length → ∀ e ∈ (bucketAt s (dirAt s i)).list,
      hash e.1 % 2 ^ (bucketAt s (dirAt s i)).depth
        = i % 2 ^ (bucketAt s (dirAt s i)).depth) ∧
    (∀ i, i < s.dir.length → (bucketAt s (dirAt s i)).list.length ≤ bs) := by
  obtain ⟨hI, -, hB⟩ := runE_full_spec hash bs ops hrun
  exact ⟨hI.dref, hI.keys, fun i hi => hB ▸ hI.blen i hi⟩

theorem C9_hash_invariants_witness :
    runE (fun n => n) 1 [EOp.ins 0 10 3, EOp.ins 2 20 3]
      = some (⟨2, 1, 3,
        [⟨1, 0, [(0, 10)]⟩, ⟨1, 1, [(0, 10)]⟩, ⟨1, 1, []⟩,
         ⟨1, 2, [(0, 10)]⟩, ⟨1, 2, [(2, 20)]⟩],
        [3, 2, 4, 2]⟩ : EHT Nat Nat) ∧
    ((∀ i, i < (⟨2, 1, 3,
        [⟨1, 0, [(0, 10)]⟩, ⟨1, 1, [(0, 10)]⟩, ⟨1, 1, []⟩,
         ⟨1, 2, [(0, 10)]⟩, ⟨1, 2, [(2, 20)]⟩],
        [3, 2, 4, 2]⟩ : EHT Nat Nat).dir.length →
        dirAt (⟨2, 1, 3,
          [⟨1, 0, [(0, 10)]⟩, ⟨1, 1, [(0, 10)]⟩, ⟨1, 1, []⟩,
           ⟨1, 2, [(0, 10)]⟩, ⟨1, 2, [(2, 20)]⟩],
          [3, 2, 4, 2]⟩ : EHT Nat Nat) i < (⟨2, 1, 3,
          [⟨1, 0, [(0, 10)]⟩, ⟨1, 1, [(0, 10)]⟩, ⟨1, 1, []⟩,
           ⟨1, 2, [(0, 10)]⟩, ⟨1, 2, [(2, 20)]⟩],
          [3, 2, 4, 2]⟩ : EHT Nat Nat).buckets.length) ∧
     (∀ i, i < (⟨2, 1, 3,
        [⟨1, 0, [(0, 10)]⟩, ⟨1, 1, [(0, 10)]⟩, ⟨1, 1, []⟩,
         ⟨1, 2, [(0, 10)]⟩, ⟨1, 2, [(2, 20)]⟩],
        [3, 2, 4, 2]⟩ : EHT Nat Nat).dir.length →
        ∀ e ∈ (bucketAt (⟨2, 1, 3,
          [⟨1, 0, [(0, 10)]⟩, ⟨1, 1, [(0, 10)]⟩, ⟨1, 1, []⟩,
           ⟨1, 2, [(0, 10)]⟩, ⟨1, 2, [(2, 20)]⟩],
          [3, 2, 4, 2]⟩ : EHT Nat Nat) (dirAt (⟨2, 1, 3,
          [⟨1, 0, [(0, 10)]⟩, ⟨1, 1, [(0, 10)]⟩, ⟨1, 1, []⟩,
           ⟨1, 2, [(0, 10)]⟩, ⟨1, 2, [(2, 20)]⟩],
          [3, 2, 4, 2]⟩ : EHT Nat Nat) i)).list,
        (fun n => n) e.1 % 2 ^ ((bucketAt (⟨2, 1, 3,
          [⟨1, 0, [(0, 10)]⟩, ⟨1, 1, [(0, 10)]⟩, ⟨1, 1, []⟩,
           ⟨1, 2, [(0, 10)]⟩, ⟨1, 2, [(2, 20)]⟩],
          [3, 2, 4, 2]⟩ : EHT Nat Nat) (dirAt (⟨2, 1, 3,
          [⟨1, 0, [(0, 10)]⟩, ⟨1, 1, [(0, 10)]⟩, ⟨1, 1, []⟩,
           ⟨1, 2, [(0, 10)]⟩, ⟨1, 2, [(2, 20)]⟩],
          [3, 2, 4, 2]⟩ : EHT Nat Nat) i)).depth)
          = i % 2 ^ ((bucketAt (⟨2, 1, 3,
          [⟨1, 0, [(0, 10)]⟩, ⟨1, 1, [(0, 10)]⟩, ⟨1, 1, []⟩,
           ⟨1, 2, [(0, 10)]⟩, ⟨1, 2, [(2, 20)]⟩],
          [3, 2, 4, 2]⟩ : EHT Nat Nat) (dirAt (⟨2, 1, 3,
          [⟨1, 0, [(0, 10)]⟩, ⟨1, 1, [(0, 10)]⟩, ⟨1, 1, []⟩,
           ⟨1, 2, [(0, 10)]⟩, ⟨1, 2, [(2, 20)]⟩],
          [3, 2, 4, 2]⟩ : EHT Nat Nat) i)).depth)) ∧
     (∀ i, i < (⟨2, 1, 3,
        [⟨1, 0, [(0, 10)]⟩, ⟨1, 1, [(0, 10)]⟩, ⟨1, 1, []⟩,
         ⟨1, 2, [(0, 10)]⟩, ⟨1, 2, [(2, 20)]⟩],
        [3, 2, 4, 2]⟩ : EHT Nat Nat).dir.length →
        (bucketAt (⟨2, 1, 3,
          [⟨1, 0, [(0, 10)]⟩, ⟨1, 1, [(0, 10)]⟩, ⟨1, 1, []⟩,
           ⟨1, 2, [(0, 10)]⟩, ⟨1, 2, [(2, 20)]⟩],
          [3, 2, 4, 2]⟩ : EHT Nat Nat) (dirAt (⟨2, 1, 3,
          [⟨1, 0, [(0, 10)]⟩, ⟨1, 1, [(0, 10)]⟩, ⟨1, 1, []⟩,
           ⟨1, 2, [(0, 10)]⟩, ⟨1, 2, [(2, 20)]⟩],
          [3, 2, 4, 2]⟩ : EHT Nat Nat) i)).list.length ≤ 1)) :=
  ⟨by rfl, C9_hash_invariants (fun n => n) 1 [EOp.ins 0 10 3, EOp.ins 2 20 3] (by rfl)⟩

/-! ## Buffer pool manager (`buffer_pool_manager_instance.cpp`)

`page_id_t` is an `int`; we model it as `Int` so that `INVALID_PAGE_ID`
(-1, modelled from the spec: a reserved id no allocation produces, marking
unoccupied frames) is representable.  A page's byte array is abstracted to
a single `Nat` token: `ResetMemory` zeroes it, `ReadPage` copies the disk
cell, `WritePage` copies it to the disk cell and is logged in a trace.
The `std::hash` used by the page table is a parameter `hashP`. -/

/-- One element of the `pages_` array.  The `Page` class lives in a header
that is not in the sources; modelled from the spec: a fresh frame holds no
page (`page_id_ = INVALID_PAGE_ID = -1`), is unpinned and clean. -/
structure Page where
  pageId : Int
  pinCount : Nat
  isDirty : Bool
  data : Nat
  deriving Repr, DecidableEq

/-- Pointwise update of an `Int`-indexed total map. -/
def updI {α : Type} (m : Int → α) (x : Int) (v : α) : Int → α :=
  fun y => if y = x then v else m y

/-- The state of `BufferPoolManagerInstance`, plus the disk manager's
cells and the trace of its `WritePage` calls. -/
structure BPM where
  poolSize : Nat
  pages : Nat → Page
  pageTable : EHT Int Nat
  replacer : LRUK
  freeList : List Nat
  nextPageId : Int
  disk : Int → Nat
  diskWrites : List (Int × Nat)

/-- `BufferPoolManagerInstance(pool_size, disk_manager, replacer_k)`.
`bs` is the header's `bucket_size_` constant, `d` the default of the
replacer's `evictable_` field, `np0` the initial `next_page_id_`
(modelled from the spec: the next-page-id counter), `disk0` the initial
disk contents. -/
def BPM.init (n k bs : Nat) (d : Bool) (np0 : Int) (disk0 : Int → Nat) : BPM :=
  ⟨n, fun _ => ⟨-1, 0, false, 0⟩, EHT.init bs, LRUK.init n k d,
   List.range n, np0, disk0, []⟩

section BPMOps

variable (hashP : Int → Nat)

/-- `RecordAccess` then `SetEvictable(·, false)`, the pair of replacer
calls every page acquisition and every directory hit performs. -/
def recordPin (rep : LRUK) (f : Nat) : Option LRUK :=
  (rep.RecordAccess f).bind (fun r1 => r1.SetEvictable f false)

/-- `BufferPoolManagerInstance::NewPgImp`.  The result is `none` when a
replacer call throws or the page-table insert does not terminate within
`fuel` splits; `some (none, s)` models returning `nullptr`. -/
def BPM.newPg (fuel : Nat) (s : BPM) : Option (Option (Int × Nat) × BPM) :=
  match s.freeList with
  | f :: rest =>
      let pid := s.nextPageId
      match recordPin s.replacer f with
      | none => none
      | some rep1 =>
        match EHT.insert hashP fuel s.pageTable pid f with
        | none => none
        | some pt1 =>
          some (some (pid, f),
            { s with
              freeList := rest
              pages := updF s.pages f ⟨pid, 1, false, 0⟩
              nextPageId := pid + 1
              replacer := rep1
              pageTable := pt1 })
  | [] =>
      match s.replacer.Evict with
      | none => some (none, s)
      | some (f, rep0) =>
        let victim := s.pages f
        let dw := if victim.isDirty
          then s.diskWrites ++ [(victim.pageId, victim.data)] else s.diskWrites
        let dsk := if victim.isDirty
          then updI s.disk victim.pageId victim.data else s.disk
        let pt0 := (EHT.remove hashP s.pageTable victim.pageId).2
        let pid := s.nextPageId
        match recordPin rep0 f with
        | none => none
        | some rep1 =>
          match EHT.insert hashP fuel pt0 pid f with
          | none => none
          | some pt1 =>
            some (some (pid, f),
              { s with
                pages := updF s.pages f ⟨pid, 1, false, 0⟩
                nextPageId := pid + 1
                replacer := rep1
                pageTable := pt1
                diskWrites := dw
                disk := dsk })

/-- `BufferPoolManagerInstance::FetchPgImp`. -/
def BPM.fetchPg (fuel : Nat) (pid : Int) (s : BPM) : Option (Option Nat × BPM) :=
  match EHT.find hashP s.pageTable pid with
  | some f =>
      match recordPin s.replacer f with
      | none => none
      | some rep1 =>
        some (some f,
          { s with
            pages := updF s.pages f
              { s.pages f with pinCount := (s.pages f).pinCount + 1 }
            replacer := rep1 })
  | none =>
      match s.freeList with
      | f :: rest =>
          match EHT.insert hashP fuel s.pageTable pid f with
          | none => none
          | some pt1 =>
            match recordPin s.replacer f with
            | none => none
            | some rep1 =>
              some (some f,
                { s with
                  freeList := rest
                  pages := updF s.pages f ⟨pid, 1, false, s.disk pid⟩
                  pageTable := pt1
                  replacer := rep1 })
      | [] =>
          match s.replacer.Evict with
          | none => some (none, s)
          | some (f, rep0) =>
            let victim := s.pages f
            let dw := if victim.isDirty
              then s.diskWrites ++ [(victim.pageId, victim.data)] else s.diskWrites
            let dsk := if victim.isDirty
              then updI s.disk victim.pageId victim.data else s.disk
            let pt0 := (EHT.remove hashP s.pageTable victim.pageId).2
            match EHT.insert hashP fuel pt0 pid f with
            | none => none
            | some pt1 =>
              match recordPin rep0 f with
              | none => none
              | some rep1 =>
                some (some f,
                  { s with
                    pages := updF s.pages f ⟨pid, 1, false, dsk pid⟩
                    pageTable := pt1
                    replacer := rep1
                    diskWrites := dw
                    disk := dsk })

/-- `BufferPoolManagerInstance::UnpinPgImp`. -/
def BPM.unpinPg (pid : Int) (dirty : Bool) (s : BPM) : Option (Bool × BPM) :=
  match EHT.find hashP s.pageTable pid with
  | none => some (false, s)
  | some f =>
      if (s.pages f).pinCount = 0 then some (false, s)
      else
        let pc := (s.pages f).pinCount - 1
        match (if pc = 0 then s.replacer.SetEvictable f true else some s.replacer) with
        | none => none
        | some rep1 =>
          some (true,
            { s with
              pages := updF s.pages f
                { s.pages f with
                  pinCount := pc
                  isDirty := if dirty then true else (s.pages f).isDirty }
              replacer := rep1 })

/-- `BufferPoolManagerInstance::FlushPgImp` (writes unconditionally,
dirty or not). -/
def BPM.flushPg (pid : Int) (s : BPM) : Bool × BPM :=
  match EHT.find hashP s.pageTable pid with
  | none => (false, s)
  | some f =>
      if pid = -1 then (false, s)
      else
        (true,
          { s with
            pages := updF s.pages f { s.pages f with isDirty := false }
            disk := updI s.disk pid (s.pages f).data
            diskWrites := s.diskWrites ++ [(pid, (s.pages f).data)] })

/-- The body of `FlushAllPgsImp`'s loop for one frame. -/
def flushFrame (s : BPM) (f : Nat) : BPM :=
  if (s.pages f).pageId ≠ -1 then
    { s with
      pages := updF s.pages f { s.pages f with isDirty := false }
      disk := updI s.disk (s.pages f).pageId (s.pages f).data
      diskWrites := s.diskWrites ++ [((s.pages f).pageId, (s.pages f).data)] }
  else s

/-- `BufferPoolManagerInstance::FlushAllPgsImp`. -/
def BPM.flushAll (s : BPM) : BPM :=
  (List.range s.poolSize).foldl flushFrame s

/-- `BufferPoolManagerInstance::DeletePgImp`.  `DeallocatePage` is a
no-op (modelled from the spec: deallocation belongs to the external disk
manager). -/
def BPM.deletePg (pid : Int) (s : BPM) : Option (Bool × BPM) :=
  match EHT.find hashP s.pageTable pid with
  | none => some (true, s)
  | some f =>
      if 0 < (s.pages f).pinCount then some (false, s)
      else
        let pg := s.pages f
        let dw := if pg.isDirty then s.diskWrites ++ [(pid, pg.data)] else s.diskWrites
        let dsk := if pg.isDirty then updI s.disk pid pg.data else s.disk
        match s.replacer.SetEvictable f true with
        | none => none
        | some rep1 =>
          match rep1.Remove f with
          | none => none
          | some rep2 =>
            some (true,
              { s with
                pages := updF s.pages f { pg with isDirty := false, data := 0 }
                pageTable := (EHT.remove hashP s.pageTable pid).2
                replacer := rep2
                freeList := s.freeList ++ [f]
                diskWrites := dw
                disk := dsk })

/-- The buffer pool's public operations. -/
inductive BOp where
  | newOp (fuel : Nat)
  | fetchOp (pid : Int) (fuel : Nat)
  | unpinOp (pid : Int) (dirty : Bool)
  | flushOp (pid : Int)
  | flushAllOp
  | deleteOp (pid : Int)

def applyB (s : BPM) : BOp → Option BPM
  | .newOp fuel => (BPM.newPg hashP fuel s).map Prod.snd
  | .fetchOp pid fuel => (BPM.fetchPg hashP fuel pid s).map Prod.snd
  | .unpinOp pid dirty => (BPM.unpinPg hashP pid dirty s).map Prod.snd
  | .flushOp pid => some (BPM.flushPg hashP pid s).2
  | .flushAllOp => some (BPM.flushAll s)
  | .deleteOp pid => (BPM.deletePg hashP pid s).map Prod.snd

def runB (n k bs : Nat) (d : Bool) (np0 : Int) (disk0 : Int → Nat)
    (ops : List BOp) : Option BPM :=
  ops.foldl (fun acc op => acc.bind (fun s => applyB hashP s op))
    (some (BPM.init n k bs d np0 disk0))

end BPMOps

/-- C2: when `NewPgImp` or `FetchPgImp` obtains its frame by evicting a
victim whose dirty bit is set, the disk-write trace grows by exactly one
`WritePage` call carrying the victim's page id and its still-buffered
bytes (read before the frame is reset for the new page); a clean victim
produces no `WritePage` call. -/
theorem C2_dirty_writeback (hashP : Int → Nat) (fuel : Nat) (s : BPM) {f : Nat}
    (hfree : s.freeList = []) (hev : ∃ rep0, s.replacer.Evict = some (f, rep0)) :
    (∀ rs, BPM.newPg hashP fuel s = some rs →
      rs.2.diskWrites = if (s.pages f).isDirty
        then s.diskWrites ++ [((s.pages f).pageId, (s.pages f).data)]
        else s.diskWrites) ∧
    (∀ pid rs, EHT.find hashP s.pageTable pid = none →
      BPM.fetchPg hashP fuel pid s = some rs →
      rs.2.diskWrites = if (s.pages f).isDirty
        then s.diskWrites ++ [((s.pages f).pageId, (s.pages f).data)]
        else s.diskWrites) := by
  obtain ⟨rep0, hev⟩ := hev
  constructor
  · intro rs h
    unfold BPM.newPg at h
    simp only [hfree, hev] at h
    rcases hrp : recordPin rep0 f with _ | rep1
    · simp only [hrp] at h
      exact Option.noConfusion h
    · simp only [hrp] at h
      rcases hins : EHT.insert hashP fuel
          (EHT.remove hashP s.pageTable (s.pages f).pageId).2 s.nextPageId f with _ | pt1
      · simp only [hins] at h
        exact Option.noConfusion h
      · simp only [hins] at h
        cases Option.some.inj h
        rfl
  · intro pid rs hfind h
    unfold BPM.fetchPg at h
    simp only [hfind, hfree, hev] at h
    rcases hins : EHT.insert hashP fuel
        (EHT.remove hashP s.pageTable (s.pages f).pageId).2 pid f with _ | pt1
    · simp only [hins] at h
      exact Option.noConfusion h
    · simp only [hins] at h
      rcases hrp : recordPin rep0 f with _ | rep1
      · simp only [hrp] at h
        exact Option.noConfusion h
      · simp only [hrp] at h
        cases Option.some.inj h
        rfl

theorem C2_dirty_writeback_witness :
    ((⟨1, fun _ => ⟨5, 0, true, 77⟩, ⟨0, 4, 1, [⟨4, 0, [((5 : Int), 0)]⟩], [0]⟩,
        ⟨2, 1, 1, 1, fun _ => ⟨1, true, 0⟩, fun _ => [1], [(1, 0)], []⟩,
        [], 6, fun _ => 0, []⟩ : BPM).freeList = []) ∧
    (∃ rep0, (⟨1, fun _ => ⟨5, 0, true, 77⟩, ⟨0, 4, 1, [⟨4, 0, [((5 : Int), 0)]⟩], [0]⟩,
        ⟨2, 1, 1, 1, fun _ => ⟨1, true, 0⟩, fun _ => [1], [(1, 0)], []⟩,
        [], 6, fun _ => 0, []⟩ : BPM).replacer.Evict = some (0, rep0)) ∧
    ((∀ rs, BPM.newPg Int.toNat 1
        (⟨1, fun _ => ⟨5, 0, true, 77⟩, ⟨0, 4, 1, [⟨4, 0, [((5 : Int), 0)]⟩], [0]⟩,
          ⟨2, 1, 1, 1, fun _ => ⟨1, true, 0⟩, fun _ => [1], [(1, 0)], []⟩,
          [], 6, fun _ => 0, []⟩ : BPM) = some rs →
      rs.2.diskWrites = if ((⟨1, fun _ => ⟨5, 0, true, 77⟩,
            ⟨0, 4, 1, [⟨4, 0, [((5 : Int), 0)]⟩], [0]⟩,
            ⟨2, 1, 1, 1, fun _ => ⟨1, true, 0⟩, fun _ => [1], [(1, 0)], []⟩,
            [], 6, fun _ => 0, []⟩ : BPM).pages 0).isDirty
        then (⟨1, fun _ => ⟨5, 0, true, 77⟩, ⟨0, 4, 1, [⟨4, 0, [((5 : Int), 0)]⟩], [0]⟩,
            ⟨2, 1, 1, 1, fun _ => ⟨1, true, 0⟩, fun _ => [1], [(1, 0)], []⟩,
            [], 6, fun _ => 0, []⟩ : BPM).diskWrites ++
          [(((⟨1, fun _ => ⟨5, 0, true, 77⟩, ⟨0, 4, 1, [⟨4, 0, [((5 : Int), 0)]⟩], [0]⟩,
            ⟨2, 1, 1, 1, fun _ => ⟨1, true, 0⟩, fun _ => [1], [(1, 0)], []⟩,
            [], 6, fun _ => 0, []⟩ : BPM).pages 0).pageId,
            ((⟨1, fun _ => ⟨5, 0, true, 77⟩, ⟨0, 4, 1, [⟨4, 0, [((5 : Int), 0)]⟩], [0]⟩,
            ⟨2, 1, 1, 1, fun _ => ⟨1, true, 0⟩, fun _ => [1], [(1, 0)], []⟩,
            [], 6, fun _ => 0, []⟩ : BPM).pages 0).data)]
        else (⟨1, fun _ => ⟨5, 0, true, 77⟩, ⟨0, 4, 1, [⟨4, 0, [((5 : Int), 0)]⟩], [0]⟩,
            ⟨2, 1, 1, 1, fun _ => ⟨1, true, 0⟩, fun _ => [1], [(1, 0)], []⟩,
            [], 6, fun _ => 0, []⟩ : BPM).diskWrites) ∧
     (∀ pid rs, EHT.find Int.toNat
        (⟨1, fun _ => ⟨5, 0, true, 77⟩, ⟨0, 4, 1, [⟨4, 0, [((5 : Int), 0)]⟩], [0]⟩,
          ⟨2, 1, 1, 1, fun _ => ⟨1, true, 0⟩, fun _ => [1], [(1, 0)], []⟩,
          [], 6, fun _ => 0, []⟩ : BPM).pageTable pid = none →
      BPM.fetchPg Int.toNat 1 pid
        (⟨1, fun _ => ⟨5, 0, true, 77⟩, ⟨0, 4, 1, [⟨4, 0, [((5 : Int), 0)]⟩], [0]⟩,
          ⟨2, 1, 1, 1, fun _ => ⟨1, true, 0⟩, fun _ => [1], [(1, 0)], []⟩,
          [], 6, fun _ => 0, []⟩ : BPM) = some rs →
      rs.2.diskWrites = if ((⟨1, fun _ => ⟨5, 0, true, 77⟩,
            ⟨0, 4, 1, [⟨4, 0, [((5 : Int), 0)]⟩], [0]⟩,
            ⟨2, 1, 1, 1, fun _ => ⟨1, true, 0⟩, fun _ => [1], [(1, 0)], []⟩,
            [], 6, fun _ => 0, []⟩ : BPM).pages 0).isDirty
        then (⟨1, fun _ => ⟨5, 0, true, 77⟩, ⟨0, 4, 1, [⟨4, 0, [((5 : Int), 0)]⟩], [0]⟩,
            ⟨2, 1, 1, 1, fun _ => ⟨1, true, 0⟩, fun _ => [1], [(1, 0)], []⟩,
            [], 6, fun _ => 0, []⟩ : BPM).diskWrites ++
          [(((⟨1, fun _ => ⟨5, 0, true, 77⟩, ⟨0, 4, 1, [⟨4, 0, [((5 : Int), 0)]⟩], [0]⟩,
            ⟨2, 1, 1, 1, fun _ => ⟨1, true, 0⟩, fun _ => [1], [(1, 0)], []⟩,
            [], 6, fun _ => 0, []⟩ : BPM).pages 0).pageId,
            ((⟨1, fun _ => ⟨5, 0, true, 77⟩, ⟨0, 4, 1, [⟨4, 0, [((5 : Int), 0)]⟩], [0]⟩,
            ⟨2, 1, 1, 1, fun _ => ⟨1, true, 0⟩, fun _ => [1], [(1, 0)], []⟩,
            [], 6, fun _ => 0, []⟩ : BPM).pages 0).data)]
        else (⟨1, fun _ => ⟨5, 0, true, 77⟩, ⟨0, 4, 1, [⟨4, 0, [((5 : Int), 0)]⟩], [0]⟩,
            ⟨2, 1, 1, 1, fun _ => ⟨1, true, 0⟩, fun _ => [1], [(1, 0)], []⟩,
            [], 6, fun _ => 0, []⟩ : BPM).diskWrites)) :=
  ⟨rfl, ⟨_, rfl⟩,
    C2_dirty_writeback Int.toNat 1
      (⟨1, fun _ => ⟨5, 0, true, 77⟩, ⟨0, 4, 1, [⟨4, 0, [((5 : Int), 0)]⟩], [0]⟩,
        ⟨2, 1, 1, 1, fun _ => ⟨1, true, 0⟩, fun _ => [1], [(1, 0)], []⟩,
        [], 6, fun _ => 0, []⟩ : BPM) rfl ⟨_, rfl⟩⟩

/-- C10: when `FetchPgImp` hits the page table, the state change is
exactly: the hit frame's pin count is incremented, and the replacer runs
`RecordAccess` followed by `SetEvictable(frame, false)` on that frame —
unconditionally, so the frame ends non-evictable even if it had pin count
zero and was evictable — while the page table, free list, page ids, disk
and write trace are untouched; the hit frame itself is returned. -/
theorem C10_fetch_hit (hashP : Int → Nat) (fuel : Nat) (pid : Int) (s : BPM)
    {f : Nat} (hfind : EHT.find hashP s.pageTable pid = some f) :
    BPM.fetchPg hashP fuel pid s
      = (recordPin s.replacer f).map (fun rep1 =>
          (some f,
            { s with
              pages := updF s.pages f
                { s.pages f with pinCount := (s.pages f).pinCount + 1 }
              replacer := rep1 })) ∧
    (∀ rep1, recordPin s.replacer f = some rep1 →
      (rep1.frameMap f).evictable = false) := by
  constructor
  · unfold BPM.fetchPg
    simp only [hfind]
    rcases hrp : recordPin s.replacer f with _ | rep1 <;> simp [hrp]
  · intro rep1 hrp
    unfold recordPin at hrp
    rcases hra : s.replacer.RecordAccess f with _ | r1
    · rw [hra] at hrp
      exact Option.noConfusion hrp
    · rw [hra] at hrp
      rw [show (some r1).bind (fun r => r.SetEvictable f false)
        = r1.SetEvictable f false from rfl] at hrp
      rw [LRUK.SetEvictable] at hrp
      by_cases hlt : r1.replacerSize < f
      · rw [if_pos hlt] at hrp
        exact Option.noConfusion hrp
      · rw [if_neg hlt] at hrp
        cases Option.some.inj hrp
        show (updF r1.frameMap f _ f).evictable = false
        rw [updF_same]

theorem C10_fetch_hit_witness :
    (EHT.find Int.toNat
      ((⟨1, fun _ => ⟨0, 1, false, 0⟩, ⟨0, 4, 1, [⟨4, 0, [((0 : Int), 0)]⟩], [0]⟩,
        LRUK.init 1 2 true, [], 1, fun _ => 0, []⟩ : BPM)).pageTable 0 = some 0) ∧
    ((BPM.fetchPg Int.toNat 1 0
        (⟨1, fun _ => ⟨0, 1, false, 0⟩, ⟨0, 4, 1, [⟨4, 0, [((0 : Int), 0)]⟩], [0]⟩,
          LRUK.init 1 2 true, [], 1, fun _ => 0, []⟩ : BPM)
      = (recordPin (⟨1, fun _ => ⟨0, 1, false, 0⟩,
            ⟨0, 4, 1, [⟨4, 0, [((0 : Int), 0)]⟩], [0]⟩,
            LRUK.init 1 2 true, [], 1, fun _ => 0, []⟩ : BPM).replacer 0).map (fun rep1 =>
          (some 0,
            { (⟨1, fun _ => ⟨0, 1, false, 0⟩, ⟨0, 4, 1, [⟨4, 0, [((0 : Int), 0)]⟩], [0]⟩,
                LRUK.init 1 2 true, [], 1, fun _ => 0, []⟩ : BPM) with
              pages := updF (⟨1, fun _ => ⟨0, 1, false, 0⟩,
                  ⟨0, 4, 1, [⟨4, 0, [((0 : Int), 0)]⟩], [0]⟩,
                  LRUK.init 1 2 true, [], 1, fun _ => 0, []⟩ : BPM).pages 0
                { (⟨1, fun _ => ⟨0, 1, false, 0⟩,
                    ⟨0, 4, 1, [⟨4, 0, [((0 : Int), 0)]⟩], [0]⟩,
                    LRUK.init 1 2 true, [], 1, fun _ => 0, []⟩ : BPM).pages 0 with
                  pinCount := ((⟨1, fun _ => ⟨0, 1, false, 0⟩,
                    ⟨0, 4, 1, [⟨4, 0, [((0 : Int), 0)]⟩], [0]⟩,
                    LRUK.init 1 2 true, [], 1, fun _ => 0, []⟩ : BPM).pages 0).pinCount + 1 }
              replacer := rep1 }))) ∧
     (∀ rep1, recordPin (⟨1, fun _ => ⟨0, 1, false, 0⟩,
          ⟨0, 4, 1, [⟨4, 0, [((0 : Int), 0)]⟩], [0]⟩,
          LRUK.init 1 2 true, [], 1, fun _ => 0, []⟩ : BPM).replacer 0 = some rep1 →
        (rep1.frameMap 0).evictable = false)) :=
  ⟨rfl, C10_fetch_hit Int.toNat 1 0
    (⟨1, fun _ => ⟨0, 1, false, 0⟩, ⟨0, 4, 1, [⟨4, 0, [((0 : Int), 0)]⟩], [0]⟩,
      LRUK.init 1 2 true, [], 1, fun _ => 0, []⟩ : BPM) rfl⟩

/-! ## Pin safety: the evictable flags across replacer calls -/

theorem RecordAccess_flags {s s' : LRUK} {f : Nat} (h : s.RecordAccess f = some s') :
    ∀ g, (s'.frameMap g).evictable = (s.frameMap g).evictable := by
  unfold LRUK.RecordAccess at h
  by_cases hb : s.replacerSize < f
  · rw [if_pos hb] at h
    exact Option.noConfusion h
  · rw [if_neg hb] at h
    by_cases h1 : (s.frameMap f).count + 1 = 1
    · rw [if_pos h1] at h
      cases Option.some.inj h
      intro g
      by_cases hg : g = f <;> simp [updF, hg]
    · rw [if_neg h1] at h
      by_cases h2 : (s.frameMap f).count + 1 = s.k ∨ (s.frameMap f).count + 1 > s.k
      · rw [if_pos h2] at h
        cases Option.some.inj h
        intro g
        by_cases hg : g = f <;> simp [updF, hg]
      · rw [if_neg h2] at h
        cases Option.some.inj h
        intro g
        by_cases hg : g = f <;> simp [updF, hg]

theorem SetEvictable_flags {s s' : LRUK} {f : Nat} {b : Bool}
    (h : s.SetEvictable f b = some s') :
    (s'.frameMap f).evictable = b ∧
    ∀ g, g ≠ f → (s'.frameMap g).evictable = (s.frameMap g).evictable := by
  unfold LRUK.SetEvictable at h
  by_cases hb : s.replacerSize < f
  · rw [if_pos hb] at h
    exact Option.noConfusion h
  · rw [if_neg hb] at h
    cases Option.some.inj h
    constructor
    · simp [updF]
    · intro g hg
      simp [updF, hg]

theorem Evict_flags {s : LRUK} {v : Nat} {s' : LRUK} (h : s.Evict = some (v, s')) :
    (s.frameMap v).evictable = true ∧
    ∀ g, (s'.frameMap g).evictable = (s.frameMap g).evictable := by
  unfold LRUK.Evict at h
  rcases hfe : findEvictable s.frameMap s.histList.reverse with _ | e
  · simp only [hfe] at h
    rcases hfc : findEvictable s.frameMap s.cacheList with _ | e
    · simp only [hfc] at h
      exact Option.noConfusion h
    · simp only [hfc] at h
      cases Option.some.inj h
      refine ⟨(findEvictable_some hfc).2, ?_⟩
      intro g
      by_cases hg : g = e.2 <;> simp [updF, hg]
  · simp only [hfe] at h
    cases Option.some.inj h
    refine ⟨(findEvictable_some hfe).2, ?_⟩
    intro g
    by_cases hg : g = e.2 <;> simp [updF, hg]

theorem Remove_flags {s s' : LRUK} {f : Nat} (h : s.Remove f = some s') :
    ∀ g, (s'.frameMap g).evictable = (s.frameMap g).evictable := by
  unfold LRUK.Remove at h
  by_cases h0 : (s.frameMap f).count = 0
  · rw [if_pos h0] at h
    cases Option.some.inj h
    intro g
    rfl
  · rw [if_neg h0] at h
    by_cases he : ¬(s.frameMap f).evictable
    · rw [if_pos he] at h
      exact Option.noConfusion h
    · rw [if_neg he] at h
      cases Option.some.inj h
      intro g
      by_cases hg : g = f <;> simp [updF, hg]

theorem recordPin_flags {rep rep1 : LRUK} {f : Nat}
    (h : recordPin rep f = some rep1) :
    (rep1.frameMap f).evictable = false ∧
    ∀ g, g ≠ f → (rep1.frameMap g).evictable = (rep.frameMap g).evictable := by
  unfold recordPin at h
  rcases hra : rep.RecordAccess f with _ | r1
  · rw [hra] at h
    exact Option.noConfusion h
  · rw [hra] at h
    rw [show (some r1).bind (fun r => r.SetEvictable f false)
      = r1.SetEvictable f false from rfl] at h
    obtain ⟨h1, h2⟩ := SetEvictable_flags h
    exact ⟨h1, fun g hg => (h2 g hg).trans (RecordAccess_flags hra g)⟩

theorem find_init_none {K V : Type} [DecidableEq K] (hash : K → Nat) (bs : Nat) (k : K) :
    EHT.find hash (EHT.init bs : EHT K V) k = none := by
  have hd : ∀ i, dirAt (EHT.init bs : EHT K V) i = 0 := by
    intro i
    cases i with
    | zero => rfl
    | succ n => cases n <;> rfl
  show bucketFind (bucketAt (EHT.init bs : EHT K V)
    (dirAt (EHT.init bs : EHT K V) (indexOf hash (EHT.init bs) k))).list k = none
  rw [hd]
  rfl

/-- The buffer-pool invariant tying the page table, the free list, the
pin counts and the replacer's evictable flags together. -/
structure BInv (hashP : Int → Nat) (s : BPM) : Prop where
  einv : EInv hashP s.pageTable
  pin_evict : ∀ f, 0 < (s.pages f).pinCount → (s.replacer.frameMap f).evictable = false
  free_pin : ∀ f ∈ s.freeList, (s.pages f).pinCount = 0
  free_nodup : s.freeList.Nodup
  table_free : ∀ p fr, EHT.find hashP s.pageTable p = some fr → fr ∉ s.freeList
  table_pid : ∀ p fr, EHT.find hashP s.pageTable p = some fr → (s.pages fr).pageId = p

theorem BInv.initB (hashP : Int → Nat) (n k bs : Nat) (d : Bool) (np0 : Int)
    (disk0 : Int → Nat) : BInv hashP (BPM.init n k bs d np0 disk0) := by
  refine ⟨EInv.initE hashP bs, ?_, ?_, ?_, ?_, ?_⟩
  · intro f hf
    exact absurd hf (by simp [BPM.init])
  · intro f _
    rfl
  · exact List.nodup_range n
  · intro p fr hfind
    rw [show (BPM.init n k bs d np0 disk0).pageTable = EHT.init bs from rfl,
      find_init_none] at hfind
    exact Option.noConfusion hfind
  · intro p fr hfind
    rw [show (BPM.init n k bs d np0 disk0).pageTable = EHT.init bs from rfl,
      find_init_none] at hfind
    exact Option.noConfusion hfind

theorem BInv.tinj {hashP : Int → Nat} {s : BPM} (hI : BInv hashP s) {p q : Int} {fr : Nat}
    (hp : EHT.find hashP s.pageTable p = some fr)
    (hq : EHT.find hashP s.pageTable q = some fr) : p = q := by
  rw [← hI.table_pid p fr hp, ← hI.table_pid q fr hq]

theorem BInv.evict_pin {hashP : Int → Nat} {s : BPM} (hI : BInv hashP s) {v : Nat}
    {rep0 : LRUK} (h : s.replacer.Evict = some (v, rep0)) :
    (s.pages v).pinCount = 0 := by
  by_contra hne
  have hpos : 0 < (s.pages v).pinCount := Nat.pos_of_ne_zero hne
  have h1 := hI.pin_evict v hpos
  have h2 := (Evict_flags h).1
  rw [h1] at h2
  exact Bool.noConfusion h2

theorem newPg_pres {hashP : Int → Nat} {s : BPM} (hI : BInv hashP s) (fuel : Nat)
    {rs : Option (Int × Nat) × BPM} (h : BPM.newPg hashP fuel s = some rs) :
    BInv hashP rs.2 := by
  unfold BPM.newPg at h
  rcases hfl : s.freeList with _ | ⟨f, rest⟩
  · simp only [hfl] at h
    rcases hev : s.replacer.Evict with _ | vp
    · simp only [hev] at h
      cases Option.some.inj h
      exact hI
    · obtain ⟨f, rep0⟩ := vp
      simp only [hev] at h
      rcases hrp : recordPin rep0 f with _ | rep1
      · simp only [hrp] at h
        exact Option.noConfusion h
      · simp only [hrp] at h
        rcases hins : EHT.insert hashP fuel
            (EHT.remove hashP s.pageTable (s.pages f).pageId).2 s.nextPageId f
            with _ | pt1
        · simp only [hins] at h
          exact Option.noConfusion h
        · simp only [hins] at h
          cases Option.some.inj h
          obtain ⟨einv0, hFrm, -, -⟩ := remove_spec hashP hI.einv (s.pages f).pageId
          obtain ⟨einv1, hFins, -, -⟩ := insert_spec hashP einv0 fuel s.nextPageId f hins
          obtain ⟨hfl1, hflo⟩ := recordPin_flags hrp
          refine ⟨einv1, ?_, ?_, ?_, ?_, ?_⟩
          · intro g hg
            by_cases hgf : g = f
            · subst hgf
              exact hfl1
            · show (rep1.frameMap g).evictable = false
              rw [hflo g hgf, (Evict_flags hev).2 g]
              have hg2 : 0 < (updF s.pages f ⟨s.nextPageId, 1, false, 0⟩ g).pinCount := hg
              rw [updF_other _ _ _ hgf] at hg2
              exact hI.pin_evict g hg2
          · intro g hgmem
            exact absurd (show g ∈ ([] : List Nat) from hgmem) (List.not_mem_nil g)
          · show ([] : List Nat).Nodup
            exact List.nodup_nil
          · intro p fr _
            exact List.not_mem_nil fr
          · intro p fr hfind
            have hfind2 : EHT.find hashP pt1 p = some fr := hfind
            rw [hFins p] at hfind2
            show (updF s.pages f ⟨s.nextPageId, 1, false, 0⟩ fr).pageId = p
            by_cases hp : p = s.nextPageId
            · rw [if_pos hp] at hfind2
              have hfr : fr = f := (Option.some.inj hfind2).symm
              rw [hfr, updF_same, hp]
            · rw [if_neg hp] at hfind2
              rw [hFrm p] at hfind2
              by_cases hpv : p = (s.pages f).pageId
              · rw [if_pos hpv] at hfind2
                exact Option.noConfusion hfind2
              · rw [if_neg hpv] at hfind2
                have hfrf : fr ≠ f := by
                  intro hx
                  subst hx
                  exact hpv (hI.table_pid p fr hfind2).symm
                rw [updF_other _ _ _ hfrf]
                exact hI.table_pid p fr hfind2
  · simp only [hfl] at h
    rcases hrp : recordPin s.replacer f with _ | rep1
    · simp only [hrp] at h
      exact Option.noConfusion h
    · simp only [hrp] at h
      rcases hins : EHT.insert hashP fuel s.pageTable s.nextPageId f with _ | pt1
      · simp only [hins] at h
        exact Option.noConfusion h
      · simp only [hins] at h
        cases Option.some.inj h
        obtain ⟨einv1, hFins, -, -⟩ := insert_spec hashP hI.einv fuel s.nextPageId f hins
        obtain ⟨hfl1, hflo⟩ := recordPin_flags hrp
        have hnd : (f :: rest).Nodup := hfl ▸ hI.free_nodup
        have hfrest : f ∉ rest := (List.nodup_cons.mp hnd).1
        refine ⟨einv1, ?_, ?_, ?_, ?_, ?_⟩
        · intro g hg
          by_cases hgf : g = f
          · subst hgf
            exact hfl1
          · show (rep1.frameMap g).evictable = false
            rw [hflo g hgf]
            have hg2 : 0 < (updF s.pages f ⟨s.nextPageId, 1, false, 0⟩ g).pinCount := hg
            rw [updF_other _ _ _ hgf] at hg2
            exact hI.pin_evict g hg2
        · intro g hgmem
          have hgmem2 : g ∈ rest := hgmem
          have hgf : g ≠ f := fun hx => hfrest (hx ▸ hgmem2)
          show (updF s.pages f ⟨s.nextPageId, 1, false, 0⟩ g).pinCount = 0
          rw [updF_other _ _ _ hgf]
          exact hI.free_pin g (hfl ▸ List.mem_cons_of_mem f hgmem2)
        · show rest.Nodup
          exact (List.nodup_cons.mp hnd).2
        · intro p fr hfind
          have hfind2 : EHT.find hashP pt1 p = some fr := hfind
          rw [hFins p] at hfind2
          show fr ∉ rest
          by_cases hp : p = s.nextPageId
          · rw [if_pos hp] at hfind2
            have hfr : fr = f := (Option.some.inj hfind2).symm
            rw [hfr]
            exact hfrest
          · rw [if_neg hp] at hfind2
            intro hmem
            exact hI.table_free p fr hfind2 (hfl ▸ List.mem_cons_of_mem f hmem)
        · intro p fr hfind
          have hfind2 : EHT.find hashP pt1 p = some fr := hfind
          rw [hFins p] at hfind2
          show (updF s.pages f ⟨s.nextPageId, 1, false, 0⟩ fr).pageId = p
          by_cases hp : p = s.nextPageId
          · rw [if_pos hp] at hfind2
            have hfr : fr = f := (Option.some.inj hfind2).symm
            rw [hfr, updF_same, hp]
          · rw [if_neg hp] at hfind2
            have hfrf : fr ≠ f := by
              intro hx
              rw [hx] at hfind2
              exact hI.table_free p f hfind2 (hfl ▸ List.mem_cons_self f rest)
            rw [updF_other _ _ _ hfrf]
            exact hI.table_pid p fr hfind2

theorem fetchPg_pres {hashP : Int → Nat} {s : BPM} (hI : BInv hashP s) (fuel : Nat)
    (pid : Int) {rs : Option Nat × BPM} (h : BPM.fetchPg hashP fuel pid s = some rs) :
    BInv hashP rs.2 := by
  unfold BPM.fetchPg at h
  rcases hfd : EHT.find hashP s.pageTable pid with _ | f0
  · simp only [hfd] at h
    rcases hfl : s.freeList with _ | ⟨f, rest⟩
    · simp only [hfl] at h
      rcases hev : s.replacer.Evict with _ | vp
      · simp only [hev] at h
        cases Option.some.inj h
        exact hI
      · obtain ⟨f, rep0⟩ := vp
        simp only [hev] at h
        rcases hins : EHT.insert hashP fuel
            (EHT.remove hashP s.pageTable (s.pages f).pageId).2 pid f with _ | pt1
        · simp only [hins] at h
          exact Option.noConfusion h
        · simp only [hins] at h
          rcases hrp : recordPin rep0 f with _ | rep1
          · simp only [hrp] at h
            exact Option.noConfusion h
          · simp only [hrp] at h
            cases Option.some.inj h
            obtain ⟨einv0, hFrm, -, -⟩ := remove_spec hashP hI.einv (s.pages f).pageId
            obtain ⟨einv1, hFins, -, -⟩ := insert_spec hashP einv0 fuel pid f hins
            obtain ⟨hfl1, hflo⟩ := recordPin_flags hrp
            refine ⟨einv1, ?_, ?_, ?_, ?_, ?_⟩
            · intro g hg
              by_cases hgf : g = f
              · subst hgf
                exact hfl1
              · show (rep1.frameMap g).evictable = false
                rw [hflo g hgf, (Evict_flags hev).2 g]
                have hg2 : 0 < (updF s.pages f
                    ⟨pid, 1, false, (if (s.pages f).isDirty
                      then updI s.disk (s.pages f).pageId (s.pages f).data
                      else s.disk) pid⟩ g).pinCount := hg
                rw [updF_other _ _ _ hgf] at hg2
                exact hI.pin_evict g hg2
            · intro g hgmem
              exact absurd (show g ∈ ([] : List Nat) from hgmem) (List.not_mem_nil g)
            · show ([] : List Nat).Nodup
              exact List.nodup_nil
            · intro p fr _
              exact List.not_mem_nil fr
            · intro p fr hfind
              have hfind2 : EHT.find hashP pt1 p = some fr := hfind
              rw [hFins p] at hfind2
              show (updF s.pages f
                ⟨pid, 1, false, (if (s.pages f).isDirty
                  then updI s.disk (s.pages f).pageId (s.pages f).data
                  else s.disk) pid⟩ fr).pageId = p
              by_cases hp : p = pid
              · rw [if_pos hp] at hfind2
                have hfr : fr = f := (Option.some.inj hfind2).symm
                rw [hfr, updF_same, hp]
              · rw [if_neg hp] at hfind2
                rw [hFrm p] at hfind2
                by_cases hpv : p = (s.pages f).pageId
                · rw [if_pos hpv] at hfind2
                  exact Option.noConfusion hfind2
                · rw [if_neg hpv] at hfind2
                  have hfrf : fr ≠ f := by
                    intro hx
                    rw [hx] at hfind2
                    exact hpv (hI.table_pid p f hfind2).symm
                  rw [updF_other _ _ _ hfrf]
                  exact hI.table_pid p fr hfind2
    · simp only [hfl] at h
      rcases hins : EHT.insert hashP fuel s.pageTable pid f with _ | pt1
      · simp only [hins] at h
        exact Option.noConfusion h
      · simp only [hins] at h
        rcases hrp : recordPin s.replacer f with _ | rep1
        · simp only [hrp] at h
          exact Option.noConfusion h
        · simp only [hrp] at h
          cases Option.some.inj h
          obtain ⟨einv1, hFins, -, -⟩ := insert_spec hashP hI.einv fuel pid f hins
          obtain ⟨hfl1, hflo⟩ := recordPin_flags hrp
          have hnd : (f :: rest).Nodup := hfl ▸ hI.free_nodup
          have hfrest : f ∉ rest := (List.nodup_cons.mp hnd).1
          refine ⟨einv1, ?_, ?_, ?_, ?_, ?_⟩
          · intro g hg
            by_cases hgf : g = f
            · subst hgf
              exact hfl1
            · show (rep1.frameMap g).evictable = false
              rw [hflo g hgf]
              have hg2 : 0 < (updF s.pages f ⟨pid, 1, false, s.disk pid⟩ g).pinCount := hg
              rw [updF_other _ _ _ hgf] at hg2
              exact hI.pin_evict g hg2
          · intro g hgmem
            have hgmem2 : g ∈ rest := hgmem
            have hgf : g ≠ f := fun hx => hfrest (hx ▸ hgmem2)
            show (updF s.pages f ⟨pid, 1, false, s.disk pid⟩ g).pinCount = 0
            rw [updF_other _ _ _ hgf]
            exact hI.free_pin g (hfl ▸ List.mem_cons_of_mem f hgmem2)
          · show rest.Nodup
            exact (List.nodup_cons.mp hnd).2
          · intro p fr hfind
            have hfind2 : EHT.find hashP pt1 p = some fr := hfind
            rw [hFins p] at hfind2
            show fr ∉ rest
            by_cases hp : p = pid
            · rw [if_pos hp] at hfind2
              have hfr : fr = f := (Option.some.inj hfind2).symm
              rw [hfr]
              exact hfrest
            · rw [if_neg hp] at hfind2
              intro hmem
              exact hI.table_free p fr hfind2 (hfl ▸ List.mem_cons_of_mem f hmem)
          · intro p fr hfind
            have hfind2 : EHT.find hashP pt1 p = some fr := hfind
            rw [hFins p] at hfind2
            show (updF s.pages f ⟨pid, 1, false, s.disk pid⟩ fr).pageId = p
            by_cases hp : p = pid
            · rw [if_pos hp] at hfind2
              have hfr : fr = f := (Option.some.inj hfind2).symm
              rw [hfr, updF_same, hp]
            · rw [if_neg hp] at hfind2
              have hfrf : fr ≠ f := by
                intro hx
                rw [hx] at hfind2
                exact hI.table_free p f hfind2 (hfl ▸ List.mem_cons_self f rest)
              rw [updF_other _ _ _ hfrf]
              exact hI.table_pid p fr hfind2
  · simp only [hfd] at h
    rcases hrp : recordPin s.replacer f0 with _ | rep1
    · simp only [hrp] at h
      exact Option.noConfusion h
    · simp only [hrp] at h
      cases Option.some.inj h
      obtain ⟨hfl1, hflo⟩ := recordPin_flags hrp
      have hf0free : f0 ∉ s.freeList := hI.table_free pid f0 hfd
      refine ⟨hI.einv, ?_, ?_, ?_, ?_, ?_⟩
      · intro g hg
        by_cases hgf : g = f0
        · subst hgf
          exact hfl1
        · show (rep1.frameMap g).evictable = false
          rw [hflo g hgf]
          have hg2 : 0 < (updF s.pages f0
              { s.pages f0 with pinCount := (s.pages f0).pinCount + 1 } g).pinCount := hg
          rw [updF_other _ _ _ hgf] at hg2
          exact hI.pin_evict g hg2
      · intro g hgmem
        have hgmem2 : g ∈ s.freeList := hgmem
        have hgf : g ≠ f0 := fun hx => hf0free (hx ▸ hgmem2)
        show (updF s.pages f0
          { s.pages f0 with pinCount := (s.pages f0).pinCount + 1 } g).pinCount = 0
        rw [updF_other _ _ _ hgf]
        exact hI.free_pin g hgmem2
      · show s.freeList.Nodup
        exact hI.free_nodup
      · intro p fr hfind
        exact hI.table_free p fr hfind
      · intro p fr hfind
        have hfind2 : EHT.find hashP s.pageTable p = some fr := hfind
        show (updF s.pages f0
          { s.pages f0 with pinCount := (s.pages f0).pinCount + 1 } fr).pageId = p
        by_cases hfrf : fr = f0
        · rw [hfrf, updF_same]
          show (s.pages f0).pageId = p
          rw [← hfrf]
          exact hI.table_pid p fr hfind2
        · rw [updF_other _ _ _ hfrf]
          exact hI.table_pid p fr hfind2

theorem unpinPg_pres {hashP : Int → Nat} {s : BPM} (hI : BInv hashP s) (pid : Int)
    (dirty : Bool) {rs : Bool × BPM} (h : BPM.unpinPg hashP pid dirty s = some rs) :
    BInv hashP rs.2 := by
  unfold BPM.unpinPg at h
  rcases hfd : EHT.find hashP s.pageTable pid with _ | f0
  · simp only [hfd] at h
    cases Option.some.inj h
    exact hI
  · simp only [hfd] at h
    by_cases h0 : (s.pages f0).pinCount = 0
    · rw [if_pos h0] at h
      cases Option.some.inj h
      exact hI
    · rw [if_neg h0] at h
      rcases hse : (if (s.pages f0).pinCount - 1 = 0
          then s.replacer.SetEvictable f0 true else some s.replacer) with _ | rep1
      · simp only [hse] at h
        exact Option.noConfusion h
      · simp only [hse] at h
        cases Option.some.inj h
        have hf0free : f0 ∉ s.freeList := hI.table_free pid f0 hfd
        have hflags : ∀ g, g ≠ f0 →
            (rep1.frameMap g).evictable = (s.replacer.frameMap g).evictable := by
          intro g hg
          by_cases hz : (s.pages f0).pinCount - 1 = 0
          · rw [if_pos hz] at hse
            exact (SetEvictable_flags hse).2 g hg
          · rw [if_neg hz] at hse
            rw [← Option.some.inj hse]
        refine ⟨hI.einv, ?_, ?_, ?_, ?_, ?_⟩
        · intro g hg
          by_cases hgf : g = f0
          · subst hgf
            have hg2 : 0 < (updF s.pages g
                { s.pages g with
                  pinCount := (s.pages g).pinCount - 1
                  isDirty := if dirty then true else (s.pages g).isDirty } g).pinCount := hg
            rw [updF_same] at hg2
            have hz : ¬((s.pages g).pinCount - 1 = 0) := by
              intro hx
              rw [show ({ s.pages g with
                pinCount := (s.pages g).pinCount - 1
                isDirty := if dirty then true else (s.pages g).isDirty }
                  : Page).pinCount = (s.pages g).pinCount - 1 from rfl, hx] at hg2
              exact Nat.lt_irrefl 0 hg2
            rw [if_neg hz] at hse
            show (rep1.frameMap g).evictable = false
            rw [← Option.some.inj hse]
            exact hI.pin_evict g (Nat.pos_of_ne_zero h0)
          · show (rep1.frameMap g).evictable = false
            rw [hflags g hgf]
            have hg2 : 0 < (updF s.pages f0
                { s.pages f0 with
                  pinCount := (s.pages f0).pinCount - 1
                  isDirty := if dirty then true else (s.pages f0).isDirty } g).pinCount := hg
            rw [updF_other _ _ _ hgf] at hg2
            exact hI.pin_evict g hg2
        · intro g hgmem
          have hgmem2 : g ∈ s.freeList := hgmem
          have hgf : g ≠ f0 := fun hx => hf0free (hx ▸ hgmem2)
          show (updF s.pages f0
            { s.pages f0 with
              pinCount := (s.pages f0).pinCount - 1
              isDirty := if dirty then true else (s.pages f0).isDirty } g).pinCount = 0
          rw [updF_other _ _ _ hgf]
          exact hI.free_pin g hgmem2
        · show s.freeList.Nodup
          exact hI.free_nodup
        · intro p fr hfind
          exact hI.table_free p fr hfind
        · intro p fr hfind
          have hfind2 : EHT.find hashP s.pageTable p = some fr := hfind
          show (updF s.pages f0
            { s.pages f0 with
              pinCount := (s.pages f0).pinCount - 1
              isDirty := if dirty then true else (s.pages f0).isDirty } fr).pageId = p
          by_cases hfrf : fr = f0
          · rw [hfrf, updF_same]
            show (s.pages f0).pageId = p
            rw [← hfrf]
            exact hI.table_pid p fr hfind2
          · rw [updF_other _ _ _ hfrf]
            exact hI.table_pid p fr hfind2

theorem flushPg_pres {hashP : Int → Nat} {s : BPM} (hI : BInv hashP s) (pid : Int)
    {rs : Bool × BPM} (h : BPM.flushPg hashP pid s = rs) :
    BInv hashP rs.2 := by
  unfold BPM.flushPg at h
  rcases hfd : EHT.find hashP s.pageTable pid with _ | f0
  · simp only [hfd] at h
    rw [← h]
    exact hI
  · simp only [hfd] at h
    by_cases hinv : pid = -1
    · rw [if_pos hinv] at h
      rw [← h]
      exact hI
    · rw [if_neg hinv] at h
      rw [← h]
      refine ⟨hI.einv, ?_, ?_, hI.free_nodup, hI.table_free, ?_⟩
      · intro g hg
        by_cases hgf : g = f0
        · subst hgf
          have hg2 : 0 < (updF s.pages g
              { s.pages g with isDirty := false } g).pinCount := hg
          rw [updF_same] at hg2
          exact hI.pin_evict g hg2
        · have hg2 : 0 < (updF s.pages f0
              { s.pages f0 with isDirty := false } g).pinCount := hg
          rw [updF_other _ _ _ hgf] at hg2
          exact hI.pin_evict g hg2
      · intro g hgmem
        have hgmem2 : g ∈ s.freeList := hgmem
        show (updF s.pages f0 { s.pages f0 with isDirty := false } g).pinCount = 0
        by_cases hgf : g = f0
        · rw [hgf, updF_same]
          show (s.pages f0).pinCount = 0
          rw [← hgf]
          exact hI.free_pin g hgmem2
        · rw [updF_other _ _ _ hgf]
          exact hI.free_pin g hgmem2
      · intro p fr hfind
        have hfind2 : EHT.find hashP s.pageTable p = some fr := hfind
        show (updF s.pages f0 { s.pages f0 with isDirty := false } fr).pageId = p
        by_cases hfrf : fr = f0
        · rw [hfrf, updF_same]
          show (s.pages f0).pageId = p
          rw [← hfrf]
          exact hI.table_pid p fr hfind2
        · rw [updF_other _ _ _ hfrf]
          exact hI.table_pid p fr hfind2

theorem flushFrame_pres {hashP : Int → Nat} {s : BPM} (hI : BInv hashP s) (g0 : Nat) :
    BInv hashP (flushFrame s g0) := by
  unfold flushFrame
  by_cases hc : (s.pages g0).pageId ≠ -1
  · rw [if_pos hc]
    refine ⟨hI.einv, ?_, ?_, hI.free_nodup, hI.table_free, ?_⟩
    · intro g hg
      by_cases hgf : g = g0
      · subst hgf
        have hg2 : 0 < (updF s.pages g
            { s.pages g with isDirty := false } g).pinCount := hg
        rw [updF_same] at hg2
        exact hI.pin_evict g hg2
      · have hg2 : 0 < (updF s.pages g0
            { s.pages g0 with isDirty := false } g).pinCount := hg
        rw [updF_other _ _ _ hgf] at hg2
        exact hI.pin_evict g hg2
    · intro g hgmem
      have hgmem2 : g ∈ s.freeList := hgmem
      show (updF s.pages g0 { s.pages g0 with isDirty := false } g).pinCount = 0
      by_cases hgf : g = g0
      · rw [hgf, updF_same]
        show (s.pages g0).pinCount = 0
        rw [← hgf]
        exact hI.free_pin g hgmem2
      · rw [updF_other _ _ _ hgf]
        exact hI.free_pin g hgmem2
    · intro p fr hfind
      have hfind2 : EHT.find hashP s.pageTable p = some fr := hfind
      show (updF s.pages g0 { s.pages g0 with isDirty := false } fr).pageId = p
      by_cases hfrf : fr = g0
      · rw [hfrf, updF_same]
        show (s.pages g0).pageId = p
        rw [← hfrf]
        exact hI.table_pid p fr hfind2
      · rw [updF_other _ _ _ hfrf]
        exact hI.table_pid p fr hfind2
  · rw [if_neg hc]
    exact hI

theorem flushFold_pres {hashP : Int → Nat} :
    ∀ (l : List Nat) {s : BPM}, BInv hashP s → BInv hashP (l.foldl flushFrame s)
  | [], _, hI => hI
  | g :: l, s, hI => by
      rw [List.foldl_cons]
      exact flushFold_pres l (flushFrame_pres hI g)

theorem flushAll_pres {hashP : Int → Nat} {s : BPM} (hI : BInv hashP s) :
    BInv hashP (BPM.flushAll s) :=
  flushFold_pres _ hI

theorem deletePg_pres {hashP : Int → Nat} {s : BPM} (hI : BInv hashP s) (pid : Int)
    {rs : Bool × BPM} (h : BPM.deletePg hashP pid s = some rs) :
    BInv hashP rs.2 := by
  unfold BPM.deletePg at h
  rcases hfd : EHT.find hashP s.pageTable pid with _ | f0
  · simp only [hfd] at h
    cases Option.some.inj h
    exact hI
  · simp only [hfd] at h
    by_cases h0 : 0 < (s.pages f0).pinCount
    · rw [if_pos h0] at h
      cases Option.some.inj h
      exact hI
    · rw [if_neg h0] at h
      rcases hse : s.replacer.SetEvictable f0 true with _ | rep1
      · simp only [hse] at h
        exact Option.noConfusion h
      · simp only [hse] at h
        rcases hrm : rep1.Remove f0 with _ | rep2
        · simp only [hrm] at h
          exact Option.noConfusion h
        · simp only [hrm] at h
          cases Option.some.inj h
          obtain ⟨einv0, hFrm, -, -⟩ := remove_spec hashP hI.einv pid
          have hf0free : f0 ∉ s.freeList := hI.table_free pid f0 hfd
          have hpin0 : (s.pages f0).pinCount = 0 := Nat.eq_zero_of_not_pos h0
          refine ⟨einv0, ?_, ?_, ?_, ?_, ?_⟩
          · intro g hg
            by_cases hgf : g = f0
            · subst hgf
              have hg2 : 0 < (updF s.pages g
                  { s.pages g with isDirty := false, data := 0 } g).pinCount := hg
              rw [updF_same] at hg2
              rw [show ({ s.pages g with isDirty := false, data := 0 } : Page).pinCount
                = (s.pages g).pinCount from rfl, hpin0] at hg2
              exact absurd hg2 (Nat.lt_irrefl 0)
            · show (rep2.frameMap g).evictable = false
              rw [Remove_flags hrm g, (SetEvictable_flags hse).2 g hgf]
              have hg2 : 0 < (updF s.pages f0
                  { s.pages f0 with isDirty := false, data := 0 } g).pinCount := hg
              rw [updF_other _ _ _ hgf] at hg2
              exact hI.pin_evict g hg2
          · intro g hgmem
            have hgmem2 : g ∈ s.freeList ++ [f0] := hgmem
            show (updF s.pages f0
              { s.pages f0 with isDirty := false, data := 0 } g).pinCount = 0
            rcases List.mem_append.mp hgmem2 with hold | hnew
            · have hgf : g ≠ f0 := fun hx => hf0free (hx ▸ hold)
              rw [updF_other _ _ _ hgf]
              exact hI.free_pin g hold
            · rw [List.mem_singleton.mp hnew, updF_same]
              exact hpin0
          · show (s.freeList ++ [f0]).Nodup
            refine List.Nodup.append hI.free_nodup (by simp) ?_
            intro a ha hb
            rw [List.mem_singleton.mp hb] at ha
            exact hf0free ha
          · intro p fr hfind
            have hfind2 : EHT.find hashP (EHT.remove hashP s.pageTable pid).2 p
              = some fr := hfind
            rw [hFrm p] at hfind2
            by_cases hp : p = pid
            · rw [if_pos hp] at hfind2
              exact Option.noConfusion hfind2
            · rw [if_neg hp] at hfind2
              have hfrf : fr ≠ f0 := by
                intro hx
                rw [hx] at hfind2
                exact hp (hI.tinj hfind2 hfd)
              show fr ∉ s.freeList ++ [f0]
              intro hmem
              rcases List.mem_append.mp hmem with hold | hnew
              · exact hI.table_free p fr hfind2 hold
              · exact hfrf (List.mem_singleton.mp hnew)
          · intro p fr hfind
            have hfind2 : EHT.find hashP (EHT.remove hashP s.pageTable pid).2 p
              = some fr := hfind
            rw [hFrm p] at hfind2
            by_cases hp : p = pid
            · rw [if_pos hp] at hfind2
              exact Option.noConfusion hfind2
            · rw [if_neg hp] at hfind2
              have hfrf : fr ≠ f0 := by
                intro hx
                rw [hx] at hfind2
                exact hp (hI.tinj hfind2 hfd)
              show (updF s.pages f0
                { s.pages f0 with isDirty := false, data := 0 } fr).pageId = p
              rw [updF_other _ _ _ hfrf]
              exact hI.table_pid p fr hfind2

theorem applyB_pres {hashP : Int → Nat} {s s' : BPM} (hI : BInv hashP s) (op : BOp)
    (h : applyB hashP s op = some s') : BInv hashP s' := by
  cases op with
  | newOp fuel =>
      simp only [applyB] at h
      rcases hx : BPM.newPg hashP fuel s with _ | rs
      · rw [hx] at h
        exact Option.noConfusion h
      · rw [hx] at h
        have h2 : some rs.2 = some s' := h
        rw [← Option.some.inj h2]
        exact newPg_pres hI fuel hx
  | fetchOp pid fuel =>
      simp only [applyB] at h
      rcases hx : BPM.fetchPg hashP fuel pid s with _ | rs
      · rw [hx] at h
        exact Option.noConfusion h
      · rw [hx] at h
        have h2 : some rs.2 = some s' := h
        rw [← Option.some.inj h2]
        exact fetchPg_pres hI fuel pid hx
  | unpinOp pid dirty =>
      simp only [applyB] at h
      rcases hx : BPM.unpinPg hashP pid dirty s with _ | rs
      · rw [hx] at h
        exact Option.noConfusion h
      · rw [hx] at h
        have h2 : some rs.2 = some s' := h
        rw [← Option.some.inj h2]
        exact unpinPg_pres hI pid dirty hx
  | flushOp pid =>
      simp only [applyB] at h
      have h2 : some (BPM.flushPg hashP pid s).2 = some s' := h
      rw [← Option.some.inj h2]
      exact flushPg_pres hI pid rfl
  | flushAllOp =>
      simp only [applyB] at h
      have h2 : some (BPM.flushAll s) = some s' := h
      rw [← Option.some.inj h2]
      exact flushAll_pres hI
  | deleteOp pid =>
      simp only [applyB] at h
      rcases hx : BPM.deletePg hashP pid s with _ | rs
      · rw [hx] at h
        exact Option.noConfusion h
      · rw [hx] at h
        have h2 : some rs.2 = some s' := h
        rw [← Option.some.inj h2]
        exact deletePg_pres hI pid hx

theorem runBfold_none {hashP : Int → Nat} : ∀ ops : List BOp,
    ops.foldl (fun acc op => acc.bind (fun t => applyB hashP t op)) none = none
  | [] => rfl
  | _ :: ops => runBfold_none ops

theorem runBAux_inv {hashP : Int → Nat} :
    ∀ (ops : List BOp) {s0 : BPM}, BInv hashP s0 → ∀ {s : BPM},
      ops.foldl (fun acc op => acc.bind (fun t => applyB hashP t op)) (some s0) = some s →
      BInv hashP s
  | [], s0, hI, s, h => by
      cases Option.some.inj h
      exact hI
  | op :: ops, s0, hI, s, h => by
      rw [List.foldl_cons] at h
      rw [show (some s0).bind (fun t => applyB hashP t op) = applyB hashP s0 op from rfl] at h
      rcases hap : applyB hashP s0 op with _ | s1
      · rw [hap, runBfold_none] at h
        exact Option.noConfusion h
      · rw [hap] at h
        exact runBAux_inv ops (applyB_pres hI op hap) h

theorem runB_inv {hashP : Int → Nat} {n k bs : Nat} {d : Bool} {np0 : Int}
    {disk0 : Int → Nat} {ops : List BOp} {s : BPM}
    (h : runB hashP n k bs d np0 disk0 ops = some s) : BInv hashP s :=
  runBAux_inv ops (BInv.initB hashP n k bs d np0 disk0) h

theorem flushFrame_page (s : BPM) (g0 f : Nat) :
    ((flushFrame s g0).pages f).pageId = (s.pages f).pageId ∧
    ((flushFrame s g0).pages f).pinCount = (s.pages f).pinCount := by
  unfold flushFrame
  by_cases hc : (s.pages g0).pageId ≠ -1
  · rw [if_pos hc]
    by_cases hgf : f = g0
    · subst hgf
      show (updF s.pages f { s.pages f with isDirty := false } f).pageId
          = (s.pages f).pageId ∧
        (updF s.pages f { s.pages f with isDirty := false } f).pinCount
          = (s.pages f).pinCount
      rw [updF_same]
      exact ⟨rfl, rfl⟩
    · show (updF s.pages g0 { s.pages g0 with isDirty := false } f).pageId
          = (s.pages f).pageId ∧
        (updF s.pages g0 { s.pages g0 with isDirty := false } f).pinCount
          = (s.pages f).pinCount
      rw [updF_other _ _ _ hgf]
      exact ⟨rfl, rfl⟩
  · rw [if_neg hc]
    exact ⟨rfl, rfl⟩

theorem flushFold_page (f : Nat) : ∀ (l : List Nat) (s : BPM),
    ((l.foldl flushFrame s).pages f).pageId = (s.pages f).pageId ∧
    ((l.foldl flushFrame s).pages f).pinCount = (s.pages f).pinCount
  | [], s => ⟨rfl, rfl⟩
  | g :: l, s => by
      rw [List.foldl_cons]
      obtain ⟨h1, h2⟩ := flushFold_page f l (flushFrame s g)
      obtain ⟨h3, h4⟩ := flushFrame_page s g f
      exact ⟨h1.trans h3, h2.trans h4⟩

/-- The pin-safety guarantees C1 asserts of one state and one frame `f`
holding a pinned page: the replacer never names `f` as the eviction
victim; `NewPgImp` never hands out `f` and leaves its page id, pin count
and non-free status intact; `FetchPgImp` leaves its page id intact, can
only raise its pin count, and on a directory miss never hands out `f`;
`UnpinPgImp` can lower its pin count only when called with `f`'s own page
id; `DeletePgImp` never touches it; flushing changes no page id or pin
count; and `f` never enters the free list. -/
def PinSafe (hashP : Int → Nat) (s : BPM) (f : Nat) : Prop :=
  (∀ v rep1, s.replacer.Evict = some (v, rep1) → v ≠ f) ∧
  (∀ fuel rs, BPM.newPg hashP fuel s = some rs →
    (∀ pid v, rs.1 = some (pid, v) → v ≠ f) ∧
    (rs.2.pages f).pageId = (s.pages f).pageId ∧
    (rs.2.pages f).pinCount = (s.pages f).pinCount ∧
    f ∉ rs.2.freeList) ∧
  (∀ fuel pid rs, BPM.fetchPg hashP fuel pid s = some rs →
    (rs.2.pages f).pageId = (s.pages f).pageId ∧
    (s.pages f).pinCount ≤ (rs.2.pages f).pinCount ∧
    (EHT.find hashP s.pageTable pid = none → ∀ v, rs.1 = some v → v ≠ f) ∧
    f ∉ rs.2.freeList) ∧
  (∀ pid dirty rs, BPM.unpinPg hashP pid dirty s = some rs →
    (rs.2.pages f).pageId = (s.pages f).pageId ∧
    f ∉ rs.2.freeList ∧
    ((rs.2.pages f).pinCount < (s.pages f).pinCount → pid = (s.pages f).pageId)) ∧
  (∀ pid rs, BPM.deletePg hashP pid s = some rs →
    (rs.2.pages f).pageId = (s.pages f).pageId ∧
    (rs.2.pages f).pinCount = (s.pages f).pinCount ∧
    f ∉ rs.2.freeList) ∧
  (∀ pid, ((BPM.flushPg hashP pid s).2.pages f).pageId = (s.pages f).pageId ∧
    ((BPM.flushPg hashP pid s).2.pages f).pinCount = (s.pages f).pinCount) ∧
  (((BPM.flushAll s).pages f).pageId = (s.pages f).pageId ∧
    ((BPM.flushAll s).pages f).pinCount = (s.pages f).pinCount)

/-- C1: in every reachable buffer-pool state, a frame whose resident page
has a positive pin count is never named as the eviction victim by the
replacer, is never handed out or reset by `NewPgImp` or `FetchPgImp`,
never enters the free list, keeps its page id across every operation, is
never touched by `DeletePgImp`, and its pin count can drop only through
an `UnpinPgImp` carrying that page's own id. -/
theorem C1_pin_safety (hashP : Int → Nat) (n k bs : Nat) (d : Bool) (np0 : Int)
    (disk0 : Int → Nat) (ops : List BOp) {s : BPM}
    (hrun : runB hashP n k bs d np0 disk0 ops = some s)
    (f : Nat) (hpin : 0 < (s.pages f).pinCount) :
    PinSafe hashP s f := by
  have hI := runB_inv hrun
  have hflag : (s.replacer.frameMap f).evictable = false := hI.pin_evict f hpin
  have hvne : ∀ v rep1, s.replacer.Evict = some (v, rep1) → v ≠ f := by
    intro v rep1 hev hvf
    subst hvf
    have h2 := (Evict_flags hev).1
    rw [hflag] at h2
    exact Bool.noConfusion h2
  have hfNotFree : f ∉ s.freeList := by
    intro hmem
    rw [hI.free_pin f hmem] at hpin
    exact Nat.lt_irrefl 0 hpin
  refine ⟨hvne, ?_, ?_, ?_, ?_, ?_, ?_⟩
  · intro fuel rs h
    unfold BPM.newPg at h
    rcases hfl : s.freeList with _ | ⟨f1, rest⟩
    · simp only [hfl] at h
      rcases hev : s.replacer.Evict with _ | vp
      · simp only [hev] at h
        cases Option.some.inj h
        exact ⟨fun pid v hv => Option.noConfusion hv, rfl, rfl, hfNotFree⟩
      · obtain ⟨v, rep0⟩ := vp
        simp only [hev] at h
        have hvnef : v ≠ f := hvne v rep0 hev
        rcases hrp : recordPin rep0 v with _ | rep1
        · simp only [hrp] at h
          exact Option.noConfusion h
        · simp only [hrp] at h
          rcases hins : EHT.insert hashP fuel
              (EHT.remove hashP s.pageTable (s.pages v).pageId).2 s.nextPageId v
              with _ | pt1
          · simp only [hins] at h
            exact Option.noConfusion h
          · simp only [hins] at h
            cases Option.some.inj h
            refine ⟨?_, ?_, ?_, ?_⟩
            · intro pid v' hv
              have h2 : v = v' := (Prod.ext_iff.mp (Option.some.inj hv)).2
              rw [← h2]
              exact hvnef
            · show (updF s.pages v ⟨s.nextPageId, 1, false, 0⟩ f).pageId
                = (s.pages f).pageId
              rw [updF_other _ _ _ (Ne.symm hvnef)]
            · show (updF s.pages v ⟨s.nextPageId, 1, false, 0⟩ f).pinCount
                = (s.pages f).pinCount
              rw [updF_other _ _ _ (Ne.symm hvnef)]
            · exact List.not_mem_nil f
    · simp only [hfl] at h
      have hf1 : f1 ≠ f := by
        intro hx
        have hz := hI.free_pin f1 (hfl ▸ List.mem_cons_self f1 rest)
        rw [hx] at hz
        rw [hz] at hpin
        exact Nat.lt_irrefl 0 hpin
      rcases hrp : recordPin s.replacer f1 with _ | rep1
      · simp only [hrp] at h
        exact Option.noConfusion h
      · simp only [hrp] at h
        rcases hins : EHT.insert hashP fuel s.pageTable s.nextPageId f1 with _ | pt1
        · simp only [hins] at h
          exact Option.noConfusion h
        · simp only [hins] at h
          cases Option.some.inj h
          refine ⟨?_, ?_, ?_, ?_⟩
          · intro pid v' hv
            have h2 : f1 = v' := (Prod.ext_iff.mp (Option.some.inj hv)).2
            rw [← h2]
            exact hf1
          · show (updF s.pages f1 ⟨s.nextPageId, 1, false, 0⟩ f).pageId
              = (s.pages f).pageId
            rw [updF_other _ _ _ (Ne.symm hf1)]
          · show (updF s.pages f1 ⟨s.nextPageId, 1, false, 0⟩ f).pinCount
              = (s.pages f).pinCount
            rw [updF_other _ _ _ (Ne.symm hf1)]
          · show f ∉ rest
            intro hm
            exact hfNotFree (hfl ▸ List.mem_cons_of_mem f1 hm)
  · intro fuel pid rs h
    unfold BPM.fetchPg at h
    rcases hfd : EHT.find hashP s.pageTable pid with _ | f0
    · simp only [hfd] at h
      rcases hfl : s.freeList with _ | ⟨f1, rest⟩
      · simp only [hfl] at h
        rcases hev : s.replacer.Evict with _ | vp
        · simp only [hev] at h
          cases Option.some.inj h
          exact ⟨rfl, Nat.le_refl _, fun _ v hv => Option.noConfusion hv, hfNotFree⟩
        · obtain ⟨v, rep0⟩ := vp
          simp only [hev] at h
          have hvnef : v ≠ f := hvne v rep0 hev
          rcases hins : EHT.insert hashP fuel
              (EHT.remove hashP s.pageTable (s.pages v).pageId).2 pid v with _ | pt1
          · simp only [hins] at h
            exact Option.noConfusion h
          · simp only [hins] at h
            rcases hrp : recordPin rep0 v with _ | rep1
            · simp only [hrp] at h
              exact Option.noConfusion h
            · simp only [hrp] at h
              cases Option.some.inj h
              refine ⟨?_, ?_, ?_, ?_⟩
              · show (updF s.pages v ⟨pid, 1, false,
                    (if (s.pages v).isDirty
                      then updI s.disk (s.pages v).pageId (s.pages v).data
                      else s.disk) pid⟩ f).pageId = (s.pages f).pageId
                rw [updF_other _ _ _ (Ne.symm hvnef)]
              · show (s.pages f).pinCount ≤ (updF s.pages v ⟨pid, 1, false,
                    (if (s.pages v).isDirty
                      then updI s.disk (s.pages v).pageId (s.pages v).data
                      else s.disk) pid⟩ f).pinCount
                rw [updF_other _ _ _ (Ne.symm hvnef)]
              · intro _ v' hv
                have h2 := Option.some.inj hv
                rw [← h2]
                exact hvnef
              · exact List.not_mem_nil f
      · simp only [hfl] at h
        have hf1 : f1 ≠ f := by
          intro hx
          have hz := hI.free_pin f1 (hfl ▸ List.mem_cons_self f1 rest)
          rw [hx] at hz
          rw [hz] at hpin
          exact Nat.lt_irrefl 0 hpin
        rcases hins : EHT.insert hashP fuel s.pageTable pid f1 with _ | pt1
        · simp only [hins] at h
          exact Option.noConfusion h
        · simp only [hins] at h
          rcases hrp : recordPin s.replacer f1 with _ | rep1
          · simp only [hrp] at h
            exact Option.noConfusion h
          · simp only [hrp] at h
            cases Option.some.inj h
            refine ⟨?_, ?_, ?_, ?_⟩
            · show (updF s.pages f1 ⟨pid, 1, false, s.disk pid⟩ f).pageId
                = (s.pages f).pageId
              rw [updF_other _ _ _ (Ne.symm hf1)]
            · show (s.pages f).pinCount
                ≤ (updF s.pages f1 ⟨pid, 1, false, s.disk pid⟩ f).pinCount
              rw [updF_other _ _ _ (Ne.symm hf1)]
            · intro _ v' hv
              have h2 := Option.some.inj hv
              rw [← h2]
              exact hf1
            · show f ∉ rest
              intro hm
              exact hfNotFree (hfl ▸ List.mem_cons_of_mem f1 hm)
    · simp only [hfd] at h
      rcases hrp : recordPin s.replacer f0 with _ | rep1
      · simp only [hrp] at h
        exact Option.noConfusion h
      · simp only [hrp] at h
        cases Option.some.inj h
        refine ⟨?_, ?_, ?_, ?_⟩
        · show (updF s.pages f0
            { s.pages f0 with pinCount := (s.pages f0).pinCount + 1 } f).pageId
            = (s.pages f).pageId
          by_cases hf0f : f = f0
          · rw [hf0f, updF_same]
          · rw [updF_other _ _ _ hf0f]
        · show (s.pages f).pinCount ≤ (updF s.pages f0
            { s.pages f0 with pinCount := (s.pages f0).pinCount + 1 } f).pinCount
          by_cases hf0f : f = f0
          · rw [hf0f, updF_same]
            exact Nat.le_succ _
          · rw [updF_other _ _ _ hf0f]
        · intro hnone
          exact Option.noConfusion hnone
        · exact hfNotFree
  · intro pid dirty rs h
    unfold BPM.unpinPg at h
    rcases hfd : EHT.find hashP s.pageTable pid with _ | f0
    · simp only [hfd] at h
      cases Option.some.inj h
      exact ⟨rfl, hfNotFree, fun hlt => absurd hlt (Nat.lt_irrefl _)⟩
    · simp only [hfd] at h
      by_cases h0 : (s.pages f0).pinCount = 0
      · rw [if_pos h0] at h
        cases Option.some.inj h
        exact ⟨rfl, hfNotFree, fun hlt => absurd hlt (Nat.lt_irrefl _)⟩
      · rw [if_neg h0] at h
        rcases hse : (if (s.pages f0).pinCount - 1 = 0
            then s.replacer.SetEvictable f0 true else some s.replacer) with _ | rep1
        · simp only [hse] at h
          exact Option.noConfusion h
        · simp only [hse] at h
          cases Option.some.inj h
          refine ⟨?_, hfNotFree, ?_⟩
          · show (updF s.pages f0
              { s.pages f0 with
                pinCount := (s.pages f0).pinCount - 1
                isDirty := if dirty then true else (s.pages f0).isDirty } f).pageId
              = (s.pages f).pageId
            by_cases hf0f : f = f0
            · rw [hf0f, updF_same]
            · rw [updF_other _ _ _ hf0f]
          · intro hlt
            by_cases hf0f : f = f0
            · rw [hf0f]
              exact (hI.table_pid pid f0 hfd).symm
            · have hz : (updF s.pages f0
                  { s.pages f0 with
                    pinCount := (s.pages f0).pinCount - 1
                    isDirty := if dirty then true else (s.pages f0).isDirty } f).pinCount
                  = (s.pages f).pinCount := by
                rw [updF_other _ _ _ hf0f]
              rw [show ((updF s.pages f0
                  { s.pages f0 with
                    pinCount := (s.pages f0).pinCount - 1
                    isDirty := if dirty then true else (s.pages f0).isDirty } f).pinCount
                    < (s.pages f).pinCount) = ((s.pages f).pinCount
                    < (s.pages f).pinCount) by rw [hz]] at hlt
              exact absurd hlt (Nat.lt_irrefl _)
  · intro pid rs h
    unfold BPM.deletePg at h
    rcases hfd : EHT.find hashP s.pageTable pid with _ | f0
    · simp only [hfd] at h
      cases Option.some.inj h
      exact ⟨rfl, rfl, hfNotFree⟩
    · simp only [hfd] at h
      by_cases h0 : 0 < (s.pages f0).pinCount
      · rw [if_pos h0] at h
        cases Option.some.inj h
        exact ⟨rfl, rfl, hfNotFree⟩
      · rw [if_neg h0] at h
        rcases hse : s.replacer.SetEvictable f0 true with _ | rep1
        · simp only [hse] at h
          exact Option.noConfusion h
        · simp only [hse] at h
          rcases hrm : rep1.Remove f0 with _ | rep2
          · simp only [hrm] at h
            exact Option.noConfusion h
          · simp only [hrm] at h
            cases Option.some.inj h
            have hf0f : f ≠ f0 := by
              intro hx
              rw [← hx] at h0
              exact h0 hpin
            refine ⟨?_, ?_, ?_⟩
            · show (updF s.pages f0
                { s.pages f0 with isDirty := false, data := 0 } f).pageId
                = (s.pages f).pageId
              rw [updF_other _ _ _ hf0f]
            · show (updF s.pages f0
                { s.pages f0 with isDirty := false, data := 0 } f).pinCount
                = (s.pages f).pinCount
              rw [updF_other _ _ _ hf0f]
            · show f ∉ s.freeList ++ [f0]
              intro hm
              rcases List.mem_append.mp hm with hold | hnew
              · exact hfNotFree hold
              · exact hf0f (List.mem_singleton.mp hnew)
  · intro pid
    have hchar : ∀ x, BPM.flushPg hashP pid s = x →
        (x.2.pages f).pageId = (s.pages f).pageId ∧
        (x.2.pages f).pinCount = (s.pages f).pinCount := by
      intro x hx
      unfold BPM.flushPg at hx
      rcases hfd : EHT.find hashP s.pageTable pid with _ | f0
      · simp only [hfd] at hx
        rw [← hx]
        exact ⟨rfl, rfl⟩
      · simp only [hfd] at hx
        by_cases hinv : pid = -1
        · rw [if_pos hinv] at hx
          rw [← hx]
          exact ⟨rfl, rfl⟩
        · rw [if_neg hinv] at hx
          rw [← hx]
          show (updF s.pages f0 { s.pages f0 with isDirty := false } f).pageId
              = (s.pages f).pageId ∧
            (updF s.pages f0 { s.pages f0 with isDirty := false } f).pinCount
              = (s.pages f).pinCount
          by_cases hf0f : f = f0
          · rw [hf0f, updF_same]
            exact ⟨rfl, rfl⟩
          · rw [updF_other _ _ _ hf0f]
            exact ⟨rfl, rfl⟩
    exact hchar _ rfl
  · exact flushFold_page f (List.range s.poolSize) s

theorem C1_pin_safety_witness :
    (runB Int.toNat 1 2 4 true 0 (fun _ => 0) [BOp.newOp 1]
      = some (⟨1, updF (fun _ => ⟨-1, 0, false, 0⟩) 0 ⟨0, 1, false, 0⟩,
          ⟨0, 4, 1, [⟨4, 0, [((0 : Int), 0)]⟩], [0]⟩,
          ⟨2, 1, 1, 0, updF (updF (fun _ => ⟨0, true, 0⟩) 0 ⟨1, true, 0⟩) 0 ⟨1, false, 0⟩,
            updF (fun _ => []) 0 [1], [(1, 0)], []⟩,
          [], 1, fun _ => 0, []⟩ : BPM)) ∧
    (0 < ((⟨1, updF (fun _ => ⟨-1, 0, false, 0⟩) 0 ⟨0, 1, false, 0⟩,
          ⟨0, 4, 1, [⟨4, 0, [((0 : Int), 0)]⟩], [0]⟩,
          ⟨2, 1, 1, 0, updF (updF (fun _ => ⟨0, true, 0⟩) 0 ⟨1, true, 0⟩) 0 ⟨1, false, 0⟩,
            updF (fun _ => []) 0 [1], [(1, 0)], []⟩,
          [], 1, fun _ => 0, []⟩ : BPM).pages 0).pinCount) ∧
    PinSafe Int.toNat
      (⟨1, updF (fun _ => ⟨-1, 0, false, 0⟩) 0 ⟨0, 1, false, 0⟩,
          ⟨0, 4, 1, [⟨4, 0, [((0 : Int), 0)]⟩], [0]⟩,
          ⟨2, 1, 1, 0, updF (updF (fun _ => ⟨0, true, 0⟩) 0 ⟨1, true, 0⟩) 0 ⟨1, false, 0⟩,
            updF (fun _ => []) 0 [1], [(1, 0)], []⟩,
          [], 1, fun _ => 0, []⟩ : BPM) 0 :=
  ⟨rfl, by decide,
    C1_pin_safety Int.toNat 1 2 4 true 0 (fun _ => 0) [BOp.newOp 1] rfl 0 (by decide)⟩
